import Mathlib

/-!
Verification of the tscprojpy property-classification tree-rewrite engine.

The development shallowly embeds the JSON project tree and the scaling
passes of the repository:
  * `DirectScaler` (src/tscprojpy/direct_scaler.py) — spatial pass on raw JSON,
  * `PropertyTransformer._transform_dict_spatial` / `_transform_dict_temporal`
    (src/tscprojpy/transforms/engine.py) — spatial/temporal passes on raw JSON,
  * the special-value sanitizers (direct_scaler._fix_special_values and
    serialization/json_encoder.CamtasiaJSONEncoder._preprocess),
  * the loader version gate (serialization/loader.py, serialization/version.py).

Modelling conventions:
  * Python numbers: `int` is `ℤ`; `float` is `FloatVal` — an exact rational
    for finite values plus the IEEE specials `inf`, `neginf`, `nan`.
    Finite float arithmetic is idealized as exact rational arithmetic.
  * Python `bool` is a subclass of `int` (`isinstance(True, int)` holds), so
    numeric guards `isinstance(v, (int, float))` accept booleans; booleans
    scale as 0/1 and produce `int` results, as in CPython.
  * JSON objects are ordered association lists with (as produced by
    `json.load`) unique keys; the embedding processes entries positionally.
  * Operations that raise `TypeError`/`OverflowError`/`ValueError` in Python
    (`"s" * 1.0`, `int(inf)`, …) are modelled with `Except Unit`.
-/

namespace Tscprojpy

/-- A Python `float` value: a finite value (idealized as an exact rational)
or one of the IEEE-754 special values. -/
inductive FloatVal where
  | fin : ℚ → FloatVal
  | inf : FloatVal
  | neginf : FloatVal
  | nan : FloatVal
deriving DecidableEq

mutual

/-- A node of the untyped JSON project tree (the values `json.load` can
produce): integer, float, string, boolean, null, array, object. -/
inductive Node where
  | vInt : ℤ → Node
  | vFloat : FloatVal → Node
  | vStr : String → Node
  | vBool : Bool → Node
  | vNull : Node
  | arr : NodeList → Node
  | obj : NodeKVs → Node
deriving DecidableEq

/-- A JSON array: an ordered list of nodes. -/
inductive NodeList where
  | nil : NodeList
  | cons : Node → NodeList → NodeList
deriving DecidableEq

/-- A JSON object: an insertion-ordered association list of string keys to
nodes (Python `dict` preserves insertion order). -/
inductive NodeKVs where
  | nil : NodeKVs
  | cons : String → Node → NodeKVs → NodeKVs
deriving DecidableEq

end

/-- Length of a JSON array (`len(value)`). -/
def NodeList.length : NodeList → Nat
  | .nil => 0
  | .cons _ xs => 1 + xs.length

/-- `d.get(k)` / `k in d`: value at the first occurrence of key `k`. -/
def NodeKVs.lookup (k : String) : NodeKVs → Option Node
  | .nil => none
  | .cons k' v rest => if k' = k then some v else rest.lookup k

/-- The ordered list of keys of an object (`d.keys()`). -/
def NodeKVs.keys : NodeKVs → List String
  | .nil => []
  | .cons k _ rest => k :: rest.keys

/-- `d[k] = v` for an existing key `k`: replace the value at the first
occurrence of `k`, keeping insertion order (CPython dict semantics). -/
def NodeKVs.setKey (k : String) (v : Node) : NodeKVs → NodeKVs
  | .nil => .nil
  | .cons k' v' rest => if k' = k then .cons k' v rest else .cons k' v' (rest.setKey k v)

/-- `isinstance(v, (int, float))` — note Python booleans are ints. -/
def Node.isNum : Node → Bool
  | .vInt _ => true
  | .vBool _ => true
  | .vFloat _ => true
  | _ => false

/-- A leaf (non-container) node. -/
def Node.isLeaf : Node → Bool
  | .arr _ => false
  | .obj _ => false
  | _ => true

/-! ### Except monad evaluation lemmas -/

@[simp] theorem exceptOkBind {ε α β : Type} (a : α) (g : α → Except ε β) :
    (Except.ok a : Except ε α) >>= g = g a := rfl

@[simp] theorem exceptErrorBind {ε α β : Type} (e : ε) (g : α → Except ε β) :
    (Except.error e : Except ε α) >>= g = Except.error e := rfl

@[simp] theorem exceptMapOk {ε α β : Type} (g : α → β) (a : α) :
    g <$> (Except.ok a : Except ε α) = Except.ok (g a) := rfl

@[simp] theorem exceptMapError {ε α β : Type} (g : α → β) (e : ε) :
    g <$> (Except.error e : Except ε α) = Except.error e := rfl

@[simp] theorem exceptPureEq {ε α : Type} (a : α) :
    (pure a : Except ε α) = Except.ok a := rfl

@[simp] theorem exceptThrowEq {ε α : Type} (e : ε) :
    (throw e : Except ε α) = Except.error e := rfl

/-! ### Numeric primitives -/

/-- Python 3 `round` on an (idealized, exact) value: round half to even. -/
def roundHalfEven (q : ℚ) : ℤ :=
  if Int.fract q < 1/2 then ⌊q⌋
  else if 1/2 < Int.fract q then ⌊q⌋ + 1
  else if ⌊q⌋ % 2 = 0 then ⌊q⌋ else ⌊q⌋ + 1

/-- Python `int(x)` on a finite float: truncation toward zero. -/
def truncQ (q : ℚ) : ℤ := if 0 ≤ q then ⌊q⌋ else ⌈q⌉

/-- Multiplication of a Python float by a finite float factor: exact on
finite values; `inf * f` follows IEEE sign rules, `inf * 0.0 = nan`,
`nan * f = nan`. -/
def FloatVal.mulFin : FloatVal → ℚ → FloatVal
  | .fin q, f => .fin (q * f)
  | .inf, f => if 0 < f then .inf else if f < 0 then .neginf else .nan
  | .neginf, f => if 0 < f then .neginf else if f < 0 then .inf else .nan
  | .nan, _ => .nan

/-- The numeric value of a numeric node, as a rational (`True` counts as 1);
`none` for non-numeric nodes and for non-finite floats. -/
def Node.finQ : Node → Option ℚ
  | .vInt n => some (n : ℚ)
  | .vBool b => some (if b then 1 else 0)
  | .vFloat (.fin q) => some q
  | _ => none

/-- DirectScaler's type-preserving scaling of one numeric leaf
(direct_scaler.py:197-209 and the analogous rect / keyframe / wrapper
branches): `scaled = value * factor`; if the original was an `int`
(booleans included) the result is `int(round(scaled))`, otherwise the float
product is kept. Callers guard with `isinstance(value, (int, float))`; on
non-numeric nodes this is unreached and returns the node unchanged. -/
def dsScaleNum (f : ℚ) : Node → Node
  | .vInt n => .vInt (roundHalfEven ((n : ℚ) * f))
  | .vBool b => .vInt (roundHalfEven ((if b then (1 : ℚ) else 0) * f))
  | .vFloat fv => .vFloat (fv.mulFin f)
  | n => n

/-- DirectScaler's unguarded `value * factor` followed by the type-preserving
cast (the `rect`/`trackRect` element scaling, direct_scaler.py:164-185, and
the root width/height scaling): a non-numeric operand raises `TypeError`. -/
def dsScaleNumE (f : ℚ) (v : Node) : Except Unit Node :=
  if v.isNum then .ok (dsScaleNum f v) else .error ()

/-- Engine `value * self.config.factor` on a numeric node (engine.py
`scale_value` and the rect/keyframe branches): Python's `int * float` and
`bool * float` are `float`, so the result is always a float — the original
integer representation is not preserved. -/
def pyMulNum (f : ℚ) : Node → Node
  | .vInt n => .vFloat (.fin ((n : ℚ) * f))
  | .vBool b => .vFloat (.fin ((if b then (1 : ℚ) else 0) * f))
  | .vFloat fv => .vFloat (fv.mulFin f)
  | n => n

/-- Unguarded engine `value * self.config.factor`: `TypeError` on
non-numeric operands. -/
def pyMulNumE (f : ℚ) (v : Node) : Except Unit Node :=
  if v.isNum then .ok (pyMulNum f v) else .error ()

/-- Engine temporal `int(value * self.config.factor)` (engine.py:221,225):
truncation toward zero, always producing an `int`. Raises on non-numeric
operands (`TypeError`) and on non-finite floats (`int(inf)` is
`OverflowError`, `int(nan)` is `ValueError`). -/
def pyIntOfMul (f : ℚ) : Node → Except Unit Node
  | .vInt n => .ok (.vInt (truncQ ((n : ℚ) * f)))
  | .vBool b => .ok (.vInt (truncQ ((if b then (1 : ℚ) else 0) * f)))
  | .vFloat (.fin q) => .ok (.vInt (truncQ (q * f)))
  | _ => .error ()

/-! ### Property classification tables -/

/-- `DirectScaler.scale_properties` (direct_scaler.py:27-49). -/
def dsScaleProps : List String :=
  ["width", "height", "widthAttr", "heightAttr",
   "translation0", "translation1", "translation2",
   "scale0", "scale1", "scale2",
   "geometryCrop0", "geometryCrop1", "geometryCrop2", "geometryCrop3",
   "corner-radius", "stroke-width",
   "default-width", "default-height",
   "default-translation0", "default-translation1", "default-translation2",
   "default-scale", "default-scale0", "default-scale1", "default-scale2"]

/-- `DirectScaler.preserve_properties` (direct_scaler.py:52-56): the
explicit exclusion set. -/
def dsPreserveProps : List String := ["sampleRate", "integratedLUFS", "peakLevel"]

/-- `scale_properties` of `PropertyTransformer._transform_dict_spatial`
(engine.py:122-139). -/
def spScaleProps : List String :=
  ["width", "height", "translation0", "translation1", "translation2",
   "scale0", "scale1", "scale2",
   "geometryCrop0", "geometryCrop1", "geometryCrop2", "geometryCrop3",
   "corner-radius", "stroke-width", "widthAttr", "heightAttr"]

/-- `time_properties` of `PropertyTransformer._transform_dict_temporal`
(engine.py:190-198). -/
def tmTimeProps : List String :=
  ["start", "duration", "mediaStart", "mediaDuration", "trimStartSum", "time", "endTime"]

/-- The duration-like keys exempt from temporal scaling on audio
(engine.py:207). -/
def tmAudioExemptKeys : List String := ["duration", "mediaStart", "mediaDuration"]

/-- `TransformConfig.preserve_audio_duration` defaults to `True`
(engine.py:26). -/
def preserveAudioDefault : Bool := true

/-- `parent_key in scale_properties` where `parent_key` may be `None`
(`None` is in no set). -/
def memProps (pk : Option String) (props : List String) : Bool :=
  match pk with
  | some p => props.contains p
  | none => false

/-! ### Special-value sanitizer -/

/-- `1.7976931348623157e+308`, the largest finite double, used by both
sanitizers as the safe finite magnitude. -/
def maxSafeFloat : ℚ := 17976931348623157 * 10 ^ 292

/-- One float through `DirectScaler._fix_special_values`
(direct_scaler.py:99-107): `inf ↦ ±maxSafeFloat` (sign-preserving),
`nan ↦ 0.0`, finite floats unchanged. -/
def fixFloat : FloatVal → FloatVal
  | .fin q => .fin q
  | .inf => .fin maxSafeFloat
  | .neginf => .fin (-maxSafeFloat)
  | .nan => .fin 0

mutual

/-- `DirectScaler._fix_special_values` (direct_scaler.py:90-112): rebuild
the tree, replacing every non-finite float leaf; every other leaf is
returned unchanged. `CamtasiaJSONEncoder._preprocess`
(json_encoder.py:24-42) performs the identical replacement (`Infinity ↦
-MIN_SAFE_FLOAT = +1.7976931348623157e+308`, `-Infinity ↦ MIN_SAFE_FLOAT`,
`NaN ↦ 0.0`), so this single definition embeds both sanitizer passes. -/
def fixSpecialValues : Node → Node
  | .vFloat fv => .vFloat (fixFloat fv)
  | .arr xs => .arr (fixSpecialValuesList xs)
  | .obj kvs => .obj (fixSpecialValuesKVs kvs)
  | n => n

def fixSpecialValuesList : NodeList → NodeList
  | .nil => .nil
  | .cons x xs => .cons (fixSpecialValues x) (fixSpecialValuesList xs)

def fixSpecialValuesKVs : NodeKVs → NodeKVs
  | .nil => .nil
  | .cons k v rest => .cons k (fixSpecialValues v) (fixSpecialValuesKVs rest)

end

mutual

/-- No non-finite float value occurs anywhere in the tree. -/
def noSpecial : Node → Bool
  | .vFloat (.fin _) => true
  | .vFloat _ => false
  | .arr xs => noSpecialList xs
  | .obj kvs => noSpecialKVs kvs
  | _ => true

def noSpecialList : NodeList → Bool
  | .nil => true
  | .cons x xs => noSpecial x && noSpecialList xs

def noSpecialKVs : NodeKVs → Bool
  | .nil => true
  | .cons _ v rest => noSpecial v && noSpecialKVs rest

end

/-! ### The DirectScaler spatial walk (direct_scaler.py)

`DirectScaler._scale_recursive(obj, parent_key)` mutates `obj` in place and
returns `None`; its entire observable effect is the new state of `obj`.  The
embedding `dsWalk f pk` therefore maps a node to the post-call state of that
node.  Two in-place phases of the source are fused into per-entry functions
where the fusion is behavior-preserving:

* keyframes (lines 186-196 then the recursion at 220-222): the source first
  scales `kf["value"]` for each keyframe dict when the enclosing property is
  spatial, then recurses into the same list with `parent_key="keyframes"`.
  The recursion leaves the freshly scaled numeric `"value"` leaf unchanged
  (`"value"` is not in `scale_properties`), so per keyframe entry the net
  effect is: scale a numeric `"value"` when the owner is spatial, and
  process every other entry generically with `parent_key="keyframes"`.
* wrapped values (lines 210-218 then the recursion): the source scales
  `value["value"]` when numeric, then recurses into the same wrapper dict
  with `parent_key=key`; the recursion leaves the scaled numeric `"value"`
  leaf unchanged, giving the fused `dsWalkWrapEntries`.
* a scaled `rect`/`trackRect` is replaced by a fresh list (line 174), and
  the subsequent recursion runs on the detached old list, whose elements are
  necessarily numeric scalars here (non-numeric elements raise `TypeError`
  during scaling), so that recursion has no observable effect.
-/

/-- Elementwise scaling of a 4-element `rect`/`trackRect` array
(direct_scaler.py:164-185): unguarded `v * factor` with type preservation. -/
def dsScaleList (f : ℚ) : NodeList → Except Unit NodeList
  | .nil => pure .nil
  | .cons x xs => do
      let y ← dsScaleNumE f x
      let ys ← dsScaleList f xs
      pure (.cons y ys)

mutual

/-- Post-call state of a node under `DirectScaler._scale_recursive` with
parent key `pk` (direct_scaler.py:154-226). -/
def dsWalk (f : ℚ) (pk : Option String) : Node → Except Unit Node
  | .obj kvs => do
      let l ← dsWalkEntries f pk kvs
      pure (.obj l)
  | .arr xs => do
      let l ← dsWalkList f pk xs
      pure (.arr l)
  | n => pure n

/-- The list branch (direct_scaler.py:224-226): each item is walked with the
same parent key. -/
def dsWalkList (f : ℚ) (pk : Option String) : NodeList → Except Unit NodeList
  | .nil => pure .nil
  | .cons x xs => do
      let y ← dsWalk f pk x
      let ys ← dsWalkList f pk xs
      pure (.cons y ys)

/-- The dict branch (direct_scaler.py:161-222): every entry is processed in
order; keys are never added or removed and in-place assignment keeps
insertion order. -/
def dsWalkEntries (f : ℚ) (pk : Option String) : NodeKVs → Except Unit NodeKVs
  | .nil => pure .nil
  | .cons k v rest => do
      let v' ← dsEntry f pk k v
      let rest' ← dsWalkEntries f pk rest
      pure (.cons k v' rest')

/-- The per-entry branch chain of `_scale_recursive` for entry `(k, v)` of a
dict whose parent key is `pk`: `rect`/`trackRect` length-4 arrays are scaled
elementwise; a `keyframes` list gets the keyframe treatment; a numeric value
under a spatial key is scaled with type preservation; a wrapper dict under a
spatial key gets its `"value"` scaled; any other dict or list is recursed
into with the entry's key as new parent key; other scalars are unchanged. -/
def dsEntry (f : ℚ) (pk : Option String) (k : String) (v : Node) : Except Unit Node :=
  match v with
  | .arr xs =>
      if k = "rect" && xs.length == 4 then do
        let ys ← dsScaleList f xs
        pure (Node.arr ys)
      else if k = "trackRect" && xs.length == 4 then do
        let ys ← dsScaleList f xs
        pure (Node.arr ys)
      else if k = "keyframes" then do
        let ys ← dsWalkKfList f pk xs
        pure (Node.arr ys)
      else do
        let ys ← dsWalkList f (some k) xs
        pure (Node.arr ys)
  | .obj w =>
      if dsScaleProps.contains k && !(dsPreserveProps.contains k)
          && (w.lookup "value").isSome then do
        let w' ← dsWalkWrapEntries f k w
        pure (Node.obj w')
      else do
        let w' ← dsWalkEntries f (some k) w
        pure (Node.obj w')
  | n =>
      if dsScaleProps.contains k && !(dsPreserveProps.contains k) && n.isNum then
        pure (dsScaleNum f n)
      else pure n

/-- The keyframes list: each keyframe is value-scaled (when the owning
property `pk` is spatial) and then walked with parent key `"keyframes"`. -/
def dsWalkKfList (f : ℚ) (pk : Option String) : NodeList → Except Unit NodeList
  | .nil => pure .nil
  | .cons kf kfs => do
      let kf' ←
        match kf with
        | .obj w => do
            let w' ← dsWalkKfEntries f pk w
            pure (Node.obj w')
        | .arr xs => do
            let xs' ← dsWalkList f (some "keyframes") xs
            pure (Node.arr xs')
        | n => pure n
      let kfs' ← dsWalkKfList f pk kfs
      pure (.cons kf' kfs')

/-- Entries of one keyframe dict: a numeric `"value"` is scaled when the
owning animated property `pk` is spatial; every other entry is processed
generically with parent key `"keyframes"`. -/
def dsWalkKfEntries (f : ℚ) (pk : Option String) : NodeKVs → Except Unit NodeKVs
  | .nil => pure .nil
  | .cons k v rest => do
      let v' ←
        if k = "value" && memProps pk dsScaleProps && v.isNum then
          pure (dsScaleNum f v)
        else
          dsEntry f (some "keyframes") k v
      let rest' ← dsWalkKfEntries f pk rest
      pure (.cons k v' rest')

/-- Entries of a wrapper dict found under spatial key `k0`: a numeric
`"value"` is scaled; every other entry is processed generically with parent
key `k0` (the wrapper is recursed into after the in-place value update). -/
def dsWalkWrapEntries (f : ℚ) (k0 : String) : NodeKVs → Except Unit NodeKVs
  | .nil => pure .nil
  | .cons k v rest => do
      let v' ←
        if k = "value" && v.isNum then
          pure (dsScaleNum f v)
        else
          dsEntry f (some k0) k v
      let rest' ← dsWalkWrapEntries f k0 rest
      pure (.cons k v' rest')

end

/-- One entry of a keyframe dict, as a standalone function
(the step of `dsWalkKfEntries`). -/
def dsKfEntry (f : ℚ) (pk : Option String) (k : String) (v : Node) : Except Unit Node :=
  if k = "value" && memProps pk dsScaleProps && v.isNum then
    pure (dsScaleNum f v)
  else
    dsEntry f (some "keyframes") k v

/-- One entry of a wrapper dict, as a standalone function
(the step of `dsWalkWrapEntries`). -/
def dsWrapEntry (f : ℚ) (k0 : String) (k : String) (v : Node) : Except Unit Node :=
  if k = "value" && v.isNum then
    pure (dsScaleNum f v)
  else
    dsEntry f (some k0) k v

/-- Fallible in-place update of the value at an existing key (Python
`data[k] = upd(data[k])` keeps insertion order). -/
def NodeKVs.setKeyE (k : String) (upd : Node → Except Unit Node) : NodeKVs → Except Unit NodeKVs
  | .nil => pure .nil
  | .cons k' v rest =>
      if k' = k then do
        let v' ← upd v
        pure (.cons k' v' rest)
      else do
        let rest' ← rest.setKeyE k upd
        pure (.cons k' v rest')

/-- The root recursion of `DirectScaler.scale_data` (direct_scaler.py:148-150):
every root entry other than `width`/`height` whose value is a dict or list is
walked in place with the entry's key as parent key; root scalars are never
touched here. -/
def dsScaleDataLoop (f : ℚ) : NodeKVs → Except Unit NodeKVs
  | .nil => pure .nil
  | .cons k v rest => do
      let v' ←
        if k = "width" ∨ k = "height" then pure v
        else
          match v with
          | .obj w => do
              let w' ← dsWalkEntries f (some k) w
              pure (Node.obj w')
          | .arr xs => do
              let xs' ← dsWalkList f (some k) xs
              pure (Node.arr xs')
          | n => pure n
      let rest' ← dsScaleDataLoop f rest
      pure (.cons k v' rest')

/-- `DirectScaler.scale_data` (direct_scaler.py:114-152): scale root
`width`/`height` in place with type preservation (unguarded multiply), then
walk every other root container entry.  The source mutates its argument and
returns it, so the returned tree is also the post-call state of the input.
A non-dict argument fails (`data.items()` / `"width" in data` raise). -/
def dsScaleData (f : ℚ) : Node → Except Unit Node
  | .obj kvs => do
      let kvs₁ ←
        if (kvs.lookup "width").isSome then kvs.setKeyE "width" (dsScaleNumE f)
        else pure kvs
      let kvs₂ ←
        if (kvs₁.lookup "height").isSome then kvs₁.setKeyE "height" (dsScaleNumE f)
        else pure kvs₁
      let kvs₃ ← dsScaleDataLoop f kvs₂
      pure (.obj kvs₃)
  | _ => .error ()

/-- The `DirectScaler.scale_file` data flow on the decoded tree
(direct_scaler.py:58-88): sanitize after decode, scale, then emit through
`CamtasiaJSONEncoder`, whose `encode`/`iterencode` first applies
`_preprocess` (the sanitizer) to the whole tree. -/
def dsPipeline (f : ℚ) (d : Node) : Except Unit Node := do
  let scaled ← dsScaleData f (fixSpecialValues d)
  pure (fixSpecialValues scaled)

/-! ### The engine dict spatial pass
(`PropertyTransformer._transform_dict_spatial`, engine.py:112-178)

Unlike the DirectScaler, this walk builds a fresh `result` dict at every
level and copies each keyframe dict before writing it (`kf.copy()`); it
performs no write into its argument, so the input tree is unchanged after
the call and the embedding returns the constructed result. -/

/-- `scale_value` (engine.py:141-145): a numeric value under a spatial key
becomes `value * factor` — in Python an `int * float` is a `float`, so the
original integer representation is not preserved. -/
def spScaleValue (f : ℚ) (k : String) (v : Node) : Node :=
  if spScaleProps.contains k && v.isNum then pyMulNum f v else v

/-- The `rect`/`trackRect` branch (engine.py:152-157):
`[v * self.config.factor for v in value]`, unguarded. -/
def spMulList (f : ℚ) : NodeList → Except Unit NodeList
  | .nil => pure .nil
  | .cons x xs => do
      let y ← pyMulNumE f x
      let ys ← spMulList f xs
      pure (.cons y ys)

/-- The keyframes branch, one entry (engine.py:158-167): a keyframe dict is
copied and, when the owning property `pk` is spatial, its `"value"` is
multiplied by the factor (unguarded — a non-numeric `"value"` raises).
Keyframe entries are not recursed into. -/
def spKf (f : ℚ) (pk : Option String) (kf : Node) : Except Unit Node :=
  match kf with
  | .obj w =>
      match w.lookup "value" with
      | some u =>
          if memProps pk spScaleProps then do
            let u' ← pyMulNumE f u
            pure (Node.obj (w.setKey "value" u'))
          else pure (Node.obj w)
      | none => pure (Node.obj w)
  | n => pure n

/-- The keyframes branch over the whole list. -/
def spKfList (f : ℚ) (pk : Option String) : NodeList → Except Unit NodeList
  | .nil => pure .nil
  | .cons x xs => do
      let y ← spKf f pk x
      let ys ← spKfList f pk xs
      pure (.cons y ys)

mutual

/-- `transform_dict_recursive` of the spatial dict pass (engine.py:147-176)
with parent key `pk`. -/
def spWalk (f : ℚ) (pk : Option String) : Node → Except Unit Node
  | .obj kvs => do
      let l ← spWalkEntries f pk kvs
      pure (.obj l)
  | .arr xs => do
      let l ← spWalkList f pk xs
      pure (.arr l)
  | n => pure n

def spWalkList (f : ℚ) (pk : Option String) : NodeList → Except Unit NodeList
  | .nil => pure .nil
  | .cons x xs => do
      let y ← spWalk f pk x
      let ys ← spWalkList f pk xs
      pure (.cons y ys)

def spWalkEntries (f : ℚ) (pk : Option String) : NodeKVs → Except Unit NodeKVs
  | .nil => pure .nil
  | .cons k v rest => do
      let v' ← spEntry f pk k v
      let rest' ← spWalkEntries f pk rest
      pure (.cons k v' rest')

/-- The per-entry branch chain of the spatial dict pass (engine.py:152-171)
for entry `(k, v)` of a dict whose parent key is `pk`. -/
def spEntry (f : ℚ) (pk : Option String) (k : String) (v : Node) : Except Unit Node :=
  match v with
  | .arr xs =>
      if k = "rect" && xs.length == 4 then do
        let ys ← spMulList f xs
        pure (Node.arr ys)
      else if k = "trackRect" && xs.length == 4 then do
        let ys ← spMulList f xs
        pure (Node.arr ys)
      else if k = "keyframes" then do
        let ys ← spKfList f pk xs
        pure (Node.arr ys)
      else do
        let ys ← spWalkList f (some k) xs
        pure (Node.arr ys)
  | .obj w => do
      let w' ← spWalkEntries f (some k) w
      pure (Node.obj w')
  | n => pure (spScaleValue f k n)

end

/-- `PropertyTransformer._transform_dict_spatial` applied to the whole
document: the recursive walk with no parent key. -/
def spTransformDict (f : ℚ) (d : Node) : Except Unit Node := spWalk f none d

/-! ### The engine dict temporal pass
(`PropertyTransformer._transform_dict_temporal`, engine.py:180-236) -/

/-- `current_type = obj.get("_type", parent_type)` (engine.py:216).  The
value is only ever compared against the string `"AMFile"` and propagated, so
a present but non-string `_type` — which in Python shadows the parent type
with a value that can never equal `"AMFile"` — is collapsed to `none`,
which is observationally identical. -/
def currentTypeOf (kvs : NodeKVs) (pt : Option String) : Option String :=
  match kvs.lookup "_type" with
  | some (.vStr s) => some s
  | some _ => none
  | none => pt

/-- `should_scale_temporal` (engine.py:200-210): scale keys in
`time_properties`, except the duration-like keys of an `AMFile` when audio
duration is being preserved. -/
def shouldScaleT (pa : Bool) (ct : Option String) (k : String) : Bool :=
  if !(tmTimeProps.contains k) then false
  else if pa && (ct == some "AMFile") && tmAudioExemptKeys.contains k then false
  else true

/-- The `range` branch (engine.py:219-221):
`[int(v * self.config.factor) for v in value]`. -/
def tmRangeList (f : ℚ) : NodeList → Except Unit NodeList
  | .nil => pure .nil
  | .cons x xs => do
      let y ← pyIntOfMul f x
      let ys ← tmRangeList f xs
      pure (.cons y ys)

mutual

/-- `transform_dict_recursive` of the temporal dict pass (engine.py:212-234)
with audio-preservation flag `pa` and inherited media type `pt`. -/
def tmWalk (pa : Bool) (f : ℚ) (pt : Option String) : Node → Except Unit Node
  | .obj kvs => do
      let l ← tmWalkEntries pa f (currentTypeOf kvs pt) kvs
      pure (.obj l)
  | .arr xs => do
      let l ← tmWalkList pa f pt xs
      pure (.arr l)
  | n => pure n

def tmWalkList (pa : Bool) (f : ℚ) (pt : Option String) : NodeList → Except Unit NodeList
  | .nil => pure .nil
  | .cons x xs => do
      let y ← tmWalk pa f pt x
      let ys ← tmWalkList pa f pt xs
      pure (.cons y ys)

/-- Entries of one dict, processed with the already-computed
`current_type` `ct`. -/
def tmWalkEntries (pa : Bool) (f : ℚ) (ct : Option String) : NodeKVs → Except Unit NodeKVs
  | .nil => pure .nil
  | .cons k v rest => do
      let v' ← tmEntry pa f ct k v
      let rest' ← tmWalkEntries pa f ct rest
      pure (.cons k v' rest')

/-- The per-entry branch chain of the temporal dict pass (engine.py:218-229)
for entry `(k, v)` of a dict whose current type is `ct`. -/
def tmEntry (pa : Bool) (f : ℚ) (ct : Option String) (k : String) (v : Node) : Except Unit Node :=
  match v with
  | .arr xs =>
      if k = "range" && xs.length == 2 then do
        let ys ← tmRangeList f xs
        pure (Node.arr ys)
      else do
        let ys ← tmWalkList pa f ct xs
        pure (Node.arr ys)
  | .obj w => do
      let w' ← tmWalkEntries pa f (currentTypeOf w ct) w
      pure (Node.obj w')
  | n =>
      if shouldScaleT pa ct k && n.isNum then pyIntOfMul f n
      else pure n

end

/-- `PropertyTransformer._transform_dict_temporal` applied to the whole
document: the recursive walk with no parent type. -/
def tmTransformDict (pa : Bool) (f : ℚ) (d : Node) : Except Unit Node := tmWalk pa f none d

/-! ### The encoder's sanitizer (json_encoder.py) -/

/-- `CamtasiaJSONEncoder.MIN_SAFE_FLOAT = -1.7976931348623157e+308`
(json_encoder.py:16). -/
def minSafeFloat : ℚ := -(17976931348623157 * 10 ^ 292)

/-- One float through `CamtasiaJSONEncoder._preprocess`
(json_encoder.py:26-37): `Infinity ↦ -MIN_SAFE_FLOAT`,
`-Infinity ↦ MIN_SAFE_FLOAT`, `NaN ↦ 0.0`, finite floats unchanged. -/
def encFixFloat : FloatVal → FloatVal
  | .fin q => .fin q
  | .inf => .fin (-minSafeFloat)
  | .neginf => .fin minSafeFloat
  | .nan => .fin 0

mutual

/-- `CamtasiaJSONEncoder._preprocess` (json_encoder.py:24-42), applied by
both `encode` and `iterencode` before serialization. -/
def encPreprocess : Node → Node
  | .vFloat fv => .vFloat (encFixFloat fv)
  | .arr xs => .arr (encPreprocessList xs)
  | .obj kvs => .obj (encPreprocessKVs kvs)
  | n => n

def encPreprocessList : NodeList → NodeList
  | .nil => .nil
  | .cons x xs => .cons (encPreprocess x) (encPreprocessList xs)

def encPreprocessKVs : NodeKVs → NodeKVs
  | .nil => .nil
  | .cons k v rest => .cons k (encPreprocess v) (encPreprocessKVs rest)

end

/-! ### The loader version gate
(serialization/loader.py, serialization/version.py) -/

/-- `data.get("version", "")` as used by `detect_version` (version.py:49),
on a dict.  A present non-string version can match no known version value,
exactly like the empty string, and is collapsed to `""`. -/
def versionStrOf (kvs : NodeKVs) : String :=
  match kvs.lookup "version" with
  | some (.vStr s) => s
  | some _ => ""
  | none => ""

/-- `is_supported_version` (version.py:62-88): `detect_version` matches the
declared version string against the known `ProjectVersion` values and the
result is supported exactly for `"4.0"` and `"9.0"`. -/
def isSupportedVersionKVs (kvs : NodeKVs) : Bool :=
  versionStrOf kvs = "4.0" || versionStrOf kvs = "9.0"

/-- Membership of the sourceBin-item check: items must be dicts carrying an
`id` (loader.py:117-121).  Error-message text is abridged; only presence of
errors is observable to `load_dict`. -/
def sourceBinItemErrors (i : Nat) : NodeList → List String
  | .nil => []
  | .cons x xs =>
      (match x with
       | .obj w =>
           if (w.lookup "id").isSome then []
           else ["sourceBin[" ++ toString i ++ "] missing 'id' field"]
       | _ => ["sourceBin[" ++ toString i ++ "] must be a dictionary"])
      ++ sourceBinItemErrors (i + 1) xs

/-- Whether each of the required fields is missing (loader.py:105-110). -/
def missingFieldErrors (kvs : NodeKVs) : List String → List String
  | [] => []
  | fieldName :: rest =>
      (if (kvs.lookup fieldName).isSome then []
       else ["Missing required field: " ++ fieldName])
      ++ missingFieldErrors kvs rest

/-- `ProjectLoader.validate_structure` (loader.py:87-129).  Error-message
text is abridged (the source interpolates the version and index into
f-strings); `load_dict` only observes whether the list is empty. -/
def validateStructure : Node → List String
  | .obj kvs =>
      (if kvs.lookup "version" = some (.vStr "9.0")
          ∨ kvs.lookup "version" = some (.vStr "4.0") then
        missingFieldErrors kvs ["version", "editRate", "width", "height"]
      else [])
      ++ (match kvs.lookup "sourceBin" with
          | some (.arr xs) => sourceBinItemErrors 0 xs
          | some _ => ["sourceBin must be a list"]
          | none => [])
      ++ (match kvs.lookup "timeline" with
          | some (.obj _) => []
          | some _ => ["timeline must be a dictionary"]
          | none => [])
  | _ => ["Project data must be a dictionary"]

/-- The exceptions `load_dict` can raise before handing off to
`Project.from_dict`. -/
inductive LoadErr where
  | valueError (msg : String)
  | attributeError
deriving DecidableEq

/-- The version/structure gate of `ProjectLoader.load_dict`
(loader.py:52-77): validation issues raise `ValueError` only in strict
mode; an unvalidated version raises `ValueError` only in strict mode, and
otherwise processing continues with a warning.  (`is_supported_version` on
a non-dict raises `AttributeError`; `Project.from_dict` runs after this
gate and is outside its scope.) -/
def loadGate (strict : Bool) (d : Node) : Except LoadErr Unit := do
  let errors := validateStructure d
  if errors ≠ [] ∧ strict then
    throw (.valueError ("Invalid project structure: " ++ String.intercalate "; " errors))
  else
    match d with
    | .obj kvs =>
        if !(isSupportedVersionKVs kvs) then
          if strict then throw (.valueError "Unsupported project version")
          else pure ()
        else pure ()
    | _ => throw .attributeError

/-! ### Mutation model

A Python caller observes two things from a walk call: the returned tree and
the state of the tree it passed in.  The `...WithInput` forms return both.
The second component is read off the source's write pattern:

* the engine walks (`transform_dict_recursive` of both dict passes,
  engine.py:147-176 and 212-234) write only into the freshly allocated
  `result` dict of each level and into keyframe copies made by `kf.copy()`
  (engine.py:162); no statement writes into the argument, so the argument's
  post-call state is the argument itself;
* `DirectScaler.scale_data` / `_scale_recursive` assign into the passed-in
  dicts themselves (`data["width"] = ...`, `obj[key] = ...`,
  `kf["value"] = ...`, `value["value"] = ...`) and `scale_data` returns its
  own argument, so the returned tree and the input's post-call state are one
  and the same object. -/

/-- Engine spatial walk, returning `(result, post-call state of the input)`. -/
def spWalkWithInput (f : ℚ) (pk : Option String) (n : Node) : Except Unit (Node × Node) := do
  let r ← spWalk f pk n
  pure (r, n)

/-- Engine temporal walk, returning `(result, post-call state of the input)`. -/
def tmWalkWithInput (pa : Bool) (f : ℚ) (pt : Option String) (n : Node) :
    Except Unit (Node × Node) := do
  let r ← tmWalk pa f pt n
  pure (r, n)

/-- `DirectScaler.scale_data`, returning `(result, post-call state of the
input)`; the source mutates in place and returns its argument. -/
def dsScaleDataWithInput (f : ℚ) (n : Node) : Except Unit (Node × Node) := do
  let r ← dsScaleData f n
  pure (r, r)

/-! ### Paths, classification predicates and preservation relations
(specification vocabulary for the theorems) -/

/-- One step of a path into the tree: an object key or an array index. -/
inductive PathElem where
  | key : String → PathElem
  | idx : Nat → PathElem
deriving DecidableEq

/-- Element of a JSON array at an index. -/
def NodeList.get? : Nat → NodeList → Option Node
  | _, .nil => none
  | 0, .cons x _ => some x
  | i + 1, .cons _ xs => xs.get? i

/-- The node reached by following a path of keys and indices. -/
def atPath : List PathElem → Node → Option Node
  | [], n => some n
  | .key k :: p, .obj kvs =>
      match kvs.lookup k with
      | some v => atPath p v
      | none => none
  | .idx i :: p, .arr xs =>
      match xs.get? i with
      | some v => atPath p v
      | none => none
  | _ :: _, _ => none

/-- The key list of an object node. -/
def keyList : Node → Option (List String)
  | .obj kvs => some kvs.keys
  | _ => none

/-- The ordered key list of the object at a path, when there is one. -/
def keysAt (p : List PathElem) (n : Node) : Option (List String) :=
  (atPath p n).bind keyList

/-- Keys that the DirectScaler spatial pass never classifies: not in the
spatial table and not one of the contextual keys (`rect`, `trackRect`,
`keyframes`, and the keyframe/wrapper `value`). -/
def unclassDS (k : String) : Bool :=
  !(dsScaleProps.contains k) && !(["rect", "trackRect", "keyframes", "value"].contains k)

/-- Keys that the engine temporal pass never classifies: not in the
temporal table and not `range`. -/
def unclassTM (k : String) : Bool :=
  !(tmTimeProps.contains k) && !(k == "range")

mutual

/-- Structure-preservation relation between a tree and its image under a
pass, relative to a set `U` of unclassified keys: containers line up
constructor by constructor, every object keeps its key sequence, a leaf maps
to a leaf, and the value of an unclassified key that is a leaf is unchanged. -/
def PresN (U : String → Bool) : Node → Node → Prop
  | .obj kvs, .obj kvs' => PresKVs U kvs kvs'
  | .arr xs, .arr xs' => PresL U xs xs'
  | x, y => x.isLeaf = true ∧ y.isLeaf = true

def PresL (U : String → Bool) : NodeList → NodeList → Prop
  | .nil, .nil => True
  | .cons x xs, .cons y ys => PresN U x y ∧ PresL U xs ys
  | _, _ => False

def PresKVs (U : String → Bool) : NodeKVs → NodeKVs → Prop
  | .nil, .nil => True
  | .cons k v rest, .cons k' v' rest' =>
      k' = k ∧ (U k = true → v.isLeaf = true → v' = v) ∧ PresN U v v' ∧ PresKVs U rest rest'
  | _, _ => False

end

mutual

/-- Proximity of two trees up to integer-rounding drift `B`: equal except
that corresponding integer leaves may differ by at most `B`. -/
def NearN (B : ℚ) : Node → Node → Prop
  | .vInt m, .vInt n => |(m : ℚ) - (n : ℚ)| ≤ B
  | .arr xs, .arr ys => NearL B xs ys
  | .obj kvs, .obj kvs' => NearKVs B kvs kvs'
  | x, y => x = y

def NearL (B : ℚ) : NodeList → NodeList → Prop
  | .nil, .nil => True
  | .cons x xs, .cons y ys => NearN B x y ∧ NearL B xs ys
  | _, _ => False

def NearKVs (B : ℚ) : NodeKVs → NodeKVs → Prop
  | .nil, .nil => True
  | .cons k v rest, .cons k' v' rest' => k' = k ∧ NearN B v v' ∧ NearKVs B rest rest'
  | _, _ => False

end

/-- Positional proximity of two root entry lists during the staged root
scaling of `scale_data`: same spine and keys; values under keys satisfying
`P` may drift within `B`, all other values are identical. -/
def NearAt (P : String → Bool) (B : ℚ) : NodeKVs → NodeKVs → Prop
  | .nil, .nil => True
  | .cons k v rest, .cons k' v' rest' =>
      k' = k ∧ (if P k then NearN B v v' else v' = v) ∧ NearAt P B rest rest'
  | _, _ => False

/-! ### Literal-tree builders for concrete statements -/

def obj1 (k : String) (v : Node) : Node := .obj (.cons k v .nil)

def obj2 (k1 : String) (v1 : Node) (k2 : String) (v2 : Node) : Node :=
  .obj (.cons k1 v1 (.cons k2 v2 .nil))

def obj5 (k1 : String) (v1 : Node) (k2 : String) (v2 : Node) (k3 : String) (v3 : Node)
    (k4 : String) (v4 : Node) (k5 : String) (v5 : Node) : Node :=
  .obj (.cons k1 v1 (.cons k2 v2 (.cons k3 v3 (.cons k4 v4 (.cons k5 v5 .nil)))))

def arr2 (x y : Node) : Node := .arr (.cons x (.cons y .nil))

def arr4 (x y z w : Node) : Node := .arr (.cons x (.cons y (.cons z (.cons w .nil))))

/-! ## Theorems -/

/-! ### General helper lemmas -/

theorem bindOkInv {α β : Type} {ea : Except Unit α} {g : α → Except Unit β} {b : β}
    (h : ea >>= g = .ok b) : ∃ a, ea = .ok a ∧ g a = .ok b := by
  cases ea with
  | ok a => exact ⟨a, rfl, h⟩
  | error e => simp at h

/-- C3: a bare `value` field inside a keyframe entry is classified by the
name of the property that owns the keyframe list, not by its own key: for
keyframes under property `translation0` equal to
`[{time:0,value:100},{time:100,value:200}]`, the Spatial pass with factor
2.0 yields `[{time:0,value:200},{time:100,value:400}]` (only `value`
scaled), and the Temporal pass with factor 2.0 yields
`[{time:0,value:100},{time:200,value:200}]` (only `time` scaled). -/
theorem claim_C3 :
    (dsScaleData 2
        (obj1 "translation0" (obj1 "keyframes" (arr2
          (obj2 "time" (.vInt 0) "value" (.vInt 100))
          (obj2 "time" (.vInt 100) "value" (.vInt 200)))))
      = .ok (obj1 "translation0" (obj1 "keyframes" (arr2
          (obj2 "time" (.vInt 0) "value" (.vInt 200))
          (obj2 "time" (.vInt 100) "value" (.vInt 400))))))
    ∧ (tmTransformDict preserveAudioDefault 2
        (obj1 "translation0" (obj1 "keyframes" (arr2
          (obj2 "time" (.vInt 0) "value" (.vInt 100))
          (obj2 "time" (.vInt 100) "value" (.vInt 200)))))
      = .ok (obj1 "translation0" (obj1 "keyframes" (arr2
          (obj2 "time" (.vInt 0) "value" (.vInt 100))
          (obj2 "time" (.vInt 200) "value" (.vInt 200)))))) := by
  constructor
  · norm_num +decide [obj1, obj2, arr2, dsScaleData, dsScaleDataLoop, NodeKVs.lookup,
      NodeKVs.setKeyE, dsWalkEntries, dsEntry, dsWalkKfList, dsWalkKfEntries, dsScaleNum,
      dsScaleNumE, Node.isNum, memProps, roundHalfEven, Int.fract, NodeList.length]
  · norm_num +decide [obj1, obj2, arr2, tmTransformDict, tmWalk, tmWalkEntries, tmEntry,
      tmWalkList, tmRangeList, currentTypeOf, shouldScaleT, pyIntOfMul, truncQ,
      preserveAudioDefault, NodeKVs.lookup, Node.isNum, NodeList.length]

/-! ### C1: type preservation of scaled numeric leaves -/

/-- C1 fails on the code: the claim asserts that in the Temporal pass a
real leaf scales to the full-precision real `value * factor` and an integer
leaf to `round_half_even(value * factor)`, and that in the Spatial pass
integer-in implies integer-out.  The engine temporal pass instead computes
`int(value * factor)`: on `{start: 100.7}` with factor 1.0 it yields the
integer `100` (truncated, not `round_half_even`, and not a real), and the
engine spatial pass on `{width: 1920}` with factor 1.5 yields the real
`2880.0` rather than the integer `2880`. -/
theorem claim_C1_counterexample :
    (tmTransformDict preserveAudioDefault 1 (obj1 "start" (.vFloat (.fin (1007 / 10))))
        = .ok (obj1 "start" (.vInt 100))
      ∧ Node.vInt 100 ≠ Node.vFloat (.fin ((1007 / 10) * 1))
      ∧ (100 : ℤ) ≠ roundHalfEven ((1007 / 10) * 1))
    ∧ (spTransformDict (3/2) (obj1 "width" (.vInt 1920))
        = .ok (obj1 "width" (.vFloat (.fin 2880)))
      ∧ Node.vFloat (.fin 2880) ≠ Node.vInt 2880) := by
  refine ⟨⟨?_, by simp, ?_⟩, ?_, by simp⟩
  · norm_num +decide [obj1, tmTransformDict, tmWalk, tmWalkEntries, tmEntry, currentTypeOf,
      shouldScaleT, pyIntOfMul, truncQ, preserveAudioDefault, NodeKVs.lookup, Node.isNum]
  · norm_num [roundHalfEven, Int.fract]
  · norm_num +decide [obj1, spTransformDict, spWalk, spWalkEntries, spEntry, spScaleValue,
      pyMulNum, Node.isNum, NodeKVs.lookup]

/-- C1 amended: type preservation holds for the DirectScaler spatial pass —
an integer leaf becomes `round_half_even(value*factor)` as an integer
(independently per element of a scaled `rect` array) and a real leaf stays
a full-precision real.  The engine dict passes do not preserve types: the
spatial one returns `value * factor` as a real for every scaled leaf, and
the temporal one returns `int(value * factor)` (truncation) as an integer
for every scaled leaf, whatever the original representation. -/
theorem claim_C1_amended (n m : ℤ) (q : ℚ) (f : ℚ) (pa : Bool) :
    (dsScaleData f (obj1 "width" (.vInt n))
        = .ok (obj1 "width" (.vInt (roundHalfEven ((n : ℚ) * f)))))
    ∧ (dsScaleData f (obj1 "width" (.vFloat (.fin q)))
        = .ok (obj1 "width" (.vFloat (.fin (q * f)))))
    ∧ (dsScaleData f (obj1 "clip" (obj1 "rect"
          (arr4 (.vInt n) (.vFloat (.fin q)) (.vInt m) (.vInt n))))
        = .ok (obj1 "clip" (obj1 "rect"
          (arr4 (.vInt (roundHalfEven ((n : ℚ) * f))) (.vFloat (.fin (q * f)))
                (.vInt (roundHalfEven ((m : ℚ) * f))) (.vInt (roundHalfEven ((n : ℚ) * f)))))))
    ∧ (spTransformDict f (obj1 "width" (.vInt n))
        = .ok (obj1 "width" (.vFloat (.fin ((n : ℚ) * f)))))
    ∧ (tmTransformDict pa f (obj1 "start" (.vInt n))
        = .ok (obj1 "start" (.vInt (truncQ ((n : ℚ) * f)))))
    ∧ (tmTransformDict pa f (obj1 "start" (.vFloat (.fin q)))
        = .ok (obj1 "start" (.vInt (truncQ (q * f))))) := by
  refine ⟨?_, ?_, ?_, ?_, ?_, ?_⟩
  · simp +decide [obj1, dsScaleData, dsScaleDataLoop, NodeKVs.lookup, NodeKVs.setKeyE,
      dsScaleNumE, dsScaleNum, Node.isNum, FloatVal.mulFin]
  · simp +decide [obj1, dsScaleData, dsScaleDataLoop, NodeKVs.lookup, NodeKVs.setKeyE,
      dsScaleNumE, dsScaleNum, Node.isNum, FloatVal.mulFin]
  · simp +decide [obj1, arr4, dsScaleData, dsScaleDataLoop, NodeKVs.lookup, NodeKVs.setKeyE,
      dsWalkEntries, dsEntry, dsScaleList, dsScaleNumE, dsScaleNum, Node.isNum,
      FloatVal.mulFin, NodeList.length]
  · simp +decide [obj1, spTransformDict, spWalk, spWalkEntries, spEntry, spScaleValue,
      pyMulNum, Node.isNum, NodeKVs.lookup, FloatVal.mulFin]
  · simp +decide [obj1, tmTransformDict, tmWalk, tmWalkEntries, tmEntry, currentTypeOf,
      shouldScaleT, pyIntOfMul, NodeKVs.lookup, Node.isNum]
  · simp +decide [obj1, tmTransformDict, tmWalk, tmWalkEntries, tmEntry, currentTypeOf,
      shouldScaleT, pyIntOfMul, NodeKVs.lookup, Node.isNum]

/-! ### C4: the special-value sanitizer -/

theorem encFixFloat_eq_fixFloat (fv : FloatVal) : encFixFloat fv = fixFloat fv := by
  cases fv <;> simp [encFixFloat, fixFloat, minSafeFloat, maxSafeFloat]

mutual

theorem fix_eq_encPreprocess : (n : Node) → fixSpecialValues n = encPreprocess n
  | .vInt _ => rfl
  | .vFloat fv => by
      simp [fixSpecialValues, encPreprocess, encFixFloat_eq_fixFloat]
  | .vStr _ => rfl
  | .vBool _ => rfl
  | .vNull => rfl
  | .arr xs => by
      simp [fixSpecialValues, encPreprocess, fixList_eq_encPreprocessList xs]
  | .obj kvs => by
      simp [fixSpecialValues, encPreprocess, fixKVs_eq_encPreprocessKVs kvs]

theorem fixList_eq_encPreprocessList : (xs : NodeList) →
    fixSpecialValuesList xs = encPreprocessList xs
  | .nil => rfl
  | .cons x xs => by
      simp [fixSpecialValuesList, encPreprocessList, fix_eq_encPreprocess x,
        fixList_eq_encPreprocessList xs]

theorem fixKVs_eq_encPreprocessKVs : (kvs : NodeKVs) →
    fixSpecialValuesKVs kvs = encPreprocessKVs kvs
  | .nil => rfl
  | .cons k v rest => by
      simp [fixSpecialValuesKVs, encPreprocessKVs, fix_eq_encPreprocess v,
        fixKVs_eq_encPreprocessKVs rest]

end

mutual

theorem noSpecial_encPreprocess : (n : Node) → noSpecial (encPreprocess n) = true
  | .vInt _ => rfl
  | .vFloat fv => by cases fv <;> rfl
  | .vStr _ => rfl
  | .vBool _ => rfl
  | .vNull => rfl
  | .arr xs => by
      simp [encPreprocess, noSpecial, noSpecialList_encPreprocessList xs]
  | .obj kvs => by
      simp [encPreprocess, noSpecial, noSpecialKVs_encPreprocessKVs kvs]

theorem noSpecialList_encPreprocessList : (xs : NodeList) →
    noSpecialList (encPreprocessList xs) = true
  | .nil => rfl
  | .cons x xs => by
      simp [encPreprocessList, noSpecialList, noSpecial_encPreprocess x,
        noSpecialList_encPreprocessList xs]

theorem noSpecialKVs_encPreprocessKVs : (kvs : NodeKVs) →
    noSpecialKVs (encPreprocessKVs kvs) = true
  | .nil => rfl
  | .cons k v rest => by
      simp [encPreprocessKVs, noSpecialKVs, noSpecial_encPreprocess v,
        noSpecialKVs_encPreprocessKVs rest]

end

/-- C4: the special-value sanitizer, applied to every real-valued leaf
regardless of classification both immediately after decode
(`_fix_special_values`) and immediately before encode
(`CamtasiaJSONEncoder._preprocess`), replaces `Infinity` with
`1.7976931348623157e+308`, `-Infinity` with `-1.7976931348623157e+308` and
`NaN` with `0.0`, leaves all finite reals and all non-real leaves
unchanged, the two sanitizer passes compute the same function, and no
non-finite value appears in the emitted output of the scaling pipeline,
whether it was present in the input or produced by scaling. -/
theorem claim_C4 (z : ℤ) (s : String) (bv : Bool) (q f : ℚ) (d out : Node) :
    (encPreprocess (.vFloat .inf) = .vFloat (.fin (17976931348623157 * 10 ^ 292))
      ∧ encPreprocess (.vFloat .neginf) = .vFloat (.fin (-(17976931348623157 * 10 ^ 292)))
      ∧ encPreprocess (.vFloat .nan) = .vFloat (.fin 0)
      ∧ encPreprocess (.vFloat (.fin q)) = .vFloat (.fin q)
      ∧ encPreprocess (.vInt z) = .vInt z
      ∧ encPreprocess (.vStr s) = .vStr s
      ∧ encPreprocess (.vBool bv) = .vBool bv
      ∧ encPreprocess .vNull = .vNull)
    ∧ (∀ n, fixSpecialValues n = encPreprocess n)
    ∧ (∀ n, noSpecial (encPreprocess n) = true)
    ∧ (dsPipeline f d = .ok out → noSpecial out = true) := by
  refine ⟨⟨?_, ?_, rfl, rfl, rfl, rfl, rfl, rfl⟩, fix_eq_encPreprocess, noSpecial_encPreprocess, ?_⟩
  · simp [encPreprocess, encFixFloat, minSafeFloat]
  · simp [encPreprocess, encFixFloat, minSafeFloat]
  · intro h
    obtain ⟨scaled, _, h2⟩ := bindOkInv h
    simp only [exceptPureEq, Except.ok.injEq] at h2
    subst h2
    rw [fix_eq_encPreprocess]
    exact noSpecial_encPreprocess scaled

/-- Witness for C4: a document whose `integratedLUFS` is `-Infinity` runs
through the pipeline and the emitted tree contains no special value. -/
theorem claim_C4_witness :
    dsPipeline 2 (obj1 "integratedLUFS" (.vFloat .neginf))
        = .ok (obj1 "integratedLUFS" (.vFloat (.fin (-(17976931348623157 * 10 ^ 292)))))
      ∧ noSpecial (obj1 "integratedLUFS" (.vFloat (.fin (-(17976931348623157 * 10 ^ 292))))) = true := by
  have hpipe : dsPipeline 2 (obj1 "integratedLUFS" (.vFloat .neginf))
      = .ok (obj1 "integratedLUFS" (.vFloat (.fin (-(17976931348623157 * 10 ^ 292))))) := by
    norm_num +decide [obj1, dsPipeline, fixSpecialValues, fixSpecialValuesKVs, fixFloat,
      maxSafeFloat, dsScaleData, dsScaleDataLoop, NodeKVs.lookup, NodeKVs.setKeyE]
  exact ⟨hpipe,
    (claim_C4 0 "" false 0 2 (obj1 "integratedLUFS" (.vFloat .neginf)) _).2.2.2 hpipe⟩

/-! ### C9: the unsupported-version policy of the loader -/

/-- C9: when the loaded document declares a format version that is not
validated as supported, `load_dict` raises a fatal `ValueError` if the
caller opted into strict mode, and with strict mode off the version gate
always passes, so an unsupported or unknown version never makes `load_dict`
fail for that reason. -/
theorem claim_C9 (kvs : NodeKVs) (h : isSupportedVersionKVs kvs = false) :
    (∃ msg, loadGate true (.obj kvs) = .error (.valueError msg))
    ∧ loadGate false (.obj kvs) = .ok () := by
  constructor
  · by_cases he : validateStructure (.obj kvs) = []
    · refine ⟨"Unsupported project version", ?_⟩
      simp [loadGate, he, h]
    · refine ⟨"Invalid project structure: "
        ++ String.intercalate "; " (validateStructure (.obj kvs)), ?_⟩
      simp [loadGate, he]
  · simp [loadGate, h]

/-- Witness for C9: a legacy version-3.0 document (unsupported) is rejected
with `ValueError` in strict mode and passes the gate in default mode. -/
theorem claim_C9_witness :
    (∃ msg, loadGate true (.obj (.cons "version" (.vStr "3.0") .nil))
        = .error (.valueError msg))
    ∧ loadGate false (.obj (.cons "version" (.vStr "3.0") .nil)) = .ok () :=
  claim_C9 (.cons "version" (.vStr "3.0") .nil) (by decide)

/-! ### Generic lemmas about entrywise dict walks -/

/-- Any entrywise dict walk sends the (first) value found under a key to
the entry transform of that value, keeping the key in place. -/
theorem entriesWalk_lookup
    (E : String → Node → Except Unit Node)
    (W : NodeKVs → Except Unit NodeKVs)
    (hW : ∀ k v rest, W (.cons k v rest) = do
        let v' ← E k v
        let rest' ← W rest
        pure (.cons k v' rest')) :
    ∀ (kvs kvs' : NodeKVs), W kvs = .ok kvs' → ∀ k v, kvs.lookup k = some v →
      ∃ v', E k v = .ok v' ∧ kvs'.lookup k = some v'
  | .nil, _, _, k, v, hv => by simp [NodeKVs.lookup] at hv
  | .cons k0 v0 rest, kvs', hok, k, v, hv => by
      rw [hW] at hok
      obtain ⟨v1, hE, hok2⟩ := bindOkInv hok
      obtain ⟨rest1, hR, hok3⟩ := bindOkInv hok2
      simp only [exceptPureEq, Except.ok.injEq] at hok3
      subst hok3
      by_cases hk : k0 = k
      · subst hk
        simp only [NodeKVs.lookup] at hv ⊢
        simp at hv ⊢
        subst hv
        simpa using hE
      · simp only [NodeKVs.lookup, if_neg hk] at hv ⊢
        exact entriesWalk_lookup E W hW rest rest1 hR k v hv

/-- Any entrywise dict walk preserves the key sequence exactly. -/
theorem entriesWalk_keys
    (E : String → Node → Except Unit Node)
    (W : NodeKVs → Except Unit NodeKVs)
    (hWnil : W .nil = pure .nil)
    (hW : ∀ k v rest, W (.cons k v rest) = do
        let v' ← E k v
        let rest' ← W rest
        pure (.cons k v' rest')) :
    ∀ (kvs kvs' : NodeKVs), W kvs = .ok kvs' → kvs'.keys = kvs.keys
  | .nil, kvs', hok => by
      rw [hWnil] at hok
      simp only [exceptPureEq, Except.ok.injEq] at hok
      subst hok
      rfl
  | .cons k0 v0 rest, kvs', hok => by
      rw [hW] at hok
      obtain ⟨v1, hE, hok2⟩ := bindOkInv hok
      obtain ⟨rest1, hR, hok3⟩ := bindOkInv hok2
      simp only [exceptPureEq, Except.ok.injEq] at hok3
      subst hok3
      simp only [NodeKVs.keys]
      exact congrArg _ (entriesWalk_keys E W hWnil hW rest rest1 hR)

/-- `pyIntOfMul` on a finite numeric node yields the truncated integer. -/
theorem pyIntOfMul_finQ {x : Node} {q : ℚ} (h : x.finQ = some q) (f : ℚ) :
    pyIntOfMul f x = .ok (.vInt (truncQ (q * f))) := by
  cases x with
  | vInt n =>
      simp only [Node.finQ, Option.some.injEq] at h
      simp [pyIntOfMul, h]
  | vBool b =>
      simp only [Node.finQ, Option.some.injEq] at h
      simp [pyIntOfMul, h]
  | vFloat fv =>
      cases fv with
      | fin r =>
          simp only [Node.finQ, Option.some.injEq] at h
          simp [pyIntOfMul, h]
      | inf => simp [Node.finQ] at h
      | neginf => simp [Node.finQ] at h
      | nan => simp [Node.finQ] at h
  | vStr s => simp [Node.finQ] at h
  | vNull => simp [Node.finQ] at h
  | arr xs => simp [Node.finQ] at h
  | obj kvs => simp [Node.finQ] at h

/-! ### C2: audio duration preservation in the temporal pass -/

/-- Inversion of the temporal walk on an object node. -/
theorem tmWalk_obj_ok {pa : Bool} {f : ℚ} {pt : Option String} {kvs kvs' : NodeKVs}
    (h : tmWalk pa f pt (.obj kvs) = .ok (.obj kvs')) :
    tmWalkEntries pa f (currentTypeOf kvs pt) kvs = .ok kvs' := by
  simp only [tmWalk] at h
  cases he : tmWalkEntries pa f (currentTypeOf kvs pt) kvs with
  | ok l =>
      rw [he] at h
      simp only [exceptOkBind, exceptPureEq, Except.ok.injEq, Node.obj.injEq] at h
      rw [h]
  | error e =>
      rw [he] at h
      simp at h

/-- C2: for the Temporal pass with the audio-duration-preservation flag on
(its default), on any object whose type tag identifies an audio media item
(`_type` is `"AMFile"`), the fields `duration`, `mediaStart` and
`mediaDuration` are returned unchanged while `start` is scaled; in
particular on `{_type:"AMFile", start:100, duration:200, mediaStart:0,
mediaDuration:200}` with factor 2.0 the result is
`{start:200, duration:200, mediaStart:0, mediaDuration:200}`. -/
theorem claim_C2 (f : ℚ) (pt : Option String) (kvs kvs' : NodeKVs)
    (hty : kvs.lookup "_type" = some (.vStr "AMFile"))
    (hok : tmWalk preserveAudioDefault f pt (.obj kvs) = .ok (.obj kvs')) :
    (∀ k v, (k = "duration" ∨ k = "mediaStart" ∨ k = "mediaDuration") →
      v.isLeaf = true → kvs.lookup k = some v → kvs'.lookup k = some v)
    ∧ (∀ n : ℤ, kvs.lookup "start" = some (.vInt n) →
        kvs'.lookup "start" = some (.vInt (truncQ ((n : ℚ) * f))))
    ∧ (tmTransformDict preserveAudioDefault 2
        (obj5 "_type" (.vStr "AMFile") "start" (.vInt 100) "duration" (.vInt 200)
          "mediaStart" (.vInt 0) "mediaDuration" (.vInt 200))
      = .ok (obj5 "_type" (.vStr "AMFile") "start" (.vInt 200) "duration" (.vInt 200)
          "mediaStart" (.vInt 0) "mediaDuration" (.vInt 200))) := by
  have hentries := tmWalk_obj_ok hok
  have hct : currentTypeOf kvs pt = some "AMFile" := by
    simp [currentTypeOf, hty]
  rw [hct] at hentries
  refine ⟨?_, ?_, ?_⟩
  · intro k v hk hleaf hv
    obtain ⟨v', hE, hl⟩ := entriesWalk_lookup (tmEntry preserveAudioDefault f (some "AMFile"))
      (tmWalkEntries preserveAudioDefault f (some "AMFile"))
      (fun _ _ _ => rfl) kvs kvs' hentries k v hv
    have hEv : v' = v := by
      have hss : shouldScaleT preserveAudioDefault (some "AMFile") k = false := by
        rcases hk with rfl | rfl | rfl <;> decide
      cases v with
      | arr xs => simp [Node.isLeaf] at hleaf
      | obj w => simp [Node.isLeaf] at hleaf
      | vInt n => simp [tmEntry, hss] at hE; exact hE.symm
      | vBool b => simp [tmEntry, hss] at hE; exact hE.symm
      | vFloat fv => simp [tmEntry, hss] at hE; exact hE.symm
      | vStr s => simp [tmEntry, hss] at hE; exact hE.symm
      | vNull => simp [tmEntry, hss] at hE; exact hE.symm
    exact hEv ▸ hl
  · intro n hv
    obtain ⟨v', hE, hl⟩ := entriesWalk_lookup (tmEntry preserveAudioDefault f (some "AMFile"))
      (tmWalkEntries preserveAudioDefault f (some "AMFile"))
      (fun _ _ _ => rfl) kvs kvs' hentries "start" (.vInt n) hv
    have hEv : v' = .vInt (truncQ ((n : ℚ) * f)) := by
      have hss : shouldScaleT preserveAudioDefault (some "AMFile") "start" = true := by decide
      simp [tmEntry, hss, Node.isNum, pyIntOfMul] at hE
      exact hE.symm
    exact hEv ▸ hl
  · norm_num +decide [obj5, tmTransformDict, tmWalk, tmWalkEntries, tmEntry, currentTypeOf,
      shouldScaleT, pyIntOfMul, truncQ, preserveAudioDefault, NodeKVs.lookup, Node.isNum]

/-- Witness for C2: the claim's audio media item, temporally scaled by 2.0 —
`duration` is looked up unchanged and `start` comes back doubled. -/
theorem claim_C2_witness :
    NodeKVs.lookup "duration"
        (.cons "_type" (.vStr "AMFile") (.cons "start" (.vInt 200) (.cons "duration" (.vInt 200)
          (.cons "mediaStart" (.vInt 0) (.cons "mediaDuration" (.vInt 200) .nil)))))
      = some (.vInt 200)
    ∧ NodeKVs.lookup "start"
        (.cons "_type" (.vStr "AMFile") (.cons "start" (.vInt 200) (.cons "duration" (.vInt 200)
          (.cons "mediaStart" (.vInt 0) (.cons "mediaDuration" (.vInt 200) .nil)))))
      = some (.vInt 200) := by
  have hok : tmWalk preserveAudioDefault 2 none
      (.obj (.cons "_type" (.vStr "AMFile") (.cons "start" (.vInt 100) (.cons "duration" (.vInt 200)
        (.cons "mediaStart" (.vInt 0) (.cons "mediaDuration" (.vInt 200) .nil))))))
      = .ok (.obj (.cons "_type" (.vStr "AMFile") (.cons "start" (.vInt 200)
        (.cons "duration" (.vInt 200)
        (.cons "mediaStart" (.vInt 0) (.cons "mediaDuration" (.vInt 200) .nil)))))) := by
    norm_num +decide [tmWalk, tmWalkEntries, tmEntry, currentTypeOf, shouldScaleT, pyIntOfMul,
      truncQ, preserveAudioDefault, NodeKVs.lookup, Node.isNum]
  have h := claim_C2 2 none _ _ (by decide) hok
  refine ⟨h.1 "duration" (.vInt 200) (Or.inl rfl) (by decide) (by decide), ?_⟩
  have h2 := h.2.1 100 (by decide)
  have : truncQ ((100 : ℤ) * (2 : ℚ)) = 200 := by norm_num [truncQ]
  rw [this] at h2
  exact h2

/-! ### C8: temporal tick ranges are truncated, not rounded -/

/-- C8: under the Temporal pass, every two-element `range` array is scaled
elementwise by the factor and each element is then truncated toward zero to
an integer tick. -/
theorem claim_C8 (pa : Bool) (f : ℚ) (pt : Option String) (kvs kvs' : NodeKVs)
    (x1 x2 : Node) (q1 q2 : ℚ)
    (h1 : x1.finQ = some q1) (h2 : x2.finQ = some q2)
    (hr : kvs.lookup "range" = some (arr2 x1 x2))
    (hok : tmWalk pa f pt (.obj kvs) = .ok (.obj kvs')) :
    kvs'.lookup "range" = some (arr2 (.vInt (truncQ (q1 * f))) (.vInt (truncQ (q2 * f)))) := by
  have hentries := tmWalk_obj_ok hok
  obtain ⟨v', hE, hl⟩ := entriesWalk_lookup (tmEntry pa f (currentTypeOf kvs pt))
    (tmWalkEntries pa f (currentTypeOf kvs pt)) (fun _ _ _ => rfl)
    kvs kvs' hentries "range" _ hr
  have hEv : v' = arr2 (.vInt (truncQ (q1 * f))) (.vInt (truncQ (q2 * f))) := by
    simp +decide [tmEntry, arr2, NodeList.length, tmRangeList,
      pyIntOfMul_finQ h1, pyIntOfMul_finQ h2] at hE
    exact hE.symm
  exact hEv ▸ hl

/-- Witness for C8: the range `[3, 3.5]` at factor 1.0 comes back as
`[3, 3]` — `3.5` is truncated toward zero, not rounded. -/
theorem claim_C8_witness :
    NodeKVs.lookup "range"
        (.cons "range" (arr2 (.vInt 3) (.vInt 3)) .nil)
      = some (arr2 (.vInt 3) (.vInt 3)) := by
  have hok : tmWalk true 1 none (.obj (.cons "range" (arr2 (.vInt 3) (.vFloat (.fin (7/2)))) .nil))
      = .ok (.obj (.cons "range" (arr2 (.vInt 3) (.vInt 3)) .nil)) := by
    norm_num +decide [tmWalk, tmWalkEntries, tmEntry, currentTypeOf, tmRangeList, pyIntOfMul,
      truncQ, NodeKVs.lookup, arr2, NodeList.length]
  have h := claim_C8 true 1 none _ _ (.vInt 3) (.vFloat (.fin (7/2))) 3 (7/2)
    rfl rfl (by simp [NodeKVs.lookup]) hok
  have e1 : truncQ ((3 : ℚ) * 1) = 3 := by norm_num [truncQ]
  have e2 : truncQ ((7/2 : ℚ) * 1) = 3 := by norm_num [truncQ]
  rw [e1, e2] at h
  exact h

/-! ### C10: wrapped values under a spatial key -/

theorem isLeaf_of_isNum {v : Node} (h : v.isNum = true) : v.isLeaf = true := by
  cases v <;> simp_all [Node.isNum, Node.isLeaf]

theorem scaleProps_disjoint_preserve : ∀ k ∈ dsScaleProps, dsPreserveProps.contains k = false := by
  decide

theorem dsWalkWrapEntries_cons (f : ℚ) (k0 k : String) (v : Node) (rest : NodeKVs) :
    dsWalkWrapEntries f k0 (.cons k v rest) = (do
      let v' ← dsWrapEntry f k0 k v
      let rest' ← dsWalkWrapEntries f k0 rest
      pure (.cons k v' rest')) := by
  rw [dsWalkWrapEntries, dsWrapEntry]
  split_ifs <;> rfl

theorem dsWalkKfEntries_cons (f : ℚ) (pk : Option String) (k : String) (v : Node)
    (rest : NodeKVs) :
    dsWalkKfEntries f pk (.cons k v rest) = (do
      let v' ← dsKfEntry f pk k v
      let rest' ← dsWalkKfEntries f pk rest
      pure (.cons k v' rest')) := by
  rw [dsWalkKfEntries, dsKfEntry]
  split_ifs <;> rfl

/-- C10 fails on the code: the claim asserts that when a spatial key maps to
a wrapper object containing a numeric `value`, every field of the wrapper
other than `value` is left unchanged.  In fact, after scaling the inner
`value` the DirectScaler recurses into the same wrapper dict
(direct_scaler.py:221), so a sibling field whose key is itself spatial is
scaled too: on `{outer: {scale0: {value: 100, width: 50}}}` with factor 2.0
the wrapper comes back as `{value: 200, width: 100}`, not the claimed
`{value: 200, width: 50}`. -/
theorem claim_C10_counterexample :
    dsScaleData 2 (obj1 "outer" (obj1 "scale0" (obj2 "value" (.vInt 100) "width" (.vInt 50))))
      = .ok (obj1 "outer" (obj1 "scale0" (obj2 "value" (.vInt 200) "width" (.vInt 100))))
    ∧ obj1 "outer" (obj1 "scale0" (obj2 "value" (.vInt 200) "width" (.vInt 100)))
      ≠ obj1 "outer" (obj1 "scale0" (obj2 "value" (.vInt 200) "width" (.vInt 50))) := by
  constructor
  · norm_num +decide [obj1, obj2, dsScaleData, dsScaleDataLoop, NodeKVs.lookup, NodeKVs.setKeyE,
      dsWalkEntries, dsEntry, dsWalkWrapEntries, dsScaleNum, dsScaleNumE, Node.isNum,
      roundHalfEven, Int.fract]
  · decide

/-- C10 amended: when a spatial key maps to a wrapper object containing a
`value` field, the DirectScaler scales a numeric inner `value` by the factor
with type preservation, leaves a non-numeric `value` leaf unchanged, and
then walks the wrapper itself with the spatial key as parent context — so a
wrapper field that is not itself classified passes through unchanged, but a
sibling field whose key is in the spatial set is scaled as well. -/
theorem claim_C10_amended (f : ℚ) (pk : Option String) (k : String) (w w' : NodeKVs)
    (hk : dsScaleProps.contains k = true)
    (hval : (w.lookup "value").isSome = true)
    (hok : dsEntry f pk k (.obj w) = .ok (.obj w')) :
    (∀ u, u.isNum = true → w.lookup "value" = some u →
        w'.lookup "value" = some (dsScaleNum f u))
    ∧ (∀ u, u.isNum = false → u.isLeaf = true → w.lookup "value" = some u →
        w'.lookup "value" = some u)
    ∧ (∀ k' v, unclassDS k' = true → v.isLeaf = true → w.lookup k' = some v →
        w'.lookup k' = some v)
    ∧ (∀ k' v, k' ≠ "value" → dsScaleProps.contains k' = true → v.isNum = true →
        w.lookup k' = some v → w'.lookup k' = some (dsScaleNum f v)) := by
  have hpres : dsPreserveProps.contains k = false := by
    refine scaleProps_disjoint_preserve k ?_
    simpa [List.contains] using hk
  have hwrap : dsWalkWrapEntries f k w = .ok w' := by
    simp only [dsEntry, hk, hpres, hval, Bool.not_false, Bool.and_true, Bool.and_self,
      Bool.true_and, if_true] at hok
    cases he : dsWalkWrapEntries f k w with
    | ok l =>
        rw [he] at hok
        simp only [exceptOkBind, exceptPureEq, Except.ok.injEq, Node.obj.injEq] at hok
        rw [hok]
    | error e =>
        rw [he] at hok
        simp at hok
  have lookupLem := entriesWalk_lookup (dsWrapEntry f k)
    (dsWalkWrapEntries f k) (dsWalkWrapEntries_cons f k) w w' hwrap
  refine ⟨?_, ?_, ?_, ?_⟩
  · intro u hu hlu
    obtain ⟨v', hE, hl⟩ := lookupLem "value" u hlu
    have : v' = dsScaleNum f u := by
      simp [dsWrapEntry, hu] at hE
      exact hE.symm
    exact this ▸ hl
  · intro u hu hleaf hlu
    obtain ⟨v', hE, hl⟩ := lookupLem "value" u hlu
    have : v' = u := by
      cases u with
      | arr xs => simp [Node.isLeaf] at hleaf
      | obj ws => simp [Node.isLeaf] at hleaf
      | vInt n => simp [Node.isNum] at hu
      | vBool b => simp [Node.isNum] at hu
      | vFloat fv => simp [Node.isNum] at hu
      | vStr s => simp +decide [dsWrapEntry, hu, dsEntry] at hE; exact hE.symm
      | vNull => simp +decide [dsWrapEntry, hu, dsEntry] at hE; exact hE.symm
    exact this ▸ hl
  · intro k' v hu hleaf hlv
    obtain ⟨v', hE, hl⟩ := lookupLem k' v hlv
    simp [unclassDS] at hu
    have hkne : k' ≠ "value" := by
      intro h
      rw [h] at hu
      simp at hu
    have : v' = v := by
      cases v with
      | arr xs => simp [Node.isLeaf] at hleaf
      | obj ws => simp [Node.isLeaf] at hleaf
      | vInt n => simp [dsWrapEntry, hkne, dsEntry, hu.1] at hE; exact hE.symm
      | vBool b => simp [dsWrapEntry, hkne, dsEntry, hu.1] at hE; exact hE.symm
      | vFloat fv => simp [dsWrapEntry, hkne, dsEntry, hu.1] at hE; exact hE.symm
      | vStr s => simp [dsWrapEntry, hkne, dsEntry, hu.1] at hE; exact hE.symm
      | vNull => simp [dsWrapEntry, hkne, dsEntry, hu.1] at hE; exact hE.symm
    exact this ▸ hl
  · intro k' v hkne hk' hnum hlv
    obtain ⟨v', hE, hl⟩ := lookupLem k' v hlv
    have hmem : k' ∈ dsScaleProps := by simpa using hk'
    have hpres' : k' ∉ dsPreserveProps := by
      have := scaleProps_disjoint_preserve k' hmem
      simpa using this
    have : v' = dsScaleNum f v := by
      cases v with
      | arr xs => simp [Node.isNum] at hnum
      | obj ws => simp [Node.isNum] at hnum
      | vInt n => simp [dsWrapEntry, hkne, dsEntry, hmem, hpres', Node.isNum] at hE; exact hE.symm
      | vBool b => simp [dsWrapEntry, hkne, dsEntry, hmem, hpres', Node.isNum] at hE; exact hE.symm
      | vFloat fv =>
          simp [dsWrapEntry, hkne, dsEntry, hmem, hpres', Node.isNum] at hE; exact hE.symm
      | vStr s => simp [Node.isNum] at hnum
      | vNull => simp [Node.isNum] at hnum
    exact this ▸ hl

/-- Witness for C10 amended: wrapper `{value:100, width:50, note:"x"}` under
key `scale0` at factor 2 — `value` is scaled to 200, the classified sibling
`width` is scaled to 100, the unclassified sibling `note` is unchanged. -/
theorem claim_C10_amended_witness :
    NodeKVs.lookup "value"
        (.cons "value" (.vInt 200) (.cons "width" (.vInt 100) (.cons "note" (.vStr "x") .nil)))
      = some (.vInt 200)
    ∧ NodeKVs.lookup "width"
        (.cons "value" (.vInt 200) (.cons "width" (.vInt 100) (.cons "note" (.vStr "x") .nil)))
      = some (.vInt 100)
    ∧ NodeKVs.lookup "note"
        (.cons "value" (.vInt 200) (.cons "width" (.vInt 100) (.cons "note" (.vStr "x") .nil)))
      = some (.vStr "x") := by
  have hok : dsEntry 2 none "scale0"
      (.obj (.cons "value" (.vInt 100) (.cons "width" (.vInt 50) (.cons "note" (.vStr "x") .nil))))
      = .ok (.obj (.cons "value" (.vInt 200) (.cons "width" (.vInt 100)
          (.cons "note" (.vStr "x") .nil)))) := by
    norm_num +decide [dsEntry, dsWalkWrapEntries, NodeKVs.lookup, dsScaleNum, Node.isNum,
      roundHalfEven, Int.fract]
  have h := claim_C10_amended 2 none "scale0" _ _ (by decide) (by decide) hok
  have e1 : dsScaleNum 2 (.vInt 100) = .vInt 200 := by
    norm_num [dsScaleNum, roundHalfEven, Int.fract]
  have e2 : dsScaleNum 2 (.vInt 50) = .vInt 100 := by
    norm_num [dsScaleNum, roundHalfEven, Int.fract]
  refine ⟨?_, ?_, ?_⟩
  · have := h.1 (.vInt 100) (by decide) (by decide)
    rw [e1] at this
    exact this
  · have := h.2.2.2 "width" (.vInt 50) (by decide) (by decide) (by decide) (by decide)
    rw [e2] at this
    exact this
  · exact h.2.2.1 "note" (.vStr "x") (by decide) (by decide) (by decide)

/-! ### C5: purity of the tree walk -/

/-- C5 fails on the code for the DirectScaler walk: the claim says a pass's
tree walk never mutates its input, but `DirectScaler.scale_data` /
`_scale_recursive` assign into the passed-in dicts and return the mutated
argument.  On input `{width: 100}` with factor 2 the post-call state of the
input (the second component of `dsScaleDataWithInput`, which the source
aliases to the return value) is `{width: 200}`, not the original tree. -/
theorem claim_C5_counterexample :
    dsScaleDataWithInput 2 (obj1 "width" (.vInt 100))
      = .ok (obj1 "width" (.vInt 200), obj1 "width" (.vInt 200))
    ∧ obj1 "width" (.vInt 200) ≠ obj1 "width" (.vInt 100) := by
  constructor
  · norm_num +decide [obj1, dsScaleDataWithInput, dsScaleData, dsScaleDataLoop, NodeKVs.lookup,
      NodeKVs.setKeyE, dsScaleNumE, dsScaleNum, Node.isNum, roundHalfEven, Int.fract]
  · decide

/-- C5 amended: the engine dict walks (spatial and temporal
`transform_dict_recursive`) are pure — they build a fresh result and leave
the input tree unchanged — while the DirectScaler walk scales in place: the
input tree after the call equals the returned scaled tree rather than the
original. -/
theorem claim_C5_amended (f : ℚ) (pa : Bool) (pk pt : Option String) (n r s : Node) :
    (spWalkWithInput f pk n = .ok (r, s) → s = n)
    ∧ (tmWalkWithInput pa f pt n = .ok (r, s) → s = n)
    ∧ (dsScaleDataWithInput f n = .ok (r, s) → s = r) := by
  refine ⟨?_, ?_, ?_⟩ <;> intro h
  · obtain ⟨a, _, h2⟩ := bindOkInv h
    simp only [exceptPureEq, Except.ok.injEq, Prod.mk.injEq] at h2
    exact h2.2.symm
  · obtain ⟨a, _, h2⟩ := bindOkInv h
    simp only [exceptPureEq, Except.ok.injEq, Prod.mk.injEq] at h2
    exact h2.2.symm
  · obtain ⟨a, _, h2⟩ := bindOkInv h
    simp only [exceptPureEq, Except.ok.injEq, Prod.mk.injEq] at h2
    exact h2.2.symm.trans h2.1

/-- Witness for C5 amended: on `{width: 100}` at factor 2 the engine
spatial walk returns the scaled tree while the input's post-call state is
the untouched original. -/
theorem claim_C5_amended_witness :
    spWalkWithInput 2 none (obj1 "width" (.vInt 100))
      = .ok (obj1 "width" (.vFloat (.fin 200)), obj1 "width" (.vInt 100))
    ∧ (obj1 "width" (.vInt 100) : Node) = obj1 "width" (.vInt 100) := by
  have hok : spWalkWithInput 2 none (obj1 "width" (.vInt 100))
      = .ok (obj1 "width" (.vFloat (.fin 200)), obj1 "width" (.vInt 100)) := by
    norm_num +decide [obj1, spWalkWithInput, spWalk, spWalkEntries, spEntry, spScaleValue,
      pyMulNum, Node.isNum]
  exact ⟨hok, (claim_C5_amended 2 true none none _ _ _).1 hok⟩

/-! ### C6: structure preservation — generic lemmas about `PresN` -/

mutual

theorem presN_refl (U : String → Bool) : (n : Node) → PresN U n n
  | .vInt _ => ⟨rfl, rfl⟩
  | .vFloat _ => ⟨rfl, rfl⟩
  | .vStr _ => ⟨rfl, rfl⟩
  | .vBool _ => ⟨rfl, rfl⟩
  | .vNull => ⟨rfl, rfl⟩
  | .arr xs => presL_refl U xs
  | .obj kvs => presKVs_refl U kvs

theorem presL_refl (U : String → Bool) : (xs : NodeList) → PresL U xs xs
  | .nil => trivial
  | .cons x xs => ⟨presN_refl U x, presL_refl U xs⟩

theorem presKVs_refl (U : String → Bool) : (kvs : NodeKVs) → PresKVs U kvs kvs
  | .nil => trivial
  | .cons _ v rest => ⟨rfl, fun _ _ => rfl, presN_refl U v, presKVs_refl U rest⟩

end

/-- Transitivity at a leaf node: through `PresN` a leaf relates only to
leaves, and leaf-to-leaf relatedness is just mutual leafness. -/
theorem leafPres_trans {U : String → Bool} {a b c : Node} (ha : a.isLeaf = true)
    (hab : PresN U a b) (hbc : PresN U b c) : PresN U a c := by
  have hb : b.isLeaf = true := by
    cases a <;> cases b <;> simp_all [PresN, Node.isLeaf]
  have hc : c.isLeaf = true := by
    cases b <;> cases c <;> simp_all [PresN, Node.isLeaf]
  cases a <;> cases c <;> simp_all [PresN, Node.isLeaf]

mutual

theorem presN_trans (U : String → Bool) :
    (a b c : Node) → PresN U a b → PresN U b c → PresN U a c
  | .obj kvs, b, c, hab, hbc => by
      cases b with
      | obj kvs' =>
          cases c with
          | obj kvs'' => exact presKVs_trans U kvs kvs' kvs'' hab hbc
          | arr ys => exact absurd hbc.1 (by simp [Node.isLeaf])
          | vInt n => exact absurd hbc.1 (by simp [Node.isLeaf])
          | vFloat fv => exact absurd hbc.1 (by simp [Node.isLeaf])
          | vStr s => exact absurd hbc.1 (by simp [Node.isLeaf])
          | vBool bb => exact absurd hbc.1 (by simp [Node.isLeaf])
          | vNull => exact absurd hbc.1 (by simp [Node.isLeaf])
      | arr ys => exact absurd hab.1 (by simp [Node.isLeaf])
      | vInt n => exact absurd hab.1 (by simp [Node.isLeaf])
      | vFloat fv => exact absurd hab.1 (by simp [Node.isLeaf])
      | vStr s => exact absurd hab.1 (by simp [Node.isLeaf])
      | vBool bb => exact absurd hab.1 (by simp [Node.isLeaf])
      | vNull => exact absurd hab.1 (by simp [Node.isLeaf])
  | .arr xs, b, c, hab, hbc => by
      cases b with
      | arr ys =>
          cases c with
          | arr zs => exact presL_trans U xs ys zs hab hbc
          | obj kvs'' => exact absurd hbc.1 (by simp [Node.isLeaf])
          | vInt n => exact absurd hbc.1 (by simp [Node.isLeaf])
          | vFloat fv => exact absurd hbc.1 (by simp [Node.isLeaf])
          | vStr s => exact absurd hbc.1 (by simp [Node.isLeaf])
          | vBool bb => exact absurd hbc.1 (by simp [Node.isLeaf])
          | vNull => exact absurd hbc.1 (by simp [Node.isLeaf])
      | obj kvs' => exact absurd hab.1 (by simp [Node.isLeaf])
      | vInt n => exact absurd hab.1 (by simp [Node.isLeaf])
      | vFloat fv => exact absurd hab.1 (by simp [Node.isLeaf])
      | vStr s => exact absurd hab.1 (by simp [Node.isLeaf])
      | vBool bb => exact absurd hab.1 (by simp [Node.isLeaf])
      | vNull => exact absurd hab.1 (by simp [Node.isLeaf])
  | .vInt n, b, c, hab, hbc => leafPres_trans (by simp [Node.isLeaf]) hab hbc
  | .vFloat fv, b, c, hab, hbc => leafPres_trans (by simp [Node.isLeaf]) hab hbc
  | .vStr s, b, c, hab, hbc => leafPres_trans (by simp [Node.isLeaf]) hab hbc
  | .vBool bb, b, c, hab, hbc => leafPres_trans (by simp [Node.isLeaf]) hab hbc
  | .vNull, b, c, hab, hbc => leafPres_trans (by simp [Node.isLeaf]) hab hbc

theorem presL_trans (U : String → Bool) :
    (xs ys zs : NodeList) → PresL U xs ys → PresL U ys zs → PresL U xs zs
  | .nil, ys, zs, hab, hbc => by
      cases ys with
      | nil =>
          cases zs with
          | nil => trivial
          | cons z zs => exact absurd hbc (by simp [PresL])
      | cons y ys => exact absurd hab (by simp [PresL])
  | .cons x xs, ys, zs, hab, hbc => by
      cases ys with
      | nil => exact absurd hab (by simp [PresL])
      | cons y ys =>
          cases zs with
          | nil => exact absurd hbc (by simp [PresL])
          | cons z zs =>
              exact ⟨presN_trans U x y z hab.1 hbc.1, presL_trans U xs ys zs hab.2 hbc.2⟩

theorem presKVs_trans (U : String → Bool) :
    (a b c : NodeKVs) → PresKVs U a b → PresKVs U b c → PresKVs U a c
  | .nil, b, c, hab, hbc => by
      cases b with
      | nil =>
          cases c with
          | nil => trivial
          | cons k v r => exact absurd hbc (by simp [PresKVs])
      | cons k v r => exact absurd hab (by simp [PresKVs])
  | .cons k v rest, b, c, hab, hbc => by
      cases b with
      | nil => exact absurd hab (by simp [PresKVs])
      | cons k' v' rest' =>
          cases c with
          | nil => exact absurd hbc (by simp [PresKVs])
          | cons k'' v'' rest'' =>
              obtain ⟨hk1, hu1, hp1, hr1⟩ := hab
              obtain ⟨hk2, hu2, hp2, hr2⟩ := hbc
              refine ⟨hk2.trans hk1, ?_, presN_trans U v v' v'' hp1 hp2,
                presKVs_trans U rest rest' rest'' hr1 hr2⟩
              intro hU hleaf
              have e1 : v' = v := hu1 hU hleaf
              have e2 : v'' = v' := hu2 (hk1 ▸ hU) (e1 ▸ hleaf)
              exact e2.trans e1

end

theorem presKVs_keys (U : String → Bool) :
    (a b : NodeKVs) → PresKVs U a b → b.keys = a.keys
  | .nil, .nil, _ => rfl
  | .nil, .cons _ _ _, h => absurd h (by simp [PresKVs])
  | .cons _ _ _, .nil, h => absurd h (by simp [PresKVs])
  | .cons k v r, .cons k' v' r', h => by
      simp only [NodeKVs.keys, h.1, presKVs_keys U r r' h.2.2.2]

theorem presKVs_lookup (U : String → Bool) :
    (a b : NodeKVs) → PresKVs U a b → ∀ k v, a.lookup k = some v →
      ∃ v', b.lookup k = some v' ∧ PresN U v v' ∧ (U k = true → v.isLeaf = true → v' = v)
  | .nil, _, _, k, v, hv => by simp [NodeKVs.lookup] at hv
  | .cons k0 v0 r, .nil, h, _, _, _ => absurd h (by simp [PresKVs])
  | .cons k0 v0 r, .cons k0' v0' r', h, k, v, hv => by
      obtain ⟨rfl, hu, hp, hr⟩ := h
      simp only [NodeKVs.lookup] at hv ⊢
      by_cases hke : k0' = k
      · rw [if_pos hke] at hv ⊢
        injection hv with hv
        subst hv
        exact ⟨v0', rfl, hp, hke ▸ hu⟩
      · rw [if_neg hke] at hv ⊢
        exact presKVs_lookup U r r' hr k v hv

theorem lookup_isSome_eq_of_presKVs (U : String → Bool) :
    (a b : NodeKVs) → PresKVs U a b → ∀ k, (b.lookup k).isSome = (a.lookup k).isSome
  | .nil, .nil, _, k => rfl
  | .nil, .cons _ _ _, h, _ => absurd h (by simp [PresKVs])
  | .cons _ _ _, .nil, h, _ => absurd h (by simp [PresKVs])
  | .cons k0 v0 r, .cons k0' v0' r', h, k => by
      obtain ⟨rfl, _, _, hr⟩ := h
      simp only [NodeKVs.lookup]
      by_cases hke : k0' = k
      · rw [if_pos hke, if_pos hke]
        rfl
      · rw [if_neg hke, if_neg hke]
        exact lookup_isSome_eq_of_presKVs U r r' hr k

theorem presL_get (U : String → Bool) :
    (xs ys : NodeList) → PresL U xs ys → ∀ i v, xs.get? i = some v →
      ∃ v', ys.get? i = some v' ∧ PresN U v v'
  | .nil, _, _, i, v, hv => by cases i <;> simp [NodeList.get?] at hv
  | .cons x xs, .nil, h, _, _, _ => absurd h (by simp [PresL])
  | .cons x xs, .cons y ys, h, i, v, hv => by
      cases i with
      | zero =>
          simp only [NodeList.get?] at hv ⊢
          injection hv with hv
          subst hv
          exact ⟨y, rfl, h.1⟩
      | succ i =>
          simp only [NodeList.get?] at hv ⊢
          exact presL_get U xs ys h.2 i v hv

theorem atPath_append (q : List PathElem) :
    ∀ (p : List PathElem) (n : Node), atPath (p ++ q) n = (atPath p n).bind (atPath q)
  | [], n => by simp [atPath]
  | .key k :: p, n => by
      cases n with
      | obj kvs =>
          simp only [List.cons_append, atPath]
          cases kvs.lookup k with
          | some v => exact atPath_append q p v
          | none => simp
      | arr xs => simp [atPath]
      | vInt m => simp [atPath]
      | vFloat fv => simp [atPath]
      | vStr s => simp [atPath]
      | vBool b => simp [atPath]
      | vNull => simp [atPath]
  | .idx i :: p, n => by
      cases n with
      | arr xs =>
          simp only [List.cons_append, atPath]
          cases xs.get? i with
          | some v => exact atPath_append q p v
          | none => simp
      | obj kvs => simp [atPath]
      | vInt m => simp [atPath]
      | vFloat fv => simp [atPath]
      | vStr s => simp [atPath]
      | vBool b => simp [atPath]
      | vNull => simp [atPath]

theorem leafAtKey_none {U : String → Bool} {n n' : Node} (h : PresN U n n')
    (hl : n.isLeaf = true) {k : String} {p : List PathElem} :
    atPath (.key k :: p) n' = none := by
  have hn' : n'.isLeaf = true := by
    cases n <;> cases n' <;> simp_all [PresN, Node.isLeaf]
  cases n' <;> simp_all [atPath, Node.isLeaf]

theorem leafAtIdx_none {U : String → Bool} {n n' : Node} (h : PresN U n n')
    (hl : n.isLeaf = true) {i : Nat} {p : List PathElem} :
    atPath (.idx i :: p) n' = none := by
  have hn' : n'.isLeaf = true := by
    cases n <;> cases n' <;> simp_all [PresN, Node.isLeaf]
  cases n' <;> simp_all [atPath, Node.isLeaf]

theorem getSome_of_presL (U : String → Bool) :
    (xs ys : NodeList) → PresL U xs ys → ∀ i v', ys.get? i = some v' →
      ∃ v, xs.get? i = some v ∧ PresN U v v'
  | .nil, .nil, _, i, v', hv => by cases i <;> simp [NodeList.get?] at hv
  | .nil, .cons _ _, h, _, _, _ => absurd h (by simp [PresL])
  | .cons _ _, .nil, h, _, _, _ => absurd h (by simp [PresL])
  | .cons x xs, .cons y ys, h, i, v', hv => by
      cases i with
      | zero =>
          simp only [NodeList.get?] at hv ⊢
          injection hv with hv
          subst hv
          exact ⟨x, rfl, h.1⟩
      | succ i =>
          simp only [NodeList.get?] at hv ⊢
          exact getSome_of_presL U xs ys h.2 i v' hv

theorem presN_atPath (U : String → Bool) :
    ∀ (p : List PathElem) (n n' : Node), PresN U n n' →
      (atPath p n = none ∧ atPath p n' = none)
      ∨ (∃ m m', atPath p n = some m ∧ atPath p n' = some m' ∧ PresN U m m')
  | [], n, n', h => Or.inr ⟨n, n', rfl, rfl, h⟩
  | .key k :: p, n, n', h => by
      cases n with
      | obj kvs =>
          cases n' with
          | obj kvs' =>
              simp only [atPath]
              cases hl : kvs.lookup k with
              | none =>
                  have : (kvs'.lookup k).isSome = false := by
                    rw [lookup_isSome_eq_of_presKVs U kvs kvs' h, hl]
                    rfl
                  cases hl' : kvs'.lookup k with
                  | none => exact Or.inl ⟨rfl, rfl⟩
                  | some v' => rw [hl'] at this; simp at this
              | some v =>
                  obtain ⟨v', hl', hp, _⟩ := presKVs_lookup U kvs kvs' h k v hl
                  rw [hl']
                  exact presN_atPath U p v v' hp
          | arr ys => exact absurd h.1 (by simp [Node.isLeaf])
          | vInt m => exact absurd h.1 (by simp [Node.isLeaf])
          | vFloat fv => exact absurd h.1 (by simp [Node.isLeaf])
          | vStr s => exact absurd h.1 (by simp [Node.isLeaf])
          | vBool b => exact absurd h.1 (by simp [Node.isLeaf])
          | vNull => exact absurd h.1 (by simp [Node.isLeaf])
      | arr xs =>
          cases n' with
          | arr ys => exact Or.inl ⟨by simp [atPath], by simp [atPath]⟩
          | obj kvs' => exact absurd h.1 (by simp [Node.isLeaf])
          | vInt m => exact absurd h.1 (by simp [Node.isLeaf])
          | vFloat fv => exact absurd h.1 (by simp [Node.isLeaf])
          | vStr s => exact absurd h.1 (by simp [Node.isLeaf])
          | vBool b => exact absurd h.1 (by simp [Node.isLeaf])
          | vNull => exact absurd h.1 (by simp [Node.isLeaf])
      | vInt m => exact Or.inl ⟨by simp [atPath], leafAtKey_none h (by simp [Node.isLeaf])⟩
      | vFloat fv => exact Or.inl ⟨by simp [atPath], leafAtKey_none h (by simp [Node.isLeaf])⟩
      | vStr s => exact Or.inl ⟨by simp [atPath], leafAtKey_none h (by simp [Node.isLeaf])⟩
      | vBool b => exact Or.inl ⟨by simp [atPath], leafAtKey_none h (by simp [Node.isLeaf])⟩
      | vNull => exact Or.inl ⟨by simp [atPath], leafAtKey_none h (by simp [Node.isLeaf])⟩
  | .idx i :: p, n, n', h => by
      cases n with
      | arr xs =>
          cases n' with
          | arr ys =>
              simp only [atPath]
              cases hl : xs.get? i with
              | none =>
                  cases hl' : ys.get? i with
                  | none => exact Or.inl ⟨rfl, rfl⟩
                  | some v' =>
                      obtain ⟨v, hv, _⟩ := getSome_of_presL U xs ys h i v' hl'
                      rw [hv] at hl
                      cases hl
              | some v =>
                  obtain ⟨v', hl', hp⟩ := presL_get U xs ys h i v hl
                  rw [hl']
                  exact presN_atPath U p v v' hp
          | obj kvs' => exact absurd h.1 (by simp [Node.isLeaf])
          | vInt m => exact absurd h.1 (by simp [Node.isLeaf])
          | vFloat fv => exact absurd h.1 (by simp [Node.isLeaf])
          | vStr s => exact absurd h.1 (by simp [Node.isLeaf])
          | vBool b => exact absurd h.1 (by simp [Node.isLeaf])
          | vNull => exact absurd h.1 (by simp [Node.isLeaf])
      | obj kvs =>
          cases n' with
          | obj kvs' => exact Or.inl ⟨by simp [atPath], by simp [atPath]⟩
          | arr ys => exact absurd h.1 (by simp [Node.isLeaf])
          | vInt m => exact absurd h.1 (by simp [Node.isLeaf])
          | vFloat fv => exact absurd h.1 (by simp [Node.isLeaf])
          | vStr s => exact absurd h.1 (by simp [Node.isLeaf])
          | vBool b => exact absurd h.1 (by simp [Node.isLeaf])
          | vNull => exact absurd h.1 (by simp [Node.isLeaf])
      | vInt m => exact Or.inl ⟨by simp [atPath], leafAtIdx_none h (by simp [Node.isLeaf])⟩
      | vFloat fv => exact Or.inl ⟨by simp [atPath], leafAtIdx_none h (by simp [Node.isLeaf])⟩
      | vStr s => exact Or.inl ⟨by simp [atPath], leafAtIdx_none h (by simp [Node.isLeaf])⟩
      | vBool b => exact Or.inl ⟨by simp [atPath], leafAtIdx_none h (by simp [Node.isLeaf])⟩
      | vNull => exact Or.inl ⟨by simp [atPath], leafAtIdx_none h (by simp [Node.isLeaf])⟩

/-! ### C6: the DirectScaler walk preserves structure and unclassified leaves -/

theorem presN_leaf_mk {U : String → Bool} {a b : Node} (ha : a.isLeaf = true)
    (hb : b.isLeaf = true) : PresN U a b := by
  cases a <;> cases b <;> simp_all [PresN, Node.isLeaf]

theorem dsScaleNum_leaf {f : ℚ} {v : Node} (h : v.isLeaf = true) :
    (dsScaleNum f v).isLeaf = true := by
  cases v with
  | vFloat fv => cases fv <;> rfl
  | _ => first | rfl | simp [Node.isLeaf] at h

theorem dsScaleNumE_ok {f : ℚ} {v y : Node} (h : dsScaleNumE f v = .ok y) :
    v.isNum = true ∧ y = dsScaleNum f v := by
  by_cases hn : v.isNum = true
  · simp [dsScaleNumE, hn] at h
    exact ⟨hn, h.symm⟩
  · simp [dsScaleNumE, hn] at h

theorem unclassDS_false_of_contains {k : String} (h : dsScaleProps.contains k = true) :
    unclassDS k = false := by
  simp [unclassDS]
  intro h'
  rw [List.contains_eq_any_beq] at h
  simp at h
  exact absurd h h'

theorem dsScaleList_pres (f : ℚ) :
    (xs ys : NodeList) → dsScaleList f xs = .ok ys → PresL unclassDS xs ys
  | .nil, ys, h => by
      simp only [dsScaleList, exceptPureEq, Except.ok.injEq] at h
      subst h
      trivial
  | .cons x xs, ys, h => by
      simp only [dsScaleList] at h
      obtain ⟨y, h1, h2⟩ := bindOkInv h
      obtain ⟨ys', h3, h4⟩ := bindOkInv h2
      simp only [exceptPureEq, Except.ok.injEq] at h4
      subst h4
      obtain ⟨hn, hy⟩ := dsScaleNumE_ok h1
      subst hy
      exact ⟨presN_leaf_mk (isLeaf_of_isNum hn) (dsScaleNum_leaf (isLeaf_of_isNum hn)),
        dsScaleList_pres f xs ys' h3⟩

mutual

theorem dsWalk_pres (f : ℚ) (pk : Option String) :
    (n n' : Node) → dsWalk f pk n = .ok n' → PresN unclassDS n n'
  | .obj kvs, n', h => by
      simp only [dsWalk] at h
      obtain ⟨l, h1, h2⟩ := bindOkInv h
      simp only [exceptPureEq, Except.ok.injEq] at h2
      subst h2
      exact dsWalkEntries_pres f pk kvs l h1
  | .arr xs, n', h => by
      simp only [dsWalk] at h
      obtain ⟨l, h1, h2⟩ := bindOkInv h
      simp only [exceptPureEq, Except.ok.injEq] at h2
      subst h2
      exact dsWalkList_pres f pk xs l h1
  | .vInt m, n', h => by
      simp only [dsWalk, exceptPureEq, Except.ok.injEq] at h
      subst h
      exact presN_refl _ _
  | .vFloat fv, n', h => by
      simp only [dsWalk, exceptPureEq, Except.ok.injEq] at h
      subst h
      exact presN_refl _ _
  | .vStr s, n', h => by
      simp only [dsWalk, exceptPureEq, Except.ok.injEq] at h
      subst h
      exact presN_refl _ _
  | .vBool b, n', h => by
      simp only [dsWalk, exceptPureEq, Except.ok.injEq] at h
      subst h
      exact presN_refl _ _
  | .vNull, n', h => by
      simp only [dsWalk, exceptPureEq, Except.ok.injEq] at h
      subst h
      exact presN_refl _ _
termination_by structural n n' h => n

theorem dsWalkList_pres (f : ℚ) (pk : Option String) :
    (xs ys : NodeList) → dsWalkList f pk xs = .ok ys → PresL unclassDS xs ys
  | .nil, ys, h => by
      simp only [dsWalkList, exceptPureEq, Except.ok.injEq] at h
      subst h
      trivial
  | .cons x xs, ys, h => by
      simp only [dsWalkList] at h
      obtain ⟨y, h1, h2⟩ := bindOkInv h
      obtain ⟨ys', h3, h4⟩ := bindOkInv h2
      simp only [exceptPureEq, Except.ok.injEq] at h4
      subst h4
      exact ⟨dsWalk_pres f pk x y h1, dsWalkList_pres f pk xs ys' h3⟩
termination_by structural xs ys h => xs

theorem dsWalkEntries_pres (f : ℚ) (pk : Option String) :
    (kvs kvs' : NodeKVs) → dsWalkEntries f pk kvs = .ok kvs' → PresKVs unclassDS kvs kvs'
  | .nil, kvs', h => by
      simp only [dsWalkEntries, exceptPureEq, Except.ok.injEq] at h
      subst h
      trivial
  | .cons k v rest, kvs', h => by
      simp only [dsWalkEntries] at h
      obtain ⟨v', h1, h2⟩ := bindOkInv h
      obtain ⟨rest', h3, h4⟩ := bindOkInv h2
      simp only [exceptPureEq, Except.ok.injEq] at h4
      subst h4
      obtain ⟨hunc, hpres⟩ := dsEntry_pres f pk k v v' h1
      exact ⟨rfl, hunc, hpres, dsWalkEntries_pres f pk rest rest' h3⟩
termination_by structural kvs kvs' h => kvs

theorem dsEntry_pres (f : ℚ) (pk : Option String) (k : String) :
    (v v' : Node) → dsEntry f pk k v = .ok v' →
      (unclassDS k = true → v.isLeaf = true → v' = v) ∧ PresN unclassDS v v'
  | .arr xs, v', h => by
      refine ⟨fun _ hl => by simp [Node.isLeaf] at hl, ?_⟩
      simp only [dsEntry] at h
      by_cases h1 : (k = "rect" && xs.length == 4) = true
      · rw [if_pos h1] at h
        obtain ⟨ys, hs1, hs2⟩ := bindOkInv h
        simp only [exceptPureEq, Except.ok.injEq] at hs2
        subst hs2
        exact dsScaleList_pres f xs ys hs1
      · rw [if_neg h1] at h
        by_cases h2 : (k = "trackRect" && xs.length == 4) = true
        · rw [if_pos h2] at h
          obtain ⟨ys, hs1, hs2⟩ := bindOkInv h
          simp only [exceptPureEq, Except.ok.injEq] at hs2
          subst hs2
          exact dsScaleList_pres f xs ys hs1
        · rw [if_neg h2] at h
          by_cases h3 : k = "keyframes"
          · rw [if_pos h3] at h
            obtain ⟨ys, hs1, hs2⟩ := bindOkInv h
            simp only [exceptPureEq, Except.ok.injEq] at hs2
            subst hs2
            exact dsWalkKfList_pres f pk xs ys hs1
          · rw [if_neg h3] at h
            obtain ⟨ys, hs1, hs2⟩ := bindOkInv h
            simp only [exceptPureEq, Except.ok.injEq] at hs2
            subst hs2
            exact dsWalkList_pres f (some k) xs ys hs1
  | .obj w, v', h => by
      refine ⟨fun _ hl => by simp [Node.isLeaf] at hl, ?_⟩
      simp only [dsEntry] at h
      by_cases hc : (dsScaleProps.contains k && !(dsPreserveProps.contains k)
          && (w.lookup "value").isSome) = true
      · rw [if_pos hc] at h
        obtain ⟨w1, hs1, hs2⟩ := bindOkInv h
        simp only [exceptPureEq, Except.ok.injEq] at hs2
        subst hs2
        exact dsWalkWrapEntries_pres f k w w1 hs1
      · rw [if_neg hc] at h
        obtain ⟨w1, hs1, hs2⟩ := bindOkInv h
        simp only [exceptPureEq, Except.ok.injEq] at hs2
        subst hs2
        exact dsWalkEntries_pres f (some k) w w1 hs1
  | .vInt m, v', h => by
      simp only [dsEntry] at h
      by_cases hc : (dsScaleProps.contains k && !(dsPreserveProps.contains k)
          && (Node.isNum (.vInt m))) = true
      · rw [if_pos hc] at h
        simp only [exceptPureEq, Except.ok.injEq] at h
        subst h
        refine ⟨?_, presN_leaf_mk rfl (dsScaleNum_leaf rfl)⟩
        intro hU _
        have hcontains : dsScaleProps.contains k = true := by
          have hx := hc
          simp only [Bool.and_eq_true] at hx
          exact hx.1.1
        rw [unclassDS_false_of_contains hcontains] at hU
        exact absurd hU (by simp)
      · rw [if_neg hc] at h
        simp only [exceptPureEq, Except.ok.injEq] at h
        subst h
        exact ⟨fun _ _ => rfl, presN_refl _ _⟩
  | .vFloat fv, v', h => by
      simp only [dsEntry] at h
      by_cases hc : (dsScaleProps.contains k && !(dsPreserveProps.contains k)
          && (Node.isNum (.vFloat fv))) = true
      · rw [if_pos hc] at h
        simp only [exceptPureEq, Except.ok.injEq] at h
        subst h
        refine ⟨?_, presN_leaf_mk rfl (dsScaleNum_leaf rfl)⟩
        intro hU _
        have hcontains : dsScaleProps.contains k = true := by
          have hx := hc
          simp only [Bool.and_eq_true] at hx
          exact hx.1.1
        rw [unclassDS_false_of_contains hcontains] at hU
        exact absurd hU (by simp)
      · rw [if_neg hc] at h
        simp only [exceptPureEq, Except.ok.injEq] at h
        subst h
        exact ⟨fun _ _ => rfl, presN_refl _ _⟩
  | .vStr s, v', h => by
      simp only [dsEntry] at h
      by_cases hc : (dsScaleProps.contains k && !(dsPreserveProps.contains k)
          && (Node.isNum (.vStr s))) = true
      · rw [if_pos hc] at h
        simp only [exceptPureEq, Except.ok.injEq] at h
        subst h
        refine ⟨?_, presN_leaf_mk rfl (dsScaleNum_leaf rfl)⟩
        intro hU _
        have hcontains : dsScaleProps.contains k = true := by
          have hx := hc
          simp only [Bool.and_eq_true] at hx
          exact hx.1.1
        rw [unclassDS_false_of_contains hcontains] at hU
        exact absurd hU (by simp)
      · rw [if_neg hc] at h
        simp only [exceptPureEq, Except.ok.injEq] at h
        subst h
        exact ⟨fun _ _ => rfl, presN_refl _ _⟩
  | .vBool b, v', h => by
      simp only [dsEntry] at h
      by_cases hc : (dsScaleProps.contains k && !(dsPreserveProps.contains k)
          && (Node.isNum (.vBool b))) = true
      · rw [if_pos hc] at h
        simp only [exceptPureEq, Except.ok.injEq] at h
        subst h
        refine ⟨?_, presN_leaf_mk rfl (dsScaleNum_leaf rfl)⟩
        intro hU _
        have hcontains : dsScaleProps.contains k = true := by
          have hx := hc
          simp only [Bool.and_eq_true] at hx
          exact hx.1.1
        rw [unclassDS_false_of_contains hcontains] at hU
        exact absurd hU (by simp)
      · rw [if_neg hc] at h
        simp only [exceptPureEq, Except.ok.injEq] at h
        subst h
        exact ⟨fun _ _ => rfl, presN_refl _ _⟩
  | .vNull, v', h => by
      simp only [dsEntry] at h
      by_cases hc : (dsScaleProps.contains k && !(dsPreserveProps.contains k)
          && (Node.isNum .vNull)) = true
      · rw [if_pos hc] at h
        simp only [exceptPureEq, Except.ok.injEq] at h
        subst h
        refine ⟨?_, presN_leaf_mk rfl (dsScaleNum_leaf rfl)⟩
        intro hU _
        have hcontains : dsScaleProps.contains k = true := by
          have hx := hc
          simp only [Bool.and_eq_true] at hx
          exact hx.1.1
        rw [unclassDS_false_of_contains hcontains] at hU
        exact absurd hU (by simp)
      · rw [if_neg hc] at h
        simp only [exceptPureEq, Except.ok.injEq] at h
        subst h
        exact ⟨fun _ _ => rfl, presN_refl _ _⟩
termination_by structural v v' h => v

theorem dsWalkKfList_pres (f : ℚ) (pk : Option String) :
    (xs ys : NodeList) → dsWalkKfList f pk xs = .ok ys → PresL unclassDS xs ys
  | .nil, ys, h => by
      simp only [dsWalkKfList, exceptPureEq, Except.ok.injEq] at h
      subst h
      trivial
  | .cons kf kfs, ys, h => by
      cases kf with
      | obj w =>
          simp only [dsWalkKfList, exceptPureEq, exceptOkBind] at h
          obtain ⟨w1, h1, h2⟩ := bindOkInv h
          obtain ⟨kfs', h3, h4⟩ := bindOkInv h2
          simp only [exceptPureEq, Except.ok.injEq] at h4
          subst h4
          exact ⟨dsWalkKfEntries_pres f pk w w1 h1, dsWalkKfList_pres f pk kfs kfs' h3⟩
      | arr zs =>
          simp only [dsWalkKfList, exceptPureEq, exceptOkBind] at h
          obtain ⟨zs1, h1, h2⟩ := bindOkInv h
          obtain ⟨kfs', h3, h4⟩ := bindOkInv h2
          simp only [exceptPureEq, Except.ok.injEq] at h4
          subst h4
          exact ⟨dsWalkList_pres f (some "keyframes") zs zs1 h1,
            dsWalkKfList_pres f pk kfs kfs' h3⟩
      | vInt m =>
          simp only [dsWalkKfList, exceptPureEq, exceptOkBind] at h
          obtain ⟨kfs', h3, h4⟩ := bindOkInv h
          simp only [exceptPureEq, Except.ok.injEq] at h4
          subst h4
          exact ⟨presN_refl _ _, dsWalkKfList_pres f pk kfs kfs' h3⟩
      | vFloat fv =>
          simp only [dsWalkKfList, exceptPureEq, exceptOkBind] at h
          obtain ⟨kfs', h3, h4⟩ := bindOkInv h
          simp only [exceptPureEq, Except.ok.injEq] at h4
          subst h4
          exact ⟨presN_refl _ _, dsWalkKfList_pres f pk kfs kfs' h3⟩
      | vStr st =>
          simp only [dsWalkKfList, exceptPureEq, exceptOkBind] at h
          obtain ⟨kfs', h3, h4⟩ := bindOkInv h
          simp only [exceptPureEq, Except.ok.injEq] at h4
          subst h4
          exact ⟨presN_refl _ _, dsWalkKfList_pres f pk kfs kfs' h3⟩
      | vBool bb =>
          simp only [dsWalkKfList, exceptPureEq, exceptOkBind] at h
          obtain ⟨kfs', h3, h4⟩ := bindOkInv h
          simp only [exceptPureEq, Except.ok.injEq] at h4
          subst h4
          exact ⟨presN_refl _ _, dsWalkKfList_pres f pk kfs kfs' h3⟩
      | vNull =>
          simp only [dsWalkKfList, exceptPureEq, exceptOkBind] at h
          obtain ⟨kfs', h3, h4⟩ := bindOkInv h
          simp only [exceptPureEq, Except.ok.injEq] at h4
          subst h4
          exact ⟨presN_refl _ _, dsWalkKfList_pres f pk kfs kfs' h3⟩
termination_by structural xs ys h => xs

theorem dsWalkKfEntries_pres (f : ℚ) (pk : Option String) :
    (w w' : NodeKVs) → dsWalkKfEntries f pk w = .ok w' → PresKVs unclassDS w w'
  | .nil, w', h => by
      simp only [dsWalkKfEntries, exceptPureEq, Except.ok.injEq] at h
      subst h
      trivial
  | .cons k v rest, w', h => by
      rw [dsWalkKfEntries_cons] at h
      obtain ⟨v', h1, h2⟩ := bindOkInv h
      obtain ⟨rest', h3, h4⟩ := bindOkInv h2
      simp only [exceptPureEq, Except.ok.injEq] at h4
      subst h4
      refine ⟨rfl, ?_, ?_, dsWalkKfEntries_pres f pk rest rest' h3⟩ <;>
        by_cases hc : (k = "value" && memProps pk dsScaleProps && v.isNum) = true
      · intro hU _
        have hx := hc
        simp only [Bool.and_eq_true, decide_eq_true_eq] at hx
        rw [hx.1.1] at hU
        exact absurd hU (by decide)
      · simp only [dsKfEntry] at h1
        rw [if_neg hc] at h1
        exact (dsEntry_pres f (some "keyframes") k v v' h1).1
      · have hx := hc
        simp only [Bool.and_eq_true, decide_eq_true_eq] at hx
        have hv' : v' = dsScaleNum f v := by
          simp only [dsKfEntry, if_pos hc, exceptPureEq, Except.ok.injEq] at h1
          exact h1.symm
        subst hv'
        exact presN_leaf_mk (isLeaf_of_isNum hx.2) (dsScaleNum_leaf (isLeaf_of_isNum hx.2))
      · simp only [dsKfEntry] at h1
        rw [if_neg hc] at h1
        exact (dsEntry_pres f (some "keyframes") k v v' h1).2
termination_by structural w w' h => w

theorem dsWalkWrapEntries_pres (f : ℚ) (k0 : String) :
    (w w' : NodeKVs) → dsWalkWrapEntries f k0 w = .ok w' → PresKVs unclassDS w w'
  | .nil, w', h => by
      simp only [dsWalkWrapEntries, exceptPureEq, Except.ok.injEq] at h
      subst h
      trivial
  | .cons k v rest, w', h => by
      rw [dsWalkWrapEntries_cons] at h
      obtain ⟨v', h1, h2⟩ := bindOkInv h
      obtain ⟨rest', h3, h4⟩ := bindOkInv h2
      simp only [exceptPureEq, Except.ok.injEq] at h4
      subst h4
      refine ⟨rfl, ?_, ?_, dsWalkWrapEntries_pres f k0 rest rest' h3⟩ <;>
        by_cases hc : (k = "value" && v.isNum) = true
      · intro hU _
        have hx := hc
        simp only [Bool.and_eq_true, decide_eq_true_eq] at hx
        rw [hx.1] at hU
        exact absurd hU (by decide)
      · simp only [dsWrapEntry] at h1
        rw [if_neg hc] at h1
        exact (dsEntry_pres f (some k0) k v v' h1).1
      · have hx := hc
        simp only [Bool.and_eq_true, decide_eq_true_eq] at hx
        have hv' : v' = dsScaleNum f v := by
          simp only [dsWrapEntry, if_pos hc, exceptPureEq, Except.ok.injEq] at h1
          exact h1.symm
        subst hv'
        exact presN_leaf_mk (isLeaf_of_isNum hx.2) (dsScaleNum_leaf (isLeaf_of_isNum hx.2))
      · simp only [dsWrapEntry] at h1
        rw [if_neg hc] at h1
        exact (dsEntry_pres f (some k0) k v v' h1).2
termination_by structural w w' h => w

end

/-! ### C6: the temporal walk preserves structure and unclassified leaves -/

theorem pyIntOfMul_ok {f : ℚ} {v y : Node} (h : pyIntOfMul f v = .ok y) :
    v.isLeaf = true ∧ y.isLeaf = true := by
  cases v with
  | vInt n =>
      simp only [pyIntOfMul, Except.ok.injEq] at h
      subst h
      exact ⟨rfl, rfl⟩
  | vBool b =>
      simp only [pyIntOfMul, Except.ok.injEq] at h
      subst h
      exact ⟨rfl, rfl⟩
  | vFloat fv =>
      cases fv with
      | fin q =>
          simp only [pyIntOfMul, Except.ok.injEq] at h
          subst h
          exact ⟨rfl, rfl⟩
      | inf => simp [pyIntOfMul] at h
      | neginf => simp [pyIntOfMul] at h
      | nan => simp [pyIntOfMul] at h
  | vStr s => simp [pyIntOfMul] at h
  | vNull => simp [pyIntOfMul] at h
  | arr xs => simp [pyIntOfMul] at h
  | obj kvs => simp [pyIntOfMul] at h

theorem tmRangeList_pres (f : ℚ) :
    (xs ys : NodeList) → tmRangeList f xs = .ok ys → PresL unclassTM xs ys
  | .nil, ys, h => by
      simp only [tmRangeList, exceptPureEq, Except.ok.injEq] at h
      subst h
      trivial
  | .cons x xs, ys, h => by
      simp only [tmRangeList] at h
      obtain ⟨y, h1, h2⟩ := bindOkInv h
      obtain ⟨ys', h3, h4⟩ := bindOkInv h2
      simp only [exceptPureEq, Except.ok.injEq] at h4
      subst h4
      obtain ⟨hx, hy⟩ := pyIntOfMul_ok h1
      exact ⟨presN_leaf_mk hx hy, tmRangeList_pres f xs ys' h3⟩

theorem timeProps_of_shouldScaleT {pa : Bool} {ct : Option String} {k : String}
    (h : shouldScaleT pa ct k = true) : tmTimeProps.contains k = true := by
  by_cases hc : tmTimeProps.contains k = true
  · exact hc
  · rw [shouldScaleT] at h
    rw [if_pos] at h
    · cases h
    · simpa using hc

theorem unclassTM_false_of_shouldScaleT {pa : Bool} {ct : Option String} {k : String}
    (h : shouldScaleT pa ct k = true) : unclassTM k = false := by
  have hm : k ∈ tmTimeProps := by simpa using timeProps_of_shouldScaleT h
  simp [unclassTM, hm]

mutual

theorem tmWalk_pres (pa : Bool) (f : ℚ) (pt : Option String) :
    (n n' : Node) → tmWalk pa f pt n = .ok n' → PresN unclassTM n n'
  | .obj kvs, n', h => by
      simp only [tmWalk] at h
      obtain ⟨l, h1, h2⟩ := bindOkInv h
      simp only [exceptPureEq, Except.ok.injEq] at h2
      subst h2
      exact tmWalkEntries_pres pa f (currentTypeOf kvs pt) kvs l h1
  | .arr xs, n', h => by
      simp only [tmWalk] at h
      obtain ⟨l, h1, h2⟩ := bindOkInv h
      simp only [exceptPureEq, Except.ok.injEq] at h2
      subst h2
      exact tmWalkList_pres pa f pt xs l h1
  | .vInt m, n', h => by
      simp only [tmWalk, exceptPureEq, Except.ok.injEq] at h
      subst h
      exact presN_refl _ _
  | .vFloat fv, n', h => by
      simp only [tmWalk, exceptPureEq, Except.ok.injEq] at h
      subst h
      exact presN_refl _ _
  | .vStr s, n', h => by
      simp only [tmWalk, exceptPureEq, Except.ok.injEq] at h
      subst h
      exact presN_refl _ _
  | .vBool b, n', h => by
      simp only [tmWalk, exceptPureEq, Except.ok.injEq] at h
      subst h
      exact presN_refl _ _
  | .vNull, n', h => by
      simp only [tmWalk, exceptPureEq, Except.ok.injEq] at h
      subst h
      exact presN_refl _ _
termination_by structural n n' h => n

theorem tmWalkList_pres (pa : Bool) (f : ℚ) (pt : Option String) :
    (xs ys : NodeList) → tmWalkList pa f pt xs = .ok ys → PresL unclassTM xs ys
  | .nil, ys, h => by
      simp only [tmWalkList, exceptPureEq, Except.ok.injEq] at h
      subst h
      trivial
  | .cons x xs, ys, h => by
      simp only [tmWalkList] at h
      obtain ⟨y, h1, h2⟩ := bindOkInv h
      obtain ⟨ys', h3, h4⟩ := bindOkInv h2
      simp only [exceptPureEq, Except.ok.injEq] at h4
      subst h4
      exact ⟨tmWalk_pres pa f pt x y h1, tmWalkList_pres pa f pt xs ys' h3⟩
termination_by structural xs ys h => xs

theorem tmWalkEntries_pres (pa : Bool) (f : ℚ) (ct : Option String) :
    (kvs kvs' : NodeKVs) → tmWalkEntries pa f ct kvs = .ok kvs' → PresKVs unclassTM kvs kvs'
  | .nil, kvs', h => by
      simp only [tmWalkEntries, exceptPureEq, Except.ok.injEq] at h
      subst h
      trivial
  | .cons k v rest, kvs', h => by
      simp only [tmWalkEntries] at h
      obtain ⟨v', h1, h2⟩ := bindOkInv h
      obtain ⟨rest', h3, h4⟩ := bindOkInv h2
      simp only [exceptPureEq, Except.ok.injEq] at h4
      subst h4
      obtain ⟨hunc, hpres⟩ := tmEntry_pres pa f ct k v v' h1
      exact ⟨rfl, hunc, hpres, tmWalkEntries_pres pa f ct rest rest' h3⟩
termination_by structural kvs kvs' h => kvs

theorem tmEntry_pres (pa : Bool) (f : ℚ) (ct : Option String) (k : String) :
    (v v' : Node) → tmEntry pa f ct k v = .ok v' →
      (unclassTM k = true → v.isLeaf = true → v' = v) ∧ PresN unclassTM v v'
  | .arr xs, v', h => by
      refine ⟨fun _ hl => by simp [Node.isLeaf] at hl, ?_⟩
      simp only [tmEntry] at h
      by_cases h1 : (k = "range" && xs.length == 2) = true
      · rw [if_pos h1] at h
        obtain ⟨ys, hs1, hs2⟩ := bindOkInv h
        simp only [exceptPureEq, Except.ok.injEq] at hs2
        subst hs2
        exact tmRangeList_pres f xs ys hs1
      · rw [if_neg h1] at h
        obtain ⟨ys, hs1, hs2⟩ := bindOkInv h
        simp only [exceptPureEq, Except.ok.injEq] at hs2
        subst hs2
        exact tmWalkList_pres pa f ct xs ys hs1
  | .obj w, v', h => by
      refine ⟨fun _ hl => by simp [Node.isLeaf] at hl, ?_⟩
      simp only [tmEntry] at h
      obtain ⟨w1, hs1, hs2⟩ := bindOkInv h
      simp only [exceptPureEq, Except.ok.injEq] at hs2
      subst hs2
      exact tmWalkEntries_pres pa f (currentTypeOf w ct) w w1 hs1
  | .vInt m, v', h => by
      simp only [tmEntry] at h
      by_cases hc : (shouldScaleT pa ct k && Node.isNum (.vInt m)) = true
      · rw [if_pos hc] at h
        have hx := hc
        simp only [Bool.and_eq_true] at hx
        obtain ⟨hxl, hyl⟩ := pyIntOfMul_ok h
        refine ⟨?_, presN_leaf_mk hxl hyl⟩
        intro hU _
        rw [unclassTM_false_of_shouldScaleT hx.1] at hU
        exact absurd hU (by simp)
      · rw [if_neg hc] at h
        simp only [exceptPureEq, Except.ok.injEq] at h
        subst h
        exact ⟨fun _ _ => rfl, presN_refl _ _⟩
  | .vFloat fv, v', h => by
      simp only [tmEntry] at h
      by_cases hc : (shouldScaleT pa ct k && Node.isNum (.vFloat fv)) = true
      · rw [if_pos hc] at h
        have hx := hc
        simp only [Bool.and_eq_true] at hx
        obtain ⟨hxl, hyl⟩ := pyIntOfMul_ok h
        refine ⟨?_, presN_leaf_mk hxl hyl⟩
        intro hU _
        rw [unclassTM_false_of_shouldScaleT hx.1] at hU
        exact absurd hU (by simp)
      · rw [if_neg hc] at h
        simp only [exceptPureEq, Except.ok.injEq] at h
        subst h
        exact ⟨fun _ _ => rfl, presN_refl _ _⟩
  | .vStr s, v', h => by
      simp only [tmEntry] at h
      by_cases hc : (shouldScaleT pa ct k && Node.isNum (.vStr s)) = true
      · rw [if_pos hc] at h
        have hx := hc
        simp only [Bool.and_eq_true] at hx
        obtain ⟨hxl, hyl⟩ := pyIntOfMul_ok h
        refine ⟨?_, presN_leaf_mk hxl hyl⟩
        intro hU _
        rw [unclassTM_false_of_shouldScaleT hx.1] at hU
        exact absurd hU (by simp)
      · rw [if_neg hc] at h
        simp only [exceptPureEq, Except.ok.injEq] at h
        subst h
        exact ⟨fun _ _ => rfl, presN_refl _ _⟩
  | .vBool b, v', h => by
      simp only [tmEntry] at h
      by_cases hc : (shouldScaleT pa ct k && Node.isNum (.vBool b)) = true
      · rw [if_pos hc] at h
        have hx := hc
        simp only [Bool.and_eq_true] at hx
        obtain ⟨hxl, hyl⟩ := pyIntOfMul_ok h
        refine ⟨?_, presN_leaf_mk hxl hyl⟩
        intro hU _
        rw [unclassTM_false_of_shouldScaleT hx.1] at hU
        exact absurd hU (by simp)
      · rw [if_neg hc] at h
        simp only [exceptPureEq, Except.ok.injEq] at h
        subst h
        exact ⟨fun _ _ => rfl, presN_refl _ _⟩
  | .vNull, v', h => by
      simp only [tmEntry] at h
      by_cases hc : (shouldScaleT pa ct k && Node.isNum .vNull) = true
      · rw [if_pos hc] at h
        have hx := hc
        simp only [Bool.and_eq_true] at hx
        obtain ⟨hxl, hyl⟩ := pyIntOfMul_ok h
        refine ⟨?_, presN_leaf_mk hxl hyl⟩
        intro hU _
        rw [unclassTM_false_of_shouldScaleT hx.1] at hU
        exact absurd hU (by simp)
      · rw [if_neg hc] at h
        simp only [exceptPureEq, Except.ok.injEq] at h
        subst h
        exact ⟨fun _ _ => rfl, presN_refl _ _⟩
termination_by structural v v' h => v

end

/-! ### C6: root-level `scale_data` preservation -/

theorem setKeyE_pres (f : ℚ) (k : String) (hU : unclassDS k = false) :
    (kvs kvs₁ : NodeKVs) → NodeKVs.setKeyE k (dsScaleNumE f) kvs = .ok kvs₁ →
      PresKVs unclassDS kvs kvs₁
  | .nil, kvs₁, h => by
      simp only [NodeKVs.setKeyE, exceptPureEq, Except.ok.injEq] at h
      subst h
      trivial
  | .cons k' v rest, kvs₁, h => by
      simp only [NodeKVs.setKeyE] at h
      by_cases hke : k' = k
      · rw [if_pos hke] at h
        obtain ⟨v', h1, h2⟩ := bindOkInv h
        simp only [exceptPureEq, Except.ok.injEq] at h2
        subst h2
        obtain ⟨hn, hv⟩ := dsScaleNumE_ok h1
        subst hv
        refine ⟨rfl, ?_,
          presN_leaf_mk (isLeaf_of_isNum hn) (dsScaleNum_leaf (isLeaf_of_isNum hn)),
          presKVs_refl _ _⟩
        intro hU' _
        rw [hke, hU] at hU'
        exact absurd hU' (by simp)
      · rw [if_neg hke] at h
        obtain ⟨rest', h1, h2⟩ := bindOkInv h
        simp only [exceptPureEq, Except.ok.injEq] at h2
        subst h2
        exact ⟨rfl, fun _ _ => rfl, presN_refl _ _, setKeyE_pres f k hU rest rest' h1⟩

theorem dsScaleDataLoop_pres (f : ℚ) :
    (kvs kvs' : NodeKVs) → dsScaleDataLoop f kvs = .ok kvs' → PresKVs unclassDS kvs kvs'
  | .nil, kvs', h => by
      simp only [dsScaleDataLoop, exceptPureEq, Except.ok.injEq] at h
      subst h
      trivial
  | .cons k v rest, kvs', h => by
      simp only [dsScaleDataLoop] at h
      by_cases hwh : k = "width" ∨ k = "height"
      · rw [if_pos hwh] at h
        simp only [exceptPureEq, exceptOkBind] at h
        obtain ⟨rest', h3, h4⟩ := bindOkInv h
        simp only [exceptPureEq, Except.ok.injEq] at h4
        subst h4
        exact ⟨rfl, fun _ _ => rfl, presN_refl _ _, dsScaleDataLoop_pres f rest rest' h3⟩
      · rw [if_neg hwh] at h
        cases v with
        | obj w =>
            simp only [exceptPureEq, exceptOkBind] at h
            obtain ⟨w1, h1, h2⟩ := bindOkInv h
            obtain ⟨rest', h3, h4⟩ := bindOkInv h2
            simp only [exceptPureEq, Except.ok.injEq] at h4
            subst h4
            exact ⟨rfl, fun _ hl => by simp [Node.isLeaf] at hl,
              dsWalkEntries_pres f (some k) w w1 h1, dsScaleDataLoop_pres f rest rest' h3⟩
        | arr xs =>
            simp only [exceptPureEq, exceptOkBind] at h
            obtain ⟨xs1, h1, h2⟩ := bindOkInv h
            obtain ⟨rest', h3, h4⟩ := bindOkInv h2
            simp only [exceptPureEq, Except.ok.injEq] at h4
            subst h4
            exact ⟨rfl, fun _ hl => by simp [Node.isLeaf] at hl,
              dsWalkList_pres f (some k) xs xs1 h1, dsScaleDataLoop_pres f rest rest' h3⟩
        | vInt m =>
            simp only [exceptPureEq, exceptOkBind] at h
            obtain ⟨rest', h3, h4⟩ := bindOkInv h
            simp only [exceptPureEq, Except.ok.injEq] at h4
            subst h4
            exact ⟨rfl, fun _ _ => rfl, presN_refl _ _, dsScaleDataLoop_pres f rest rest' h3⟩
        | vFloat fv =>
            simp only [exceptPureEq, exceptOkBind] at h
            obtain ⟨rest', h3, h4⟩ := bindOkInv h
            simp only [exceptPureEq, Except.ok.injEq] at h4
            subst h4
            exact ⟨rfl, fun _ _ => rfl, presN_refl _ _, dsScaleDataLoop_pres f rest rest' h3⟩
        | vStr s =>
            simp only [exceptPureEq, exceptOkBind] at h
            obtain ⟨rest', h3, h4⟩ := bindOkInv h
            simp only [exceptPureEq, Except.ok.injEq] at h4
            subst h4
            exact ⟨rfl, fun _ _ => rfl, presN_refl _ _, dsScaleDataLoop_pres f rest rest' h3⟩
        | vBool b =>
            simp only [exceptPureEq, exceptOkBind] at h
            obtain ⟨rest', h3, h4⟩ := bindOkInv h
            simp only [exceptPureEq, Except.ok.injEq] at h4
            subst h4
            exact ⟨rfl, fun _ _ => rfl, presN_refl _ _, dsScaleDataLoop_pres f rest rest' h3⟩
        | vNull =>
            simp only [exceptPureEq, exceptOkBind] at h
            obtain ⟨rest', h3, h4⟩ := bindOkInv h
            simp only [exceptPureEq, Except.ok.injEq] at h4
            subst h4
            exact ⟨rfl, fun _ _ => rfl, presN_refl _ _, dsScaleDataLoop_pres f rest rest' h3⟩

theorem dsScaleData_pres (f : ℚ) (d out : Node) (h : dsScaleData f d = .ok out) :
    PresN unclassDS d out := by
  cases d with
  | obj kvs =>
      simp only [dsScaleData] at h
      have step2 : ∀ kvs₁ : NodeKVs, PresKVs unclassDS kvs kvs₁ →
          (do
            let kvs₂ ←
              if (NodeKVs.lookup "height" kvs₁).isSome = true then
                NodeKVs.setKeyE "height" (dsScaleNumE f) kvs₁
              else pure kvs₁
            let kvs₃ ← dsScaleDataLoop f kvs₂
            pure (Node.obj kvs₃)) = .ok out →
          PresN unclassDS (Node.obj kvs) out := by
        intro kvs₁ p1 h2
        by_cases hh : (NodeKVs.lookup "height" kvs₁).isSome = true
        · rw [if_pos hh] at h2
          simp only [exceptPureEq, exceptOkBind] at h2
          obtain ⟨kvs₂, h3, h4⟩ := bindOkInv h2
          obtain ⟨kvs₃, h5, h6⟩ := bindOkInv h4
          simp only [exceptPureEq, Except.ok.injEq] at h6
          subst h6
          have p2 := setKeyE_pres f "height" (by decide) kvs₁ kvs₂ h3
          have p3 := dsScaleDataLoop_pres f kvs₂ kvs₃ h5
          exact presKVs_trans _ _ _ _ (presKVs_trans _ _ _ _ p1 p2) p3
        · rw [if_neg hh] at h2
          simp only [exceptPureEq, exceptOkBind] at h2
          obtain ⟨kvs₃, h5, h6⟩ := bindOkInv h2
          simp only [exceptPureEq, Except.ok.injEq] at h6
          subst h6
          have p3 := dsScaleDataLoop_pres f kvs₁ kvs₃ h5
          exact presKVs_trans _ _ _ _ p1 p3
      by_cases hw : (NodeKVs.lookup "width" kvs).isSome = true
      · rw [if_pos hw] at h
        simp only [exceptPureEq, exceptOkBind] at h
        obtain ⟨kvs₁, h1, h2⟩ := bindOkInv h
        exact step2 kvs₁ (setKeyE_pres f "width" (by decide) kvs kvs₁ h1) h2
      · rw [if_neg hw] at h
        simp only [exceptPureEq, exceptOkBind] at h
        exact step2 kvs (presKVs_refl _ _) h
  | arr xs => simp [dsScaleData] at h
  | vInt m => simp [dsScaleData] at h
  | vFloat fv => simp [dsScaleData] at h
  | vStr s => simp [dsScaleData] at h
  | vBool b => simp [dsScaleData] at h
  | vNull => simp [dsScaleData] at h

/-! ### C6: assembling the claim -/

theorem presN_keysAt {U : String → Bool} {d out : Node} (hp : PresN U d out)
    (p : List PathElem) : keysAt p out = keysAt p d := by
  rcases presN_atPath U p d out hp with ⟨h1, h2⟩ | ⟨m, m', h1, h2, hm⟩
  · simp [keysAt, h1, h2]
  · simp only [keysAt, h1, h2, Option.some_bind]
    cases m with
    | obj kvs =>
        cases m' with
        | obj kvs' => simp [keyList, presKVs_keys U kvs kvs' hm]
        | arr ys => exact absurd hm.1 (by simp [Node.isLeaf])
        | vInt n => exact absurd hm.1 (by simp [Node.isLeaf])
        | vFloat fv => exact absurd hm.1 (by simp [Node.isLeaf])
        | vStr s => exact absurd hm.1 (by simp [Node.isLeaf])
        | vBool b => exact absurd hm.1 (by simp [Node.isLeaf])
        | vNull => exact absurd hm.1 (by simp [Node.isLeaf])
    | arr xs =>
        cases m' with
        | arr ys => rfl
        | obj kvs' => exact absurd hm.1 (by simp [Node.isLeaf])
        | vInt n => exact absurd hm.1 (by simp [Node.isLeaf])
        | vFloat fv => exact absurd hm.1 (by simp [Node.isLeaf])
        | vStr s => exact absurd hm.1 (by simp [Node.isLeaf])
        | vBool b => exact absurd hm.1 (by simp [Node.isLeaf])
        | vNull => exact absurd hm.1 (by simp [Node.isLeaf])
    | vInt n =>
        have hm' : m'.isLeaf = true := by
          cases m' <;> simp_all [PresN, Node.isLeaf]
        cases m' <;> simp_all [keyList, Node.isLeaf]
    | vFloat fv =>
        have hm' : m'.isLeaf = true := by
          cases m' <;> simp_all [PresN, Node.isLeaf]
        cases m' <;> simp_all [keyList, Node.isLeaf]
    | vStr s =>
        have hm' : m'.isLeaf = true := by
          cases m' <;> simp_all [PresN, Node.isLeaf]
        cases m' <;> simp_all [keyList, Node.isLeaf]
    | vBool b =>
        have hm' : m'.isLeaf = true := by
          cases m' <;> simp_all [PresN, Node.isLeaf]
        cases m' <;> simp_all [keyList, Node.isLeaf]
    | vNull =>
        have hm' : m'.isLeaf = true := by
          cases m' <;> simp_all [PresN, Node.isLeaf]
        cases m' <;> simp_all [keyList, Node.isLeaf]

theorem presN_unclassLeaf {U : String → Bool} {d out : Node} (hp : PresN U d out)
    (p : List PathElem) (k : String) (s : Node) (hU : U k = true) (hs : s.isLeaf = true)
    (hat : atPath (p ++ [.key k]) d = some s) : atPath (p ++ [.key k]) out = some s := by
  rw [atPath_append] at hat ⊢
  cases hd : atPath p d with
  | none => rw [hd] at hat; simp at hat
  | some m =>
      rw [hd] at hat
      simp only [Option.some_bind] at hat
      rcases presN_atPath U p d out hp with ⟨h1, _⟩ | ⟨m0, m', h1, h2, hm⟩
      · rw [hd] at h1; cases h1
      · rw [hd] at h1
        injection h1 with h1
        subst h1
        rw [h2]
        simp only [Option.some_bind]
        cases m with
        | obj kvs =>
            simp only [atPath] at hat ⊢
            cases hl : kvs.lookup k with
            | none => rw [hl] at hat; cases hat
            | some v =>
                rw [hl] at hat
                simp only [atPath] at hat
                injection hat with hat
                have hvs : v.isLeaf = true := by rw [hat]; exact hs
                cases m' with
                | obj kvs' =>
                    obtain ⟨v', hl', _, hunc⟩ := presKVs_lookup U kvs kvs' hm k v hl
                    have hv' : v' = v := hunc hU hvs
                    simp [atPath, hl', hv', hat]
                | arr ys => exact absurd hm.1 (by simp [Node.isLeaf])
                | vInt n => exact absurd hm.1 (by simp [Node.isLeaf])
                | vFloat fv => exact absurd hm.1 (by simp [Node.isLeaf])
                | vStr st => exact absurd hm.1 (by simp [Node.isLeaf])
                | vBool b => exact absurd hm.1 (by simp [Node.isLeaf])
                | vNull => exact absurd hm.1 (by simp [Node.isLeaf])
        | arr xs => simp [atPath] at hat
        | vInt n => simp [atPath] at hat
        | vFloat fv => simp [atPath] at hat
        | vStr st => simp [atPath] at hat
        | vBool b => simp [atPath] at hat
        | vNull => simp [atPath] at hat

/-- C6: every key not classified for the active pass — including the
exclusion-set keys `sampleRate`, `integratedLUFS` and `peakLevel` — maps in
the output to a value identical to its input value whenever it holds a
leaf, under both the DirectScaler spatial pass and the engine temporal pass
at every factor, and the key set and key order of every object in the tree
are preserved exactly. -/
theorem claim_C6 (f : ℚ) (pa : Bool) (pt : Option String) (d out out' : Node) :
    (unclassDS "sampleRate" = true ∧ unclassDS "integratedLUFS" = true
      ∧ unclassDS "peakLevel" = true ∧ unclassTM "sampleRate" = true
      ∧ unclassTM "integratedLUFS" = true ∧ unclassTM "peakLevel" = true)
    ∧ (dsScaleData f d = .ok out →
        (∀ p, keysAt p out = keysAt p d)
        ∧ (∀ p k s, unclassDS k = true → s.isLeaf = true →
            atPath (p ++ [.key k]) d = some s → atPath (p ++ [.key k]) out = some s))
    ∧ (tmWalk pa f pt d = .ok out' →
        (∀ p, keysAt p out' = keysAt p d)
        ∧ (∀ p k s, unclassTM k = true → s.isLeaf = true →
            atPath (p ++ [.key k]) d = some s → atPath (p ++ [.key k]) out' = some s)) := by
  refine ⟨by decide, fun hok => ?_, fun hok => ?_⟩
  · have hp := dsScaleData_pres f d out hok
    exact ⟨presN_keysAt hp, fun p k s hU hs hat => presN_unclassLeaf hp p k s hU hs hat⟩
  · have hp := tmWalk_pres pa f pt d out' hok
    exact ⟨presN_keysAt hp, fun p k s hU hs hat => presN_unclassLeaf hp p k s hU hs hat⟩

/-- Witness for C6: a document with a classified key `width`, an
unrecognized key `custom` and the exclusion-set key `peakLevel`: the
DirectScaler spatial pass at factor 2 keeps the key order and leaves the
unclassified leaves untouched. -/
theorem claim_C6_witness :
    keysAt [] (.obj (.cons "width" (.vInt 200) (.cons "custom" (.vStr "x")
        (.cons "peakLevel" (.vFloat (.fin (-7))) .nil))))
      = keysAt [] (.obj (.cons "width" (.vInt 100) (.cons "custom" (.vStr "x")
        (.cons "peakLevel" (.vFloat (.fin (-7))) .nil))))
    ∧ atPath [.key "custom"] (.obj (.cons "width" (.vInt 200) (.cons "custom" (.vStr "x")
        (.cons "peakLevel" (.vFloat (.fin (-7))) .nil)))) = some (.vStr "x")
    ∧ atPath [.key "peakLevel"] (.obj (.cons "width" (.vInt 200) (.cons "custom" (.vStr "x")
        (.cons "peakLevel" (.vFloat (.fin (-7))) .nil)))) = some (.vFloat (.fin (-7))) := by
  have hok : dsScaleData 2 (.obj (.cons "width" (.vInt 100) (.cons "custom" (.vStr "x")
      (.cons "peakLevel" (.vFloat (.fin (-7))) .nil))))
      = .ok (.obj (.cons "width" (.vInt 200) (.cons "custom" (.vStr "x")
      (.cons "peakLevel" (.vFloat (.fin (-7))) .nil)))) := by
    norm_num +decide [dsScaleData, dsScaleDataLoop, NodeKVs.lookup, NodeKVs.setKeyE,
      dsScaleNumE, dsScaleNum, Node.isNum, roundHalfEven, Int.fract]
  have h := (claim_C6 2 true none _ _ (.vNull)).2.1 hok
  refine ⟨h.1 [], ?_, ?_⟩
  · have := h.2 [] "custom" (.vStr "x") (by decide) (by decide) (by simp [atPath, NodeKVs.lookup])
    simpa using this
  · have := h.2 [] "peakLevel" (.vFloat (.fin (-7))) (by decide) (by decide)
      (by simp [atPath, NodeKVs.lookup])
    simpa using this

/-! ### C7: numeric composition lemmas -/

theorem roundHE_abs (q : ℚ) : |(roundHalfEven q : ℚ) - q| ≤ 1/2 := by
  have hfr0 : 0 ≤ Int.fract q := Int.fract_nonneg q
  have hfr1 : Int.fract q < 1 := Int.fract_lt_one q
  have hfl : (⌊q⌋ : ℚ) = q - Int.fract q := by
    rw [Int.fract]; ring
  rw [roundHalfEven]
  by_cases h1 : Int.fract q < 1/2
  · rw [if_pos h1, hfl]
    rw [abs_le]
    constructor <;> nlinarith
  · rw [if_neg h1]
    by_cases h2 : 1/2 < Int.fract q
    · rw [if_pos h2]
      push_cast
      rw [hfl, abs_le]
      constructor <;> nlinarith
    · rw [if_neg h2]
      have heq : Int.fract q = 1/2 := by linarith
      by_cases h3 : ⌊q⌋ % 2 = 0
      · rw [if_pos h3, hfl, heq, abs_le]
        constructor <;> linarith
      · rw [if_neg h3]
        push_cast
        rw [hfl, heq, abs_le]
        constructor <;> linarith

theorem roundHE_comp {b : ℚ} (hb : 0 < b) (x : ℚ) :
    |(roundHalfEven ((roundHalfEven x : ℚ) * b) : ℚ) - (roundHalfEven (x * b) : ℚ)| ≤ b/2 + 1 := by
  have h1 := roundHE_abs ((roundHalfEven x : ℚ) * b)
  have h2 := roundHE_abs (x * b)
  have h3 := roundHE_abs x
  have h4 : |(roundHalfEven x : ℚ) * b - x * b| ≤ b/2 := by
    rw [← sub_mul, abs_mul, abs_of_pos hb]
    calc |(roundHalfEven x : ℚ) - x| * b ≤ (1/2) * b := by
          exact mul_le_mul_of_nonneg_right h3 (le_of_lt hb)
      _ = b/2 := by ring
  calc |(roundHalfEven ((roundHalfEven x : ℚ) * b) : ℚ) - (roundHalfEven (x * b) : ℚ)|
      ≤ |(roundHalfEven ((roundHalfEven x : ℚ) * b) : ℚ) - (roundHalfEven x : ℚ) * b|
        + |(roundHalfEven x : ℚ) * b - x * b|
        + |x * b - (roundHalfEven (x * b) : ℚ)| := by
        have := abs_sub_le ((roundHalfEven ((roundHalfEven x : ℚ) * b) : ℚ))
          ((roundHalfEven x : ℚ) * b) ((roundHalfEven (x * b) : ℚ))
        have := abs_sub_le ((roundHalfEven x : ℚ) * b) (x * b) ((roundHalfEven (x * b) : ℚ))
        linarith [abs_sub_le ((roundHalfEven ((roundHalfEven x : ℚ) * b) : ℚ))
          ((roundHalfEven x : ℚ) * b) ((roundHalfEven (x * b) : ℚ)),
          abs_sub_le ((roundHalfEven x : ℚ) * b) (x * b) ((roundHalfEven (x * b) : ℚ))]
    _ ≤ 1/2 + b/2 + 1/2 := by
        have h2' : |x * b - (roundHalfEven (x * b) : ℚ)| ≤ 1/2 := by
          rw [abs_sub_comm]
          exact h2
        linarith
    _ = b/2 + 1 := by ring

theorem mulFin_assoc {a b : ℚ} (ha : 0 < a) (hb : 0 < b) (fv : FloatVal) :
    (fv.mulFin a).mulFin b = fv.mulFin (a * b) := by
  have hab : 0 < a * b := mul_pos ha hb
  cases fv with
  | fin q => simp [FloatVal.mulFin, mul_assoc]
  | inf => simp [FloatVal.mulFin, ha, hb, hab]
  | neginf => simp [FloatVal.mulFin, ha, hb, hab]
  | nan => simp [FloatVal.mulFin]

theorem isNum_dsScaleNum (f : ℚ) (v : Node) : (dsScaleNum f v).isNum = v.isNum := by
  cases v <;> rfl

theorem dsScaleNum_comp {a b : ℚ} (ha : 0 < a) (hb : 0 < b) {v : Node}
    (hv : v.isNum = true) :
    NearN (b/2 + 1) (dsScaleNum b (dsScaleNum a v)) (dsScaleNum (a*b) v) := by
  cases v with
  | vInt n =>
      show |((roundHalfEven ((roundHalfEven ((n : ℚ) * a) : ℚ) * b) : ℤ) : ℚ) -
        ((roundHalfEven ((n : ℚ) * (a * b)) : ℤ) : ℚ)| ≤ b/2 + 1
      have h := roundHE_comp hb ((n : ℚ) * a)
      rw [mul_assoc] at h
      exact h
  | vBool c =>
      show |((roundHalfEven ((roundHalfEven ((if c then (1:ℚ) else 0) * a) : ℤ) * b) : ℤ) : ℚ) -
        ((roundHalfEven ((if c then (1:ℚ) else 0) * (a * b)) : ℤ) : ℚ)| ≤ b/2 + 1
      have h := roundHE_comp hb ((if c then (1:ℚ) else 0) * a)
      rw [mul_assoc] at h
      exact h
  | vFloat fv =>
      show Node.vFloat ((fv.mulFin a).mulFin b) = Node.vFloat (fv.mulFin (a*b))
      rw [mulFin_assoc ha hb]
  | vStr s => simp [Node.isNum] at hv
  | vNull => simp [Node.isNum] at hv
  | obj kvs => simp [Node.isNum] at hv
  | arr xs => simp [Node.isNum] at hv

mutual

theorem nearN_refl {B : ℚ} (hB : 0 ≤ B) : (n : Node) → NearN B n n
  | .obj kvs => nearKVs_refl hB kvs
  | .arr xs => nearL_refl hB xs
  | .vInt m => by
      show |(m : ℚ) - (m : ℚ)| ≤ B
      simpa using hB
  | .vFloat fv => rfl
  | .vStr s => rfl
  | .vBool c => rfl
  | .vNull => rfl
termination_by structural n => n

theorem nearL_refl {B : ℚ} (hB : 0 ≤ B) : (xs : NodeList) → NearL B xs xs
  | .nil => trivial
  | .cons x xs => ⟨nearN_refl hB x, nearL_refl hB xs⟩
termination_by structural xs => xs

theorem nearKVs_refl {B : ℚ} (hB : 0 ≤ B) : (kvs : NodeKVs) → NearKVs B kvs kvs
  | .nil => trivial
  | .cons k v rest => ⟨rfl, nearN_refl hB v, nearKVs_refl hB rest⟩
termination_by structural kvs => kvs

end

theorem nearAt_refl (P : String → Bool) {B : ℚ} (hB : 0 ≤ B) :
    (kvs : NodeKVs) → NearAt P B kvs kvs
  | .nil => trivial
  | .cons k v rest => by
      refine ⟨rfl, ?_, nearAt_refl P hB rest⟩
      by_cases h : P k = true
      · rw [if_pos h]
        exact nearN_refl hB v
      · rw [if_neg h]

theorem nearAt_mono {P P' : String → Bool} {B : ℚ} (hB : 0 ≤ B)
    (hPP : ∀ k, P k = true → P' k = true) :
    (X Y : NodeKVs) → NearAt P B X Y → NearAt P' B X Y
  | .nil, .nil, _ => trivial
  | .nil, .cons _ _ _, h => absurd h (by simp [NearAt])
  | .cons _ _ _, .nil, h => absurd h (by simp [NearAt])
  | .cons k v rX, .cons k' v' rY, h => by
      obtain ⟨hk, hv, hr⟩ := h
      refine ⟨hk, ?_, nearAt_mono hB hPP rX rY hr⟩
      by_cases hPk : P k = true
      · rw [if_pos hPk] at hv
        rw [if_pos (hPP k hPk)]
        exact hv
      · rw [if_neg hPk] at hv
        by_cases hP'k : P' k = true
        · rw [if_pos hP'k, hv]
          exact nearN_refl hB v
        · rw [if_neg hP'k]
          exact hv

theorem dsScaleList_len (f : ℚ) :
    (xs ys : NodeList) → dsScaleList f xs = .ok ys → ys.length = xs.length
  | .nil, ys, h => by
      simp only [dsScaleList, exceptPureEq, Except.ok.injEq] at h
      subst h
      rfl
  | .cons x xs, ys, h => by
      simp only [dsScaleList] at h
      obtain ⟨y, h1, h2⟩ := bindOkInv h
      obtain ⟨ys', h3, h4⟩ := bindOkInv h2
      simp only [exceptPureEq, Except.ok.injEq] at h4
      subst h4
      simp only [NodeList.length, dsScaleList_len f xs ys' h3]

theorem dsWalkList_len (f : ℚ) (pk : Option String) :
    (xs ys : NodeList) → dsWalkList f pk xs = .ok ys → ys.length = xs.length
  | .nil, ys, h => by
      simp only [dsWalkList, exceptPureEq, Except.ok.injEq] at h
      subst h
      rfl
  | .cons x xs, ys, h => by
      simp only [dsWalkList] at h
      obtain ⟨y, h1, h2⟩ := bindOkInv h
      obtain ⟨ys', h3, h4⟩ := bindOkInv h2
      simp only [exceptPureEq, Except.ok.injEq] at h4
      subst h4
      simp only [NodeList.length, dsWalkList_len f pk xs ys' h3]

theorem dsWalkKfList_len (f : ℚ) (pk : Option String) :
    (xs ys : NodeList) → dsWalkKfList f pk xs = .ok ys → ys.length = xs.length
  | .nil, ys, h => by
      simp only [dsWalkKfList, exceptPureEq, Except.ok.injEq] at h
      subst h
      rfl
  | .cons kf kfs, ys, h => by
      cases kf with
      | obj w =>
          simp only [dsWalkKfList, exceptPureEq, exceptOkBind] at h
          obtain ⟨w1, h1, h2⟩ := bindOkInv h
          obtain ⟨kfs', h3, h4⟩ := bindOkInv h2
          simp only [exceptPureEq, Except.ok.injEq] at h4
          subst h4
          simp only [NodeList.length, dsWalkKfList_len f pk kfs kfs' h3]
      | arr xs =>
          simp only [dsWalkKfList, exceptPureEq, exceptOkBind] at h
          obtain ⟨xs1, h1, h2⟩ := bindOkInv h
          obtain ⟨kfs', h3, h4⟩ := bindOkInv h2
          simp only [exceptPureEq, Except.ok.injEq] at h4
          subst h4
          simp only [NodeList.length, dsWalkKfList_len f pk kfs kfs' h3]
      | vInt m =>
          simp only [dsWalkKfList, exceptPureEq, exceptOkBind] at h
          obtain ⟨kfs', h3, h4⟩ := bindOkInv h
          simp only [exceptPureEq, Except.ok.injEq] at h4
          subst h4
          simp only [NodeList.length, dsWalkKfList_len f pk kfs kfs' h3]
      | vFloat fv =>
          simp only [dsWalkKfList, exceptPureEq, exceptOkBind] at h
          obtain ⟨kfs', h3, h4⟩ := bindOkInv h
          simp only [exceptPureEq, Except.ok.injEq] at h4
          subst h4
          simp only [NodeList.length, dsWalkKfList_len f pk kfs kfs' h3]
      | vStr s =>
          simp only [dsWalkKfList, exceptPureEq, exceptOkBind] at h
          obtain ⟨kfs', h3, h4⟩ := bindOkInv h
          simp only [exceptPureEq, Except.ok.injEq] at h4
          subst h4
          simp only [NodeList.length, dsWalkKfList_len f pk kfs kfs' h3]
      | vBool c =>
          simp only [dsWalkKfList, exceptPureEq, exceptOkBind] at h
          obtain ⟨kfs', h3, h4⟩ := bindOkInv h
          simp only [exceptPureEq, Except.ok.injEq] at h4
          subst h4
          simp only [NodeList.length, dsWalkKfList_len f pk kfs kfs' h3]
      | vNull =>
          simp only [dsWalkKfList, exceptPureEq, exceptOkBind] at h
          obtain ⟨kfs', h3, h4⟩ := bindOkInv h
          simp only [exceptPureEq, Except.ok.injEq] at h4
          subst h4
          simp only [NodeList.length, dsWalkKfList_len f pk kfs kfs' h3]

theorem dsEntry_leaf_eq (f : ℚ) (pk : Option String) (k : String) {v : Node}
    (hL : v.isLeaf = true) :
    dsEntry f pk k v =
      if dsScaleProps.contains k && !(dsPreserveProps.contains k) && v.isNum then
        pure (dsScaleNum f v)
      else pure v := by
  cases v <;> first | rfl | simp [Node.isLeaf] at hL

theorem dsEntry_leaf_isNum {f : ℚ} {pk : Option String} {k : String} {v v' : Node}
    (hL : v.isLeaf = true) (h : dsEntry f pk k v = .ok v') : v'.isNum = v.isNum := by
  rw [dsEntry_leaf_eq f pk k hL] at h
  split_ifs at h <;> simp only [exceptPureEq, Except.ok.injEq] at h <;> subst h
  · exact isNum_dsScaleNum f v
  · rfl

theorem dsEntry_ok_isNum {f : ℚ} {pk : Option String} {k : String} {v v' : Node}
    (h : dsEntry f pk k v = .ok v') : v'.isNum = v.isNum := by
  cases v with
  | arr xs =>
      simp only [dsEntry] at h
      split_ifs at h <;>
        · obtain ⟨ys, h1, h2⟩ := bindOkInv h
          simp only [exceptPureEq, Except.ok.injEq] at h2
          subst h2
          rfl
  | obj w =>
      simp only [dsEntry] at h
      split_ifs at h <;>
        · obtain ⟨w1, h1, h2⟩ := bindOkInv h
          simp only [exceptPureEq, Except.ok.injEq] at h2
          subst h2
          rfl
  | vInt m => exact dsEntry_leaf_isNum rfl h
  | vFloat fv => exact dsEntry_leaf_isNum rfl h
  | vStr s => exact dsEntry_leaf_isNum rfl h
  | vBool c => exact dsEntry_leaf_isNum rfl h
  | vNull => exact dsEntry_leaf_isNum rfl h

theorem dsEntryLeafComp {a b : ℚ} (ha : 0 < a) (hb : 0 < b) {pk : Option String}
    {k : String} {v v₁ v₂ v₃ : Node} (hL : v.isLeaf = true)
    (h1 : dsEntry a pk k v = .ok v₁) (h2 : dsEntry b pk k v₁ = .ok v₂)
    (h3 : dsEntry (a*b) pk k v = .ok v₃) : NearN (b/2 + 1) v₂ v₃ := by
  have hB : (0:ℚ) ≤ b/2 + 1 := by linarith
  rw [dsEntry_leaf_eq a pk k hL] at h1
  rw [dsEntry_leaf_eq (a*b) pk k hL] at h3
  by_cases hc : (dsScaleProps.contains k && !(dsPreserveProps.contains k) && v.isNum) = true
  · rw [if_pos hc] at h1 h3
    simp only [exceptPureEq, Except.ok.injEq] at h1 h3
    subst h1
    subst h3
    have hnum : v.isNum = true := by
      simp only [Bool.and_eq_true] at hc
      exact hc.2
    have hL1 : (dsScaleNum a v).isLeaf = true := dsScaleNum_leaf hL
    rw [dsEntry_leaf_eq b pk k hL1] at h2
    have hc1 : (dsScaleProps.contains k && !(dsPreserveProps.contains k)
        && (dsScaleNum a v).isNum) = true := by
      rw [isNum_dsScaleNum]
      exact hc
    rw [if_pos hc1] at h2
    simp only [exceptPureEq, Except.ok.injEq] at h2
    subst h2
    exact dsScaleNum_comp ha hb hnum
  · rw [if_neg hc] at h1 h3
    simp only [exceptPureEq, Except.ok.injEq] at h1 h3
    subst h1
    subst h3
    rw [dsEntry_leaf_eq b pk k hL] at h2
    rw [if_neg hc] at h2
    simp only [exceptPureEq, Except.ok.injEq] at h2
    subst h2
    exact nearN_refl hB v

theorem dsScaleListComp {a b : ℚ} (ha : 0 < a) (hb : 0 < b) :
    (xs ys₁ ys₂ ys₃ : NodeList) → dsScaleList a xs = .ok ys₁ →
      dsScaleList b ys₁ = .ok ys₂ → dsScaleList (a*b) xs = .ok ys₃ →
      NearL (b/2 + 1) ys₂ ys₃
  | .nil, ys₁, ys₂, ys₃, h1, h2, h3 => by
      simp only [dsScaleList, exceptPureEq, Except.ok.injEq] at h1 h3
      subst h1
      subst h3
      simp only [dsScaleList, exceptPureEq, Except.ok.injEq] at h2
      subst h2
      trivial
  | .cons x xs, ys₁, ys₂, ys₃, h1, h2, h3 => by
      simp only [dsScaleList] at h1 h3
      obtain ⟨y1, hx1, h1'⟩ := bindOkInv h1
      obtain ⟨t1, ht1, h1''⟩ := bindOkInv h1'
      simp only [exceptPureEq, Except.ok.injEq] at h1''
      subst h1''
      simp only [dsScaleList] at h2
      obtain ⟨y2, hx2, h2'⟩ := bindOkInv h2
      obtain ⟨t2, ht2, h2''⟩ := bindOkInv h2'
      simp only [exceptPureEq, Except.ok.injEq] at h2''
      subst h2''
      obtain ⟨y3, hx3, h3'⟩ := bindOkInv h3
      obtain ⟨t3, ht3, h3''⟩ := bindOkInv h3'
      simp only [exceptPureEq, Except.ok.injEq] at h3''
      subst h3''
      obtain ⟨hn1, hy1⟩ := dsScaleNumE_ok hx1
      subst hy1
      obtain ⟨hn2, hy2⟩ := dsScaleNumE_ok hx2
      subst hy2
      obtain ⟨hn3, hy3⟩ := dsScaleNumE_ok hx3
      subst hy3
      exact ⟨dsScaleNum_comp ha hb hn1, dsScaleListComp ha hb xs t1 t2 t3 ht1 ht2 ht3⟩

mutual

theorem dsWalkComp (a b : ℚ) (ha : 0 < a) (hb : 0 < b) (pk : Option String) :
    (n n₁ n₂ n₃ : Node) → dsWalk a pk n = .ok n₁ → dsWalk b pk n₁ = .ok n₂ →
      dsWalk (a*b) pk n = .ok n₃ → NearN (b/2 + 1) n₂ n₃
  | .obj kvs, n₁, n₂, n₃, h1, h2, h3 => by
      simp only [dsWalk] at h1 h3
      obtain ⟨l1, hE1, h1'⟩ := bindOkInv h1
      simp only [exceptPureEq, Except.ok.injEq] at h1'
      subst h1'
      obtain ⟨l3, hE3, h3'⟩ := bindOkInv h3
      simp only [exceptPureEq, Except.ok.injEq] at h3'
      subst h3'
      simp only [dsWalk] at h2
      obtain ⟨l2, hE2, h2'⟩ := bindOkInv h2
      simp only [exceptPureEq, Except.ok.injEq] at h2'
      subst h2'
      exact dsWalkEntriesComp a b ha hb pk kvs l1 l2 l3 hE1 hE2 hE3
  | .arr xs, n₁, n₂, n₃, h1, h2, h3 => by
      simp only [dsWalk] at h1 h3
      obtain ⟨l1, hE1, h1'⟩ := bindOkInv h1
      simp only [exceptPureEq, Except.ok.injEq] at h1'
      subst h1'
      obtain ⟨l3, hE3, h3'⟩ := bindOkInv h3
      simp only [exceptPureEq, Except.ok.injEq] at h3'
      subst h3'
      simp only [dsWalk] at h2
      obtain ⟨l2, hE2, h2'⟩ := bindOkInv h2
      simp only [exceptPureEq, Except.ok.injEq] at h2'
      subst h2'
      exact dsWalkListComp a b ha hb pk xs l1 l2 l3 hE1 hE2 hE3
  | .vInt m, n₁, n₂, n₃, h1, h2, h3 => by
      simp only [dsWalk, exceptPureEq, Except.ok.injEq] at h1
      subst h1
      simp only [dsWalk, exceptPureEq, Except.ok.injEq] at h2 h3
      subst h2
      subst h3
      exact nearN_refl (by linarith) _
  | .vFloat fv, n₁, n₂, n₃, h1, h2, h3 => by
      simp only [dsWalk, exceptPureEq, Except.ok.injEq] at h1
      subst h1
      simp only [dsWalk, exceptPureEq, Except.ok.injEq] at h2 h3
      subst h2
      subst h3
      exact nearN_refl (by linarith) _
  | .vStr s, n₁, n₂, n₃, h1, h2, h3 => by
      simp only [dsWalk, exceptPureEq, Except.ok.injEq] at h1
      subst h1
      simp only [dsWalk, exceptPureEq, Except.ok.injEq] at h2 h3
      subst h2
      subst h3
      exact nearN_refl (by linarith) _
  | .vBool c, n₁, n₂, n₃, h1, h2, h3 => by
      simp only [dsWalk, exceptPureEq, Except.ok.injEq] at h1
      subst h1
      simp only [dsWalk, exceptPureEq, Except.ok.injEq] at h2 h3
      subst h2
      subst h3
      exact nearN_refl (by linarith) _
  | .vNull, n₁, n₂, n₃, h1, h2, h3 => by
      simp only [dsWalk, exceptPureEq, Except.ok.injEq] at h1
      subst h1
      simp only [dsWalk, exceptPureEq, Except.ok.injEq] at h2 h3
      subst h2
      subst h3
      exact nearN_refl (by linarith) _
termination_by structural n n₁ n₂ n₃ h1 h2 h3 => n

theorem dsWalkListComp (a b : ℚ) (ha : 0 < a) (hb : 0 < b) (pk : Option String) :
    (xs ys₁ ys₂ ys₃ : NodeList) → dsWalkList a pk xs = .ok ys₁ →
      dsWalkList b pk ys₁ = .ok ys₂ → dsWalkList (a*b) pk xs = .ok ys₃ →
      NearL (b/2 + 1) ys₂ ys₃
  | .nil, ys₁, ys₂, ys₃, h1, h2, h3 => by
      simp only [dsWalkList, exceptPureEq, Except.ok.injEq] at h1 h3
      subst h1
      subst h3
      simp only [dsWalkList, exceptPureEq, Except.ok.injEq] at h2
      subst h2
      trivial
  | .cons x xs, ys₁, ys₂, ys₃, h1, h2, h3 => by
      simp only [dsWalkList] at h1 h3
      obtain ⟨y1, hx1, h1'⟩ := bindOkInv h1
      obtain ⟨t1, ht1, h1''⟩ := bindOkInv h1'
      simp only [exceptPureEq, Except.ok.injEq] at h1''
      subst h1''
      simp only [dsWalkList] at h2
      obtain ⟨y2, hx2, h2'⟩ := bindOkInv h2
      obtain ⟨t2, ht2, h2''⟩ := bindOkInv h2'
      simp only [exceptPureEq, Except.ok.injEq] at h2''
      subst h2''
      obtain ⟨y3, hx3, h3'⟩ := bindOkInv h3
      obtain ⟨t3, ht3, h3''⟩ := bindOkInv h3'
      simp only [exceptPureEq, Except.ok.injEq] at h3''
      subst h3''
      exact ⟨dsWalkComp a b ha hb pk x y1 y2 y3 hx1 hx2 hx3,
        dsWalkListComp a b ha hb pk xs t1 t2 t3 ht1 ht2 ht3⟩
termination_by structural xs ys₁ ys₂ ys₃ h1 h2 h3 => xs

theorem dsWalkEntriesComp (a b : ℚ) (ha : 0 < a) (hb : 0 < b) (pk : Option String) :
    (kvs kvs₁ kvs₂ kvs₃ : NodeKVs) → dsWalkEntries a pk kvs = .ok kvs₁ →
      dsWalkEntries b pk kvs₁ = .ok kvs₂ → dsWalkEntries (a*b) pk kvs = .ok kvs₃ →
      NearKVs (b/2 + 1) kvs₂ kvs₃
  | .nil, kvs₁, kvs₂, kvs₃, h1, h2, h3 => by
      simp only [dsWalkEntries, exceptPureEq, Except.ok.injEq] at h1 h3
      subst h1
      subst h3
      simp only [dsWalkEntries, exceptPureEq, Except.ok.injEq] at h2
      subst h2
      trivial
  | .cons k v rest, kvs₁, kvs₂, kvs₃, h1, h2, h3 => by
      simp only [dsWalkEntries] at h1 h3
      obtain ⟨v1, hv1, h1'⟩ := bindOkInv h1
      obtain ⟨t1, ht1, h1''⟩ := bindOkInv h1'
      simp only [exceptPureEq, Except.ok.injEq] at h1''
      subst h1''
      simp only [dsWalkEntries] at h2
      obtain ⟨v2, hv2, h2'⟩ := bindOkInv h2
      obtain ⟨t2, ht2, h2''⟩ := bindOkInv h2'
      simp only [exceptPureEq, Except.ok.injEq] at h2''
      subst h2''
      obtain ⟨v3, hv3, h3'⟩ := bindOkInv h3
      obtain ⟨t3, ht3, h3''⟩ := bindOkInv h3'
      simp only [exceptPureEq, Except.ok.injEq] at h3''
      subst h3''
      exact ⟨rfl, dsEntryComp a b ha hb pk k v v1 v2 v3 hv1 hv2 hv3,
        dsWalkEntriesComp a b ha hb pk rest t1 t2 t3 ht1 ht2 ht3⟩
termination_by structural kvs kvs₁ kvs₂ kvs₃ h1 h2 h3 => kvs

theorem dsEntryComp (a b : ℚ) (ha : 0 < a) (hb : 0 < b) (pk : Option String) (k : String) :
    (v v₁ v₂ v₃ : Node) → dsEntry a pk k v = .ok v₁ → dsEntry b pk k v₁ = .ok v₂ →
      dsEntry (a*b) pk k v = .ok v₃ → NearN (b/2 + 1) v₂ v₃
  | .arr xs, v₁, v₂, v₃, h1, h2, h3 => by
      simp only [dsEntry] at h1 h3
      by_cases hr : (k = "rect" && xs.length == 4) = true
      · rw [if_pos hr] at h1 h3
        obtain ⟨ys1, hL1, h1'⟩ := bindOkInv h1
        simp only [exceptPureEq, Except.ok.injEq] at h1'
        subst h1'
        obtain ⟨ys3, hL3, h3'⟩ := bindOkInv h3
        simp only [exceptPureEq, Except.ok.injEq] at h3'
        subst h3'
        have hlen : ys1.length = xs.length := dsScaleList_len a xs ys1 hL1
        simp only [dsEntry] at h2
        rw [if_pos (show (k = "rect" && ys1.length == 4) = true by rw [hlen]; exact hr)] at h2
        obtain ⟨ys2, hL2, h2'⟩ := bindOkInv h2
        simp only [exceptPureEq, Except.ok.injEq] at h2'
        subst h2'
        exact dsScaleListComp ha hb xs ys1 ys2 ys3 hL1 hL2 hL3
      · rw [if_neg hr] at h1 h3
        by_cases htr : (k = "trackRect" && xs.length == 4) = true
        · rw [if_pos htr] at h1 h3
          obtain ⟨ys1, hL1, h1'⟩ := bindOkInv h1
          simp only [exceptPureEq, Except.ok.injEq] at h1'
          subst h1'
          obtain ⟨ys3, hL3, h3'⟩ := bindOkInv h3
          simp only [exceptPureEq, Except.ok.injEq] at h3'
          subst h3'
          have hlen : ys1.length = xs.length := dsScaleList_len a xs ys1 hL1
          simp only [dsEntry] at h2
          rw [if_neg (show ¬(k = "rect" && ys1.length == 4) = true by rw [hlen]; exact hr)] at h2
          rw [if_pos (show (k = "trackRect" && ys1.length == 4) = true by
            rw [hlen]; exact htr)] at h2
          obtain ⟨ys2, hL2, h2'⟩ := bindOkInv h2
          simp only [exceptPureEq, Except.ok.injEq] at h2'
          subst h2'
          exact dsScaleListComp ha hb xs ys1 ys2 ys3 hL1 hL2 hL3
        · rw [if_neg htr] at h1 h3
          by_cases hkf : k = "keyframes"
          · rw [if_pos hkf] at h1 h3
            obtain ⟨ys1, hL1, h1'⟩ := bindOkInv h1
            simp only [exceptPureEq, Except.ok.injEq] at h1'
            subst h1'
            obtain ⟨ys3, hL3, h3'⟩ := bindOkInv h3
            simp only [exceptPureEq, Except.ok.injEq] at h3'
            subst h3'
            have hlen : ys1.length = xs.length := dsWalkKfList_len a pk xs ys1 hL1
            simp only [dsEntry] at h2
            rw [if_neg (show ¬(k = "rect" && ys1.length == 4) = true by
              rw [hlen]; exact hr)] at h2
            rw [if_neg (show ¬(k = "trackRect" && ys1.length == 4) = true by
              rw [hlen]; exact htr)] at h2
            rw [if_pos hkf] at h2
            obtain ⟨ys2, hL2, h2'⟩ := bindOkInv h2
            simp only [exceptPureEq, Except.ok.injEq] at h2'
            subst h2'
            exact dsWalkKfListComp a b ha hb pk xs ys1 ys2 ys3 hL1 hL2 hL3
          · rw [if_neg hkf] at h1 h3
            obtain ⟨ys1, hL1, h1'⟩ := bindOkInv h1
            simp only [exceptPureEq, Except.ok.injEq] at h1'
            subst h1'
            obtain ⟨ys3, hL3, h3'⟩ := bindOkInv h3
            simp only [exceptPureEq, Except.ok.injEq] at h3'
            subst h3'
            have hlen : ys1.length = xs.length := dsWalkList_len a (some k) xs ys1 hL1
            simp only [dsEntry] at h2
            rw [if_neg (show ¬(k = "rect" && ys1.length == 4) = true by
              rw [hlen]; exact hr)] at h2
            rw [if_neg (show ¬(k = "trackRect" && ys1.length == 4) = true by
              rw [hlen]; exact htr)] at h2
            rw [if_neg hkf] at h2
            obtain ⟨ys2, hL2, h2'⟩ := bindOkInv h2
            simp only [exceptPureEq, Except.ok.injEq] at h2'
            subst h2'
            exact dsWalkListComp a b ha hb (some k) xs ys1 ys2 ys3 hL1 hL2 hL3
  | .obj w, v₁, v₂, v₃, h1, h2, h3 => by
      simp only [dsEntry] at h1 h3
      by_cases hc : (dsScaleProps.contains k && !(dsPreserveProps.contains k)
          && (w.lookup "value").isSome) = true
      · rw [if_pos hc] at h1 h3
        obtain ⟨w1, hW1, h1'⟩ := bindOkInv h1
        simp only [exceptPureEq, Except.ok.injEq] at h1'
        subst h1'
        obtain ⟨w3, hW3, h3'⟩ := bindOkInv h3
        simp only [exceptPureEq, Except.ok.injEq] at h3'
        subst h3'
        have hlk : (w1.lookup "value").isSome = (w.lookup "value").isSome :=
          lookup_isSome_eq_of_presKVs unclassDS w w1 (dsWalkWrapEntries_pres a k w w1 hW1) "value"
        simp only [dsEntry] at h2
        rw [if_pos (show (dsScaleProps.contains k && !(dsPreserveProps.contains k)
          && (w1.lookup "value").isSome) = true by rw [hlk]; exact hc)] at h2
        obtain ⟨w2, hW2, h2'⟩ := bindOkInv h2
        simp only [exceptPureEq, Except.ok.injEq] at h2'
        subst h2'
        exact dsWalkWrapEntriesComp a b ha hb k w w1 w2 w3 hW1 hW2 hW3
      · rw [if_neg hc] at h1 h3
        obtain ⟨w1, hW1, h1'⟩ := bindOkInv h1
        simp only [exceptPureEq, Except.ok.injEq] at h1'
        subst h1'
        obtain ⟨w3, hW3, h3'⟩ := bindOkInv h3
        simp only [exceptPureEq, Except.ok.injEq] at h3'
        subst h3'
        have hlk : (w1.lookup "value").isSome = (w.lookup "value").isSome :=
          lookup_isSome_eq_of_presKVs unclassDS w w1 (dsWalkEntries_pres a (some k) w w1 hW1)
            "value"
        simp only [dsEntry] at h2
        rw [if_neg (show ¬(dsScaleProps.contains k && !(dsPreserveProps.contains k)
          && (w1.lookup "value").isSome) = true by rw [hlk]; exact hc)] at h2
        obtain ⟨w2, hW2, h2'⟩ := bindOkInv h2
        simp only [exceptPureEq, Except.ok.injEq] at h2'
        subst h2'
        exact dsWalkEntriesComp a b ha hb (some k) w w1 w2 w3 hW1 hW2 hW3
  | .vInt m, v₁, v₂, v₃, h1, h2, h3 =>
      dsEntryLeafComp ha hb (show (Node.vInt m).isLeaf = true from rfl) h1 h2 h3
  | .vFloat fv, v₁, v₂, v₃, h1, h2, h3 =>
      dsEntryLeafComp ha hb (show (Node.vFloat fv).isLeaf = true from rfl) h1 h2 h3
  | .vStr s, v₁, v₂, v₃, h1, h2, h3 =>
      dsEntryLeafComp ha hb (show (Node.vStr s).isLeaf = true from rfl) h1 h2 h3
  | .vBool c, v₁, v₂, v₃, h1, h2, h3 =>
      dsEntryLeafComp ha hb (show (Node.vBool c).isLeaf = true from rfl) h1 h2 h3
  | .vNull, v₁, v₂, v₃, h1, h2, h3 =>
      dsEntryLeafComp ha hb (show (Node.vNull).isLeaf = true from rfl) h1 h2 h3
termination_by structural v v₁ v₂ v₃ h1 h2 h3 => v

theorem dsWalkKfListComp (a b : ℚ) (ha : 0 < a) (hb : 0 < b) (pk : Option String) :
    (xs ys₁ ys₂ ys₃ : NodeList) → dsWalkKfList a pk xs = .ok ys₁ →
      dsWalkKfList b pk ys₁ = .ok ys₂ → dsWalkKfList (a*b) pk xs = .ok ys₃ →
      NearL (b/2 + 1) ys₂ ys₃
  | .nil, ys₁, ys₂, ys₃, h1, h2, h3 => by
      simp only [dsWalkKfList, exceptPureEq, Except.ok.injEq] at h1 h3
      subst h1
      subst h3
      simp only [dsWalkKfList, exceptPureEq, Except.ok.injEq] at h2
      subst h2
      trivial
  | .cons kf kfs, ys₁, ys₂, ys₃, h1, h2, h3 => by
      cases kf with
      | obj w =>
          simp only [dsWalkKfList, exceptPureEq, exceptOkBind] at h1 h3
          obtain ⟨w1, hW1, h1'⟩ := bindOkInv h1
          obtain ⟨t1, ht1, h1''⟩ := bindOkInv h1'
          simp only [exceptPureEq, Except.ok.injEq] at h1''
          subst h1''
          obtain ⟨w3, hW3, h3'⟩ := bindOkInv h3
          obtain ⟨t3, ht3, h3''⟩ := bindOkInv h3'
          simp only [exceptPureEq, Except.ok.injEq] at h3''
          subst h3''
          simp only [dsWalkKfList, exceptPureEq, exceptOkBind] at h2
          obtain ⟨w2, hW2, h2'⟩ := bindOkInv h2
          obtain ⟨t2, ht2, h2''⟩ := bindOkInv h2'
          simp only [exceptPureEq, Except.ok.injEq] at h2''
          subst h2''
          exact ⟨dsWalkKfEntriesComp a b ha hb pk w w1 w2 w3 hW1 hW2 hW3,
            dsWalkKfListComp a b ha hb pk kfs t1 t2 t3 ht1 ht2 ht3⟩
      | arr zs =>
          simp only [dsWalkKfList, exceptPureEq, exceptOkBind] at h1 h3
          obtain ⟨z1, hZ1, h1'⟩ := bindOkInv h1
          obtain ⟨t1, ht1, h1''⟩ := bindOkInv h1'
          simp only [exceptPureEq, Except.ok.injEq] at h1''
          subst h1''
          obtain ⟨z3, hZ3, h3'⟩ := bindOkInv h3
          obtain ⟨t3, ht3, h3''⟩ := bindOkInv h3'
          simp only [exceptPureEq, Except.ok.injEq] at h3''
          subst h3''
          simp only [dsWalkKfList, exceptPureEq, exceptOkBind] at h2
          obtain ⟨z2, hZ2, h2'⟩ := bindOkInv h2
          obtain ⟨t2, ht2, h2''⟩ := bindOkInv h2'
          simp only [exceptPureEq, Except.ok.injEq] at h2''
          subst h2''
          exact ⟨dsWalkListComp a b ha hb (some "keyframes") zs z1 z2 z3 hZ1 hZ2 hZ3,
            dsWalkKfListComp a b ha hb pk kfs t1 t2 t3 ht1 ht2 ht3⟩
      | vInt m =>
          simp only [dsWalkKfList, exceptPureEq, exceptOkBind] at h1 h3
          obtain ⟨t1, ht1, h1''⟩ := bindOkInv h1
          simp only [exceptPureEq, Except.ok.injEq] at h1''
          subst h1''
          obtain ⟨t3, ht3, h3''⟩ := bindOkInv h3
          simp only [exceptPureEq, Except.ok.injEq] at h3''
          subst h3''
          simp only [dsWalkKfList, exceptPureEq, exceptOkBind] at h2
          obtain ⟨t2, ht2, h2''⟩ := bindOkInv h2
          simp only [exceptPureEq, Except.ok.injEq] at h2''
          subst h2''
          exact ⟨nearN_refl (by linarith) _,
            dsWalkKfListComp a b ha hb pk kfs t1 t2 t3 ht1 ht2 ht3⟩
      | vFloat fv =>
          simp only [dsWalkKfList, exceptPureEq, exceptOkBind] at h1 h3
          obtain ⟨t1, ht1, h1''⟩ := bindOkInv h1
          simp only [exceptPureEq, Except.ok.injEq] at h1''
          subst h1''
          obtain ⟨t3, ht3, h3''⟩ := bindOkInv h3
          simp only [exceptPureEq, Except.ok.injEq] at h3''
          subst h3''
          simp only [dsWalkKfList, exceptPureEq, exceptOkBind] at h2
          obtain ⟨t2, ht2, h2''⟩ := bindOkInv h2
          simp only [exceptPureEq, Except.ok.injEq] at h2''
          subst h2''
          exact ⟨nearN_refl (by linarith) _,
            dsWalkKfListComp a b ha hb pk kfs t1 t2 t3 ht1 ht2 ht3⟩
      | vStr s =>
          simp only [dsWalkKfList, exceptPureEq, exceptOkBind] at h1 h3
          obtain ⟨t1, ht1, h1''⟩ := bindOkInv h1
          simp only [exceptPureEq, Except.ok.injEq] at h1''
          subst h1''
          obtain ⟨t3, ht3, h3''⟩ := bindOkInv h3
          simp only [exceptPureEq, Except.ok.injEq] at h3''
          subst h3''
          simp only [dsWalkKfList, exceptPureEq, exceptOkBind] at h2
          obtain ⟨t2, ht2, h2''⟩ := bindOkInv h2
          simp only [exceptPureEq, Except.ok.injEq] at h2''
          subst h2''
          exact ⟨nearN_refl (by linarith) _,
            dsWalkKfListComp a b ha hb pk kfs t1 t2 t3 ht1 ht2 ht3⟩
      | vBool c =>
          simp only [dsWalkKfList, exceptPureEq, exceptOkBind] at h1 h3
          obtain ⟨t1, ht1, h1''⟩ := bindOkInv h1
          simp only [exceptPureEq, Except.ok.injEq] at h1''
          subst h1''
          obtain ⟨t3, ht3, h3''⟩ := bindOkInv h3
          simp only [exceptPureEq, Except.ok.injEq] at h3''
          subst h3''
          simp only [dsWalkKfList, exceptPureEq, exceptOkBind] at h2
          obtain ⟨t2, ht2, h2''⟩ := bindOkInv h2
          simp only [exceptPureEq, Except.ok.injEq] at h2''
          subst h2''
          exact ⟨nearN_refl (by linarith) _,
            dsWalkKfListComp a b ha hb pk kfs t1 t2 t3 ht1 ht2 ht3⟩
      | vNull =>
          simp only [dsWalkKfList, exceptPureEq, exceptOkBind] at h1 h3
          obtain ⟨t1, ht1, h1''⟩ := bindOkInv h1
          simp only [exceptPureEq, Except.ok.injEq] at h1''
          subst h1''
          obtain ⟨t3, ht3, h3''⟩ := bindOkInv h3
          simp only [exceptPureEq, Except.ok.injEq] at h3''
          subst h3''
          simp only [dsWalkKfList, exceptPureEq, exceptOkBind] at h2
          obtain ⟨t2, ht2, h2''⟩ := bindOkInv h2
          simp only [exceptPureEq, Except.ok.injEq] at h2''
          subst h2''
          exact ⟨nearN_refl (by linarith) _,
            dsWalkKfListComp a b ha hb pk kfs t1 t2 t3 ht1 ht2 ht3⟩
termination_by structural xs ys₁ ys₂ ys₃ h1 h2 h3 => xs

theorem dsWalkKfEntriesComp (a b : ℚ) (ha : 0 < a) (hb : 0 < b) (pk : Option String) :
    (w w₁ w₂ w₃ : NodeKVs) → dsWalkKfEntries a pk w = .ok w₁ →
      dsWalkKfEntries b pk w₁ = .ok w₂ → dsWalkKfEntries (a*b) pk w = .ok w₃ →
      NearKVs (b/2 + 1) w₂ w₃
  | .nil, w₁, w₂, w₃, h1, h2, h3 => by
      simp only [dsWalkKfEntries, exceptPureEq, Except.ok.injEq] at h1 h3
      subst h1
      subst h3
      simp only [dsWalkKfEntries, exceptPureEq, Except.ok.injEq] at h2
      subst h2
      trivial
  | .cons k v rest, w₁, w₂, w₃, h1, h2, h3 => by
      rw [dsWalkKfEntries_cons] at h1 h3
      obtain ⟨v1, hv1, h1'⟩ := bindOkInv h1
      obtain ⟨t1, ht1, h1''⟩ := bindOkInv h1'
      simp only [exceptPureEq, Except.ok.injEq] at h1''
      subst h1''
      obtain ⟨v3, hv3, h3'⟩ := bindOkInv h3
      obtain ⟨t3, ht3, h3''⟩ := bindOkInv h3'
      simp only [exceptPureEq, Except.ok.injEq] at h3''
      subst h3''
      rw [dsWalkKfEntries_cons] at h2
      obtain ⟨v2, hv2, h2'⟩ := bindOkInv h2
      obtain ⟨t2, ht2, h2''⟩ := bindOkInv h2'
      simp only [exceptPureEq, Except.ok.injEq] at h2''
      subst h2''
      refine ⟨rfl, ?_, dsWalkKfEntriesComp a b ha hb pk rest t1 t2 t3 ht1 ht2 ht3⟩
      by_cases hc : (k = "value" && memProps pk dsScaleProps && v.isNum) = true
      · simp only [dsKfEntry, if_pos hc, exceptPureEq, Except.ok.injEq] at hv1 hv3
        subst hv1
        subst hv3
        have hnum : v.isNum = true := by
          simp only [Bool.and_eq_true] at hc
          exact hc.2
        simp only [dsKfEntry,
          if_pos (show (k = "value" && memProps pk dsScaleProps
            && (dsScaleNum a v).isNum) = true by rw [isNum_dsScaleNum]; exact hc),
          exceptPureEq, Except.ok.injEq] at hv2
        subst hv2
        exact dsScaleNum_comp ha hb hnum
      · simp only [dsKfEntry, if_neg hc] at hv1 hv3
        simp only [dsKfEntry,
          if_neg (show ¬(k = "value" && memProps pk dsScaleProps && v1.isNum) = true by
            rw [dsEntry_ok_isNum hv1]; exact hc)] at hv2
        exact dsEntryComp a b ha hb (some "keyframes") k v v1 v2 v3 hv1 hv2 hv3
termination_by structural w w₁ w₂ w₃ h1 h2 h3 => w

theorem dsWalkWrapEntriesComp (a b : ℚ) (ha : 0 < a) (hb : 0 < b) (k0 : String) :
    (w w₁ w₂ w₃ : NodeKVs) → dsWalkWrapEntries a k0 w = .ok w₁ →
      dsWalkWrapEntries b k0 w₁ = .ok w₂ → dsWalkWrapEntries (a*b) k0 w = .ok w₃ →
      NearKVs (b/2 + 1) w₂ w₃
  | .nil, w₁, w₂, w₃, h1, h2, h3 => by
      simp only [dsWalkWrapEntries, exceptPureEq, Except.ok.injEq] at h1 h3
      subst h1
      subst h3
      simp only [dsWalkWrapEntries, exceptPureEq, Except.ok.injEq] at h2
      subst h2
      trivial
  | .cons k v rest, w₁, w₂, w₃, h1, h2, h3 => by
      rw [dsWalkWrapEntries_cons] at h1 h3
      obtain ⟨v1, hv1, h1'⟩ := bindOkInv h1
      obtain ⟨t1, ht1, h1''⟩ := bindOkInv h1'
      simp only [exceptPureEq, Except.ok.injEq] at h1''
      subst h1''
      obtain ⟨v3, hv3, h3'⟩ := bindOkInv h3
      obtain ⟨t3, ht3, h3''⟩ := bindOkInv h3'
      simp only [exceptPureEq, Except.ok.injEq] at h3''
      subst h3''
      rw [dsWalkWrapEntries_cons] at h2
      obtain ⟨v2, hv2, h2'⟩ := bindOkInv h2
      obtain ⟨t2, ht2, h2''⟩ := bindOkInv h2'
      simp only [exceptPureEq, Except.ok.injEq] at h2''
      subst h2''
      refine ⟨rfl, ?_, dsWalkWrapEntriesComp a b ha hb k0 rest t1 t2 t3 ht1 ht2 ht3⟩
      by_cases hc : (k = "value" && v.isNum) = true
      · simp only [dsWrapEntry, if_pos hc, exceptPureEq, Except.ok.injEq] at hv1 hv3
        subst hv1
        subst hv3
        have hnum : v.isNum = true := by
          simp only [Bool.and_eq_true] at hc
          exact hc.2
        simp only [dsWrapEntry,
          if_pos (show (k = "value" && (dsScaleNum a v).isNum) = true by
            rw [isNum_dsScaleNum]; exact hc),
          exceptPureEq, Except.ok.injEq] at hv2
        subst hv2
        exact dsScaleNum_comp ha hb hnum
      · simp only [dsWrapEntry, if_neg hc] at hv1 hv3
        simp only [dsWrapEntry,
          if_neg (show ¬(k = "value" && v1.isNum) = true by
            rw [dsEntry_ok_isNum hv1]; exact hc)] at hv2
        exact dsEntryComp a b ha hb (some k0) k v v1 v2 v3 hv1 hv2 hv3
termination_by structural w w₁ w₂ w₃ h1 h2 h3 => w

end

/-! ### C7: the staged root of `scale_data`

`scale_data` first scales root `width`, then root `height`, then loops over
the remaining root entries.  The second application's `width`/`height`
updates act on the output of the first application's loop, but the loop never
touches a `width`/`height` entry and the two updates target different keys,
so the stages can be interchanged and then composed pairwise. -/

theorem loop_setKey_comm (f : ℚ) (k0 : String) (hk0 : k0 = "width" ∨ k0 = "height")
    (u : Node → Except Unit Node) :
    (X Y Z : NodeKVs) → dsScaleDataLoop f X = .ok Y → NodeKVs.setKeyE k0 u Y = .ok Z →
      ∃ W, NodeKVs.setKeyE k0 u X = .ok W ∧ dsScaleDataLoop f W = .ok Z
  | .nil, Y, Z, hY, hZ => by
      simp only [dsScaleDataLoop, exceptPureEq, Except.ok.injEq] at hY
      subst hY
      simp only [NodeKVs.setKeyE, exceptPureEq, Except.ok.injEq] at hZ
      subst hZ
      exact ⟨.nil, rfl, rfl⟩
  | .cons k v rest, Y, Z, hY, hZ => by
      simp only [dsScaleDataLoop] at hY
      by_cases hwh : k = "width" ∨ k = "height"
      · rw [if_pos hwh] at hY
        simp only [exceptPureEq, exceptOkBind] at hY
        obtain ⟨restY, hrY, hY'⟩ := bindOkInv hY
        simp only [exceptPureEq, Except.ok.injEq] at hY'
        subst hY'
        simp only [NodeKVs.setKeyE] at hZ
        by_cases hke : k = k0
        · rw [if_pos hke] at hZ
          obtain ⟨v', hv', hZ'⟩ := bindOkInv hZ
          simp only [exceptPureEq, Except.ok.injEq] at hZ'
          subst hZ'
          refine ⟨.cons k v' rest, ?_, ?_⟩
          · simp only [NodeKVs.setKeyE]
            rw [if_pos hke, hv']
            rfl
          · simp only [dsScaleDataLoop]
            rw [if_pos hwh]
            simp only [exceptPureEq, exceptOkBind]
            rw [hrY]
            rfl
        · rw [if_neg hke] at hZ
          obtain ⟨restZ, hrZ, hZ'⟩ := bindOkInv hZ
          simp only [exceptPureEq, Except.ok.injEq] at hZ'
          subst hZ'
          obtain ⟨W', hW1, hW2⟩ := loop_setKey_comm f k0 hk0 u rest restY restZ hrY hrZ
          refine ⟨.cons k v W', ?_, ?_⟩
          · simp only [NodeKVs.setKeyE]
            rw [if_neg hke, hW1]
            rfl
          · simp only [dsScaleDataLoop]
            rw [if_pos hwh]
            simp only [exceptPureEq, exceptOkBind]
            rw [hW2]
            rfl
      · rw [if_neg hwh] at hY
        have hke : ¬(k = k0) := fun he => hwh (he ▸ hk0)
        cases v with
        | obj w =>
            simp only [exceptPureEq, exceptOkBind] at hY
            obtain ⟨w1, hw1, hY'⟩ := bindOkInv hY
            obtain ⟨restY, hrY, hY''⟩ := bindOkInv hY'
            simp only [exceptPureEq, Except.ok.injEq] at hY''
            subst hY''
            simp only [NodeKVs.setKeyE] at hZ
            rw [if_neg hke] at hZ
            obtain ⟨restZ, hrZ, hZ'⟩ := bindOkInv hZ
            simp only [exceptPureEq, Except.ok.injEq] at hZ'
            subst hZ'
            obtain ⟨W', hW1, hW2⟩ := loop_setKey_comm f k0 hk0 u rest restY restZ hrY hrZ
            refine ⟨.cons k (.obj w) W', ?_, ?_⟩
            · simp only [NodeKVs.setKeyE]
              rw [if_neg hke, hW1]
              rfl
            · simp only [dsScaleDataLoop]
              rw [if_neg hwh]
              simp only [exceptPureEq, exceptOkBind]
              rw [hw1]
              simp only [exceptOkBind]
              rw [hW2]
              rfl
        | arr xs =>
            simp only [exceptPureEq, exceptOkBind] at hY
            obtain ⟨xs1, hx1, hY'⟩ := bindOkInv hY
            obtain ⟨restY, hrY, hY''⟩ := bindOkInv hY'
            simp only [exceptPureEq, Except.ok.injEq] at hY''
            subst hY''
            simp only [NodeKVs.setKeyE] at hZ
            rw [if_neg hke] at hZ
            obtain ⟨restZ, hrZ, hZ'⟩ := bindOkInv hZ
            simp only [exceptPureEq, Except.ok.injEq] at hZ'
            subst hZ'
            obtain ⟨W', hW1, hW2⟩ := loop_setKey_comm f k0 hk0 u rest restY restZ hrY hrZ
            refine ⟨.cons k (.arr xs) W', ?_, ?_⟩
            · simp only [NodeKVs.setKeyE]
              rw [if_neg hke, hW1]
              rfl
            · simp only [dsScaleDataLoop]
              rw [if_neg hwh]
              simp only [exceptPureEq, exceptOkBind]
              rw [hx1]
              simp only [exceptOkBind]
              rw [hW2]
              rfl
        | vInt m =>
            simp only [exceptPureEq, exceptOkBind] at hY
            obtain ⟨restY, hrY, hY'⟩ := bindOkInv hY
            simp only [exceptPureEq, Except.ok.injEq] at hY'
            subst hY'
            simp only [NodeKVs.setKeyE] at hZ
            rw [if_neg hke] at hZ
            obtain ⟨restZ, hrZ, hZ'⟩ := bindOkInv hZ
            simp only [exceptPureEq, Except.ok.injEq] at hZ'
            subst hZ'
            obtain ⟨W', hW1, hW2⟩ := loop_setKey_comm f k0 hk0 u rest restY restZ hrY hrZ
            refine ⟨.cons k (.vInt m) W', ?_, ?_⟩
            · simp only [NodeKVs.setKeyE]
              rw [if_neg hke, hW1]
              rfl
            · simp only [dsScaleDataLoop]
              rw [if_neg hwh]
              simp only [exceptPureEq, exceptOkBind]
              rw [hW2]
              rfl
        | vFloat fv =>
            simp only [exceptPureEq, exceptOkBind] at hY
            obtain ⟨restY, hrY, hY'⟩ := bindOkInv hY
            simp only [exceptPureEq, Except.ok.injEq] at hY'
            subst hY'
            simp only [NodeKVs.setKeyE] at hZ
            rw [if_neg hke] at hZ
            obtain ⟨restZ, hrZ, hZ'⟩ := bindOkInv hZ
            simp only [exceptPureEq, Except.ok.injEq] at hZ'
            subst hZ'
            obtain ⟨W', hW1, hW2⟩ := loop_setKey_comm f k0 hk0 u rest restY restZ hrY hrZ
            refine ⟨.cons k (.vFloat fv) W', ?_, ?_⟩
            · simp only [NodeKVs.setKeyE]
              rw [if_neg hke, hW1]
              rfl
            · simp only [dsScaleDataLoop]
              rw [if_neg hwh]
              simp only [exceptPureEq, exceptOkBind]
              rw [hW2]
              rfl
        | vStr s =>
            simp only [exceptPureEq, exceptOkBind] at hY
            obtain ⟨restY, hrY, hY'⟩ := bindOkInv hY
            simp only [exceptPureEq, Except.ok.injEq] at hY'
            subst hY'
            simp only [NodeKVs.setKeyE] at hZ
            rw [if_neg hke] at hZ
            obtain ⟨restZ, hrZ, hZ'⟩ := bindOkInv hZ
            simp only [exceptPureEq, Except.ok.injEq] at hZ'
            subst hZ'
            obtain ⟨W', hW1, hW2⟩ := loop_setKey_comm f k0 hk0 u rest restY restZ hrY hrZ
            refine ⟨.cons k (.vStr s) W', ?_, ?_⟩
            · simp only [NodeKVs.setKeyE]
              rw [if_neg hke, hW1]
              rfl
            · simp only [dsScaleDataLoop]
              rw [if_neg hwh]
              simp only [exceptPureEq, exceptOkBind]
              rw [hW2]
              rfl
        | vBool c =>
            simp only [exceptPureEq, exceptOkBind] at hY
            obtain ⟨restY, hrY, hY'⟩ := bindOkInv hY
            simp only [exceptPureEq, Except.ok.injEq] at hY'
            subst hY'
            simp only [NodeKVs.setKeyE] at hZ
            rw [if_neg hke] at hZ
            obtain ⟨restZ, hrZ, hZ'⟩ := bindOkInv hZ
            simp only [exceptPureEq, Except.ok.injEq] at hZ'
            subst hZ'
            obtain ⟨W', hW1, hW2⟩ := loop_setKey_comm f k0 hk0 u rest restY restZ hrY hrZ
            refine ⟨.cons k (.vBool c) W', ?_, ?_⟩
            · simp only [NodeKVs.setKeyE]
              rw [if_neg hke, hW1]
              rfl
            · simp only [dsScaleDataLoop]
              rw [if_neg hwh]
              simp only [exceptPureEq, exceptOkBind]
              rw [hW2]
              rfl
        | vNull =>
            simp only [exceptPureEq, exceptOkBind] at hY
            obtain ⟨restY, hrY, hY'⟩ := bindOkInv hY
            simp only [exceptPureEq, Except.ok.injEq] at hY'
            subst hY'
            simp only [NodeKVs.setKeyE] at hZ
            rw [if_neg hke] at hZ
            obtain ⟨restZ, hrZ, hZ'⟩ := bindOkInv hZ
            simp only [exceptPureEq, Except.ok.injEq] at hZ'
            subst hZ'
            obtain ⟨W', hW1, hW2⟩ := loop_setKey_comm f k0 hk0 u rest restY restZ hrY hrZ
            refine ⟨.cons k .vNull W', ?_, ?_⟩
            · simp only [NodeKVs.setKeyE]
              rw [if_neg hke, hW1]
              rfl
            · simp only [dsScaleDataLoop]
              rw [if_neg hwh]
              simp only [exceptPureEq, exceptOkBind]
              rw [hW2]
              rfl

theorem setKey_setKey_comm (k1 k2 : String) (hne : ¬(k2 = k1))
    (u1 u2 : Node → Except Unit Node) :
    (X Y Z : NodeKVs) → NodeKVs.setKeyE k1 u1 X = .ok Y → NodeKVs.setKeyE k2 u2 Y = .ok Z →
      ∃ W, NodeKVs.setKeyE k2 u2 X = .ok W ∧ NodeKVs.setKeyE k1 u1 W = .ok Z
  | .nil, Y, Z, hY, hZ => by
      simp only [NodeKVs.setKeyE, exceptPureEq, Except.ok.injEq] at hY
      subst hY
      simp only [NodeKVs.setKeyE, exceptPureEq, Except.ok.injEq] at hZ
      subst hZ
      exact ⟨.nil, rfl, rfl⟩
  | .cons k v rest, Y, Z, hY, hZ => by
      simp only [NodeKVs.setKeyE] at hY
      by_cases hk1 : k = k1
      · rw [if_pos hk1] at hY
        obtain ⟨v1, hv1, hY'⟩ := bindOkInv hY
        simp only [exceptPureEq, Except.ok.injEq] at hY'
        subst hY'
        have hk2 : ¬(k = k2) := fun he => hne (he ▸ hk1)
        simp only [NodeKVs.setKeyE] at hZ
        rw [if_neg hk2] at hZ
        obtain ⟨restZ, hrZ, hZ'⟩ := bindOkInv hZ
        simp only [exceptPureEq, Except.ok.injEq] at hZ'
        subst hZ'
        refine ⟨.cons k v restZ, ?_, ?_⟩
        · simp only [NodeKVs.setKeyE]
          rw [if_neg hk2, hrZ]
          rfl
        · simp only [NodeKVs.setKeyE]
          rw [if_pos hk1, hv1]
          rfl
      · rw [if_neg hk1] at hY
        obtain ⟨restY, hrY, hY'⟩ := bindOkInv hY
        simp only [exceptPureEq, Except.ok.injEq] at hY'
        subst hY'
        simp only [NodeKVs.setKeyE] at hZ
        by_cases hk2 : k = k2
        · rw [if_pos hk2] at hZ
          obtain ⟨v2, hv2, hZ'⟩ := bindOkInv hZ
          simp only [exceptPureEq, Except.ok.injEq] at hZ'
          subst hZ'
          refine ⟨.cons k v2 rest, ?_, ?_⟩
          · simp only [NodeKVs.setKeyE]
            rw [if_pos hk2, hv2]
            rfl
          · simp only [NodeKVs.setKeyE]
            rw [if_neg hk1, hrY]
            rfl
        · rw [if_neg hk2] at hZ
          obtain ⟨restZ, hrZ, hZ'⟩ := bindOkInv hZ
          simp only [exceptPureEq, Except.ok.injEq] at hZ'
          subst hZ'
          obtain ⟨W', hW1, hW2⟩ := setKey_setKey_comm k1 k2 hne u1 u2 rest restY restZ hrY hrZ
          refine ⟨.cons k v W', ?_, ?_⟩
          · simp only [NodeKVs.setKeyE]
            rw [if_neg hk2, hW1]
            rfl
          · simp only [NodeKVs.setKeyE]
            rw [if_neg hk1, hW2]
            rfl

theorem setKeyStageComp {a b : ℚ} (ha : 0 < a) (hb : 0 < b) (k0 : String)
    (P : String → Bool) (hP : P k0 = false) :
    (X Y A1 X1 Y1 : NodeKVs) → NearAt P (b/2 + 1) X Y →
      NodeKVs.setKeyE k0 (dsScaleNumE a) X = .ok A1 →
      NodeKVs.setKeyE k0 (dsScaleNumE b) A1 = .ok X1 →
      NodeKVs.setKeyE k0 (dsScaleNumE (a*b)) Y = .ok Y1 →
      NearAt (fun k => P k || k == k0) (b/2 + 1) X1 Y1
  | .nil, .nil, A1, X1, Y1, hrel, h1, h2, h3 => by
      simp only [NodeKVs.setKeyE, exceptPureEq, Except.ok.injEq] at h1 h3
      subst h1
      subst h3
      simp only [NodeKVs.setKeyE, exceptPureEq, Except.ok.injEq] at h2
      subst h2
      trivial
  | .nil, .cons _ _ _, A1, X1, Y1, hrel, _, _, _ => absurd hrel (by simp [NearAt])
  | .cons _ _ _, .nil, A1, X1, Y1, hrel, _, _, _ => absurd hrel (by simp [NearAt])
  | .cons k v restX, .cons k' v' restY, A1, X1, Y1, hrel, h1, h2, h3 => by
      obtain ⟨hk, hv, hrest⟩ := hrel
      rw [hk] at h3
      simp only [NodeKVs.setKeyE] at h1 h3
      by_cases hke : k = k0
      · rw [if_pos hke] at h1 h3
        have hPk : ¬(P k = true) := by rw [hke, hP]; simp
        rw [if_neg hPk] at hv
        subst hv
        obtain ⟨u1, hu1, h1'⟩ := bindOkInv h1
        simp only [exceptPureEq, Except.ok.injEq] at h1'
        subst h1'
        obtain ⟨u3, hu3, h3'⟩ := bindOkInv h3
        simp only [exceptPureEq, Except.ok.injEq] at h3'
        subst h3'
        simp only [NodeKVs.setKeyE] at h2
        rw [if_pos hke] at h2
        obtain ⟨u2, hu2, h2'⟩ := bindOkInv h2
        simp only [exceptPureEq, Except.ok.injEq] at h2'
        subst h2'
        obtain ⟨hn1, he1⟩ := dsScaleNumE_ok hu1
        subst he1
        obtain ⟨hn2, he2⟩ := dsScaleNumE_ok hu2
        subst he2
        obtain ⟨hn3, he3⟩ := dsScaleNumE_ok hu3
        subst he3
        refine ⟨rfl, ?_, nearAt_mono (by linarith) (fun k hk => by simp [hk]) restX restY hrest⟩
        rw [if_pos (show (P k || k == k0) = true by simp [hke])]
        exact dsScaleNum_comp ha hb hn1
      · rw [if_neg hke] at h1 h3
        obtain ⟨rA, hrA, h1'⟩ := bindOkInv h1
        simp only [exceptPureEq, Except.ok.injEq] at h1'
        subst h1'
        obtain ⟨rY1, hrY1, h3'⟩ := bindOkInv h3
        simp only [exceptPureEq, Except.ok.injEq] at h3'
        subst h3'
        simp only [NodeKVs.setKeyE] at h2
        rw [if_neg hke] at h2
        obtain ⟨rX1, hrX1, h2'⟩ := bindOkInv h2
        simp only [exceptPureEq, Except.ok.injEq] at h2'
        subst h2'
        refine ⟨rfl, ?_,
          setKeyStageComp ha hb k0 P hP restX restY rA rX1 rY1 hrest hrA hrX1 hrY1⟩
        by_cases hPk : P k = true
        · rw [if_pos hPk] at hv
          rw [if_pos (show (P k || k == k0) = true by simp [hPk])]
          exact hv
        · rw [if_neg hPk] at hv
          rw [if_neg (show ¬((P k || k == k0) = true) by simp [hPk, hke])]
          exact hv

theorem loopStageComp {a b : ℚ} (ha : 0 < a) (hb : 0 < b) (P : String → Bool)
    (hP : ∀ k, P k = true → k = "width" ∨ k = "height") :
    (X Y A X2 Y2 : NodeKVs) → NearAt P (b/2 + 1) X Y →
      dsScaleDataLoop a X = .ok A → dsScaleDataLoop b A = .ok X2 →
      dsScaleDataLoop (a*b) Y = .ok Y2 → NearKVs (b/2 + 1) X2 Y2
  | .nil, .nil, A, X2, Y2, hrel, h1, h2, h3 => by
      simp only [dsScaleDataLoop, exceptPureEq, Except.ok.injEq] at h1 h3
      subst h1
      subst h3
      simp only [dsScaleDataLoop, exceptPureEq, Except.ok.injEq] at h2
      subst h2
      trivial
  | .nil, .cons _ _ _, A, X2, Y2, hrel, _, _, _ => absurd hrel (by simp [NearAt])
  | .cons _ _ _, .nil, A, X2, Y2, hrel, _, _, _ => absurd hrel (by simp [NearAt])
  | .cons k v restX, .cons k' v' restY, A, X2, Y2, hrel, h1, h2, h3 => by
      obtain ⟨hk, hv, hrest⟩ := hrel
      rw [hk] at h3
      simp only [dsScaleDataLoop] at h1 h3
      by_cases hwh : k = "width" ∨ k = "height"
      · rw [if_pos hwh] at h1 h3
        simp only [exceptPureEq, exceptOkBind] at h1 h3
        obtain ⟨rA, hrA, h1'⟩ := bindOkInv h1
        simp only [exceptPureEq, Except.ok.injEq] at h1'
        subst h1'
        obtain ⟨rY2, hrY2, h3'⟩ := bindOkInv h3
        simp only [exceptPureEq, Except.ok.injEq] at h3'
        subst h3'
        simp only [dsScaleDataLoop] at h2
        rw [if_pos hwh] at h2
        simp only [exceptPureEq, exceptOkBind] at h2
        obtain ⟨rX2, hrX2, h2'⟩ := bindOkInv h2
        simp only [exceptPureEq, Except.ok.injEq] at h2'
        subst h2'
        refine ⟨rfl, ?_, loopStageComp ha hb P hP restX restY rA rX2 rY2 hrest hrA hrX2 hrY2⟩
        by_cases hPk : P k = true
        · rw [if_pos hPk] at hv
          exact hv
        · rw [if_neg hPk] at hv
          rw [hv]
          exact nearN_refl (by linarith) v
      · rw [if_neg hwh] at h1 h3
        have hPk : ¬(P k = true) := fun hp => hwh (hP k hp)
        rw [if_neg hPk] at hv
        rw [hv] at h3
        cases v with
        | obj w =>
            simp only [exceptPureEq, exceptOkBind] at h1 h3
            obtain ⟨w1, hw1, h1'⟩ := bindOkInv h1
            obtain ⟨rA, hrA, h1''⟩ := bindOkInv h1'
            simp only [exceptPureEq, Except.ok.injEq] at h1''
            subst h1''
            obtain ⟨w3, hw3, h3'⟩ := bindOkInv h3
            obtain ⟨rY2, hrY2, h3''⟩ := bindOkInv h3'
            simp only [exceptPureEq, Except.ok.injEq] at h3''
            subst h3''
            simp only [dsScaleDataLoop] at h2
            rw [if_neg hwh] at h2
            simp only [exceptPureEq, exceptOkBind] at h2
            obtain ⟨w2, hw2, h2'⟩ := bindOkInv h2
            obtain ⟨rX2, hrX2, h2''⟩ := bindOkInv h2'
            simp only [exceptPureEq, Except.ok.injEq] at h2''
            subst h2''
            exact ⟨rfl, dsWalkEntriesComp a b ha hb (some k) w w1 w2 w3 hw1 hw2 hw3,
              loopStageComp ha hb P hP restX restY rA rX2 rY2 hrest hrA hrX2 hrY2⟩
        | arr xs =>
            simp only [exceptPureEq, exceptOkBind] at h1 h3
            obtain ⟨x1, hx1, h1'⟩ := bindOkInv h1
            obtain ⟨rA, hrA, h1''⟩ := bindOkInv h1'
            simp only [exceptPureEq, Except.ok.injEq] at h1''
            subst h1''
            obtain ⟨x3, hx3, h3'⟩ := bindOkInv h3
            obtain ⟨rY2, hrY2, h3''⟩ := bindOkInv h3'
            simp only [exceptPureEq, Except.ok.injEq] at h3''
            subst h3''
            simp only [dsScaleDataLoop] at h2
            rw [if_neg hwh] at h2
            simp only [exceptPureEq, exceptOkBind] at h2
            obtain ⟨x2, hx2, h2'⟩ := bindOkInv h2
            obtain ⟨rX2, hrX2, h2''⟩ := bindOkInv h2'
            simp only [exceptPureEq, Except.ok.injEq] at h2''
            subst h2''
            exact ⟨rfl, dsWalkListComp a b ha hb (some k) xs x1 x2 x3 hx1 hx2 hx3,
              loopStageComp ha hb P hP restX restY rA rX2 rY2 hrest hrA hrX2 hrY2⟩
        | vInt m =>
            simp only [exceptPureEq, exceptOkBind] at h1 h3
            obtain ⟨rA, hrA, h1'⟩ := bindOkInv h1
            simp only [exceptPureEq, Except.ok.injEq] at h1'
            subst h1'
            obtain ⟨rY2, hrY2, h3'⟩ := bindOkInv h3
            simp only [exceptPureEq, Except.ok.injEq] at h3'
            subst h3'
            simp only [dsScaleDataLoop] at h2
            rw [if_neg hwh] at h2
            simp only [exceptPureEq, exceptOkBind] at h2
            obtain ⟨rX2, hrX2, h2'⟩ := bindOkInv h2
            simp only [exceptPureEq, Except.ok.injEq] at h2'
            subst h2'
            exact ⟨rfl, nearN_refl (by linarith) _,
              loopStageComp ha hb P hP restX restY rA rX2 rY2 hrest hrA hrX2 hrY2⟩
        | vFloat fv =>
            simp only [exceptPureEq, exceptOkBind] at h1 h3
            obtain ⟨rA, hrA, h1'⟩ := bindOkInv h1
            simp only [exceptPureEq, Except.ok.injEq] at h1'
            subst h1'
            obtain ⟨rY2, hrY2, h3'⟩ := bindOkInv h3
            simp only [exceptPureEq, Except.ok.injEq] at h3'
            subst h3'
            simp only [dsScaleDataLoop] at h2
            rw [if_neg hwh] at h2
            simp only [exceptPureEq, exceptOkBind] at h2
            obtain ⟨rX2, hrX2, h2'⟩ := bindOkInv h2
            simp only [exceptPureEq, Except.ok.injEq] at h2'
            subst h2'
            exact ⟨rfl, nearN_refl (by linarith) _,
              loopStageComp ha hb P hP restX restY rA rX2 rY2 hrest hrA hrX2 hrY2⟩
        | vStr s =>
            simp only [exceptPureEq, exceptOkBind] at h1 h3
            obtain ⟨rA, hrA, h1'⟩ := bindOkInv h1
            simp only [exceptPureEq, Except.ok.injEq] at h1'
            subst h1'
            obtain ⟨rY2, hrY2, h3'⟩ := bindOkInv h3
            simp only [exceptPureEq, Except.ok.injEq] at h3'
            subst h3'
            simp only [dsScaleDataLoop] at h2
            rw [if_neg hwh] at h2
            simp only [exceptPureEq, exceptOkBind] at h2
            obtain ⟨rX2, hrX2, h2'⟩ := bindOkInv h2
            simp only [exceptPureEq, Except.ok.injEq] at h2'
            subst h2'
            exact ⟨rfl, nearN_refl (by linarith) _,
              loopStageComp ha hb P hP restX restY rA rX2 rY2 hrest hrA hrX2 hrY2⟩
        | vBool c =>
            simp only [exceptPureEq, exceptOkBind] at h1 h3
            obtain ⟨rA, hrA, h1'⟩ := bindOkInv h1
            simp only [exceptPureEq, Except.ok.injEq] at h1'
            subst h1'
            obtain ⟨rY2, hrY2, h3'⟩ := bindOkInv h3
            simp only [exceptPureEq, Except.ok.injEq] at h3'
            subst h3'
            simp only [dsScaleDataLoop] at h2
            rw [if_neg hwh] at h2
            simp only [exceptPureEq, exceptOkBind] at h2
            obtain ⟨rX2, hrX2, h2'⟩ := bindOkInv h2
            simp only [exceptPureEq, Except.ok.injEq] at h2'
            subst h2'
            exact ⟨rfl, nearN_refl (by linarith) _,
              loopStageComp ha hb P hP restX restY rA rX2 rY2 hrest hrA hrX2 hrY2⟩
        | vNull =>
            simp only [exceptPureEq, exceptOkBind] at h1 h3
            obtain ⟨rA, hrA, h1'⟩ := bindOkInv h1
            simp only [exceptPureEq, Except.ok.injEq] at h1'
            subst h1'
            obtain ⟨rY2, hrY2, h3'⟩ := bindOkInv h3
            simp only [exceptPureEq, Except.ok.injEq] at h3'
            subst h3'
            simp only [dsScaleDataLoop] at h2
            rw [if_neg hwh] at h2
            simp only [exceptPureEq, exceptOkBind] at h2
            obtain ⟨rX2, hrX2, h2'⟩ := bindOkInv h2
            simp only [exceptPureEq, Except.ok.injEq] at h2'
            subst h2'
            exact ⟨rfl, nearN_refl (by linarith) _,
              loopStageComp ha hb P hP restX restY rA rX2 rY2 hrest hrA hrX2 hrY2⟩

theorem dsScaleData_obj_inv {f : ℚ} {kvs : NodeKVs} {out : Node}
    (h : dsScaleData f (.obj kvs) = .ok out) :
    ∃ k1 k2 k3,
      (if (kvs.lookup "width").isSome then NodeKVs.setKeyE "width" (dsScaleNumE f) kvs
        else pure kvs) = .ok k1 ∧
      (if (k1.lookup "height").isSome then NodeKVs.setKeyE "height" (dsScaleNumE f) k1
        else pure k1) = .ok k2 ∧
      dsScaleDataLoop f k2 = .ok k3 ∧ out = .obj k3 := by
  simp only [dsScaleData] at h
  by_cases hw : (NodeKVs.lookup "width" kvs).isSome = true
  · rw [if_pos hw] at h
    obtain ⟨k1, e1, h'⟩ := bindOkInv h
    by_cases hh : (NodeKVs.lookup "height" k1).isSome = true
    · rw [if_pos hh] at h'
      obtain ⟨k2, e2, h''⟩ := bindOkInv h'
      obtain ⟨k3, e3, h'''⟩ := bindOkInv h''
      simp only [exceptPureEq, Except.ok.injEq] at h'''
      refine ⟨k1, k2, k3, ?_, ?_, e3, h'''.symm⟩
      · rw [if_pos hw]
        exact e1
      · rw [if_pos hh]
        exact e2
    · rw [if_neg hh] at h'
      simp only [exceptPureEq, exceptOkBind] at h'
      obtain ⟨k3, e3, h'''⟩ := bindOkInv h'
      simp only [exceptPureEq, Except.ok.injEq] at h'''
      refine ⟨k1, k1, k3, ?_, ?_, e3, h'''.symm⟩
      · rw [if_pos hw]
        exact e1
      · rw [if_neg hh]
        rfl
  · rw [if_neg hw] at h
    simp only [exceptPureEq, exceptOkBind] at h
    by_cases hh : (NodeKVs.lookup "height" kvs).isSome = true
    · rw [if_pos hh] at h
      obtain ⟨k2, e2, h''⟩ := bindOkInv h
      obtain ⟨k3, e3, h'''⟩ := bindOkInv h''
      simp only [exceptPureEq, Except.ok.injEq] at h'''
      refine ⟨kvs, k2, k3, ?_, ?_, e3, h'''.symm⟩
      · rw [if_neg hw]
        rfl
      · rw [if_pos hh]
        exact e2
    · rw [if_neg hh] at h
      obtain ⟨k3, e3, h'''⟩ := bindOkInv h
      simp only [exceptPureEq, Except.ok.injEq] at h'''
      refine ⟨kvs, kvs, k3, ?_, ?_, e3, h'''.symm⟩
      · rw [if_neg hw]
        rfl
      · rw [if_neg hh]
        rfl

theorem rootStagePres (f : ℚ) (k0 : String) (hU : unclassDS k0 = false) {X Y : NodeKVs}
    (h : (if (X.lookup k0).isSome then NodeKVs.setKeyE k0 (dsScaleNumE f) X
      else pure X) = .ok Y) :
    PresKVs unclassDS X Y := by
  by_cases hc : (X.lookup k0).isSome = true
  · rw [if_pos hc] at h
    exact setKeyE_pres f k0 hU X Y h
  · rw [if_neg hc] at h
    simp only [exceptPureEq, Except.ok.injEq] at h
    subst h
    exact presKVs_refl _ _

theorem dsScaleDataComp {a b : ℚ} (ha : 0 < a) (hb : 0 < b) {d d1 d2 d3 : Node}
    (h1 : dsScaleData a d = .ok d1) (h2 : dsScaleData b d1 = .ok d2)
    (h3 : dsScaleData (a*b) d = .ok d3) : NearN (b/2 + 1) d2 d3 := by
  have hB : (0:ℚ) ≤ b/2 + 1 := by linarith
  cases d with
  | obj kvs =>
      obtain ⟨A1, A2, A3, ea1, ea2, ea3, hd1⟩ := dsScaleData_obj_inv h1
      subst hd1
      obtain ⟨B1, B2, B3, eb1, eb2, eb3, hd2⟩ := dsScaleData_obj_inv h2
      subst hd2
      obtain ⟨C1, C2, C3, ec1, ec2, ec3, hd3⟩ := dsScaleData_obj_inv h3
      subst hd3
      show NearKVs (b/2 + 1) B3 C3
      have pA1 : PresKVs unclassDS kvs A1 := rootStagePres a "width" (by decide) ea1
      have pA2 : PresKVs unclassDS A1 A2 := rootStagePres a "height" (by decide) ea2
      have pA3 : PresKVs unclassDS A2 A3 := dsScaleDataLoop_pres a A2 A3 ea3
      have pC1 : PresKVs unclassDS kvs C1 := rootStagePres (a*b) "width" (by decide) ec1
      have pkvsA3 : PresKVs unclassDS kvs A3 :=
        presKVs_trans _ _ _ _ (presKVs_trans _ _ _ _ pA1 pA2) pA3
      have hA3w : (A3.lookup "width").isSome = (kvs.lookup "width").isSome :=
        lookup_isSome_eq_of_presKVs _ _ _ pkvsA3 "width"
      have hA1h : (A1.lookup "height").isSome = (kvs.lookup "height").isSome :=
        lookup_isSome_eq_of_presKVs _ _ _ pA1 "height"
      have hC1h : (C1.lookup "height").isSome = (kvs.lookup "height").isSome :=
        lookup_isSome_eq_of_presKVs _ _ _ pC1 "height"
      by_cases hw : (kvs.lookup "width").isSome = true
      · rw [if_pos hw] at ea1 ec1
        rw [if_pos (by rw [hA3w]; exact hw)] at eb1
        have pB1 : PresKVs unclassDS A3 B1 := setKeyE_pres b "width" (by decide) A3 B1 eb1
        have hB1h : (B1.lookup "height").isSome = (kvs.lookup "height").isSome := by
          rw [lookup_isSome_eq_of_presKVs _ _ _ pB1 "height",
            lookup_isSome_eq_of_presKVs _ _ _ pkvsA3 "height"]
        by_cases hh : (kvs.lookup "height").isSome = true
        · rw [if_pos (by rw [hA1h]; exact hh)] at ea2
          rw [if_pos (by rw [hB1h]; exact hh)] at eb2
          rw [if_pos (by rw [hC1h]; exact hh)] at ec2
          obtain ⟨W1, hW1set, hW1loop⟩ :=
            loop_setKey_comm a "width" (Or.inl rfl) (dsScaleNumE b) A2 A3 B1 ea3 eb1
          obtain ⟨V, hVset, hVha⟩ :=
            setKey_setKey_comm "height" "width" (by decide) (dsScaleNumE a) (dsScaleNumE b)
              A1 A2 W1 ea2 hW1set
          obtain ⟨W2, hW2set, hW2loop⟩ :=
            loop_setKey_comm a "height" (Or.inr rfl) (dsScaleNumE b) W1 B1 B2 hW1loop eb2
          have nearV := setKeyStageComp ha hb "width" (fun _ => false) rfl kvs kvs A1 V C1
            (nearAt_refl _ hB kvs) ea1 hVset ec1
          have nearW2 := setKeyStageComp ha hb "height" (fun k => false || k == "width")
            (by decide) V C1 W1 W2 C2 nearV hVha hW2set ec2
          exact loopStageComp ha hb _ (fun k hk => by simpa using hk) W2 C2 B2 B3 C3
            nearW2 hW2loop eb3 ec3
        · rw [if_neg (by rw [hA1h]; exact hh)] at ea2
          rw [if_neg (by rw [hB1h]; exact hh)] at eb2
          rw [if_neg (by rw [hC1h]; exact hh)] at ec2
          simp only [exceptPureEq, Except.ok.injEq] at ea2 eb2 ec2
          rw [← ea2] at ea3
          rw [← eb2] at eb3
          rw [← ec2] at ec3
          obtain ⟨W1, hW1set, hW1loop⟩ :=
            loop_setKey_comm a "width" (Or.inl rfl) (dsScaleNumE b) A1 A3 B1 ea3 eb1
          have nearW1 := setKeyStageComp ha hb "width" (fun _ => false) rfl kvs kvs A1 W1 C1
            (nearAt_refl _ hB kvs) ea1 hW1set ec1
          exact loopStageComp ha hb _ (fun k hk => Or.inl (by simpa using hk)) W1 C1 B1 B3 C3
            nearW1 hW1loop eb3 ec3
      · rw [if_neg hw] at ea1 ec1
        rw [if_neg (by rw [hA3w]; exact hw)] at eb1
        simp only [exceptPureEq, Except.ok.injEq] at ea1 eb1 ec1
        rw [← ea1] at ea2
        rw [← eb1] at eb2
        rw [← ec1] at ec2
        by_cases hh : (kvs.lookup "height").isSome = true
        · rw [if_pos hh] at ea2 ec2
          rw [if_pos (by
            rw [lookup_isSome_eq_of_presKVs _ _ _ pkvsA3 "height"]; exact hh)] at eb2
          obtain ⟨W2, hW2set, hW2loop⟩ :=
            loop_setKey_comm a "height" (Or.inr rfl) (dsScaleNumE b) A2 A3 B2 ea3 eb2
          have nearW2 := setKeyStageComp ha hb "height" (fun _ => false) rfl kvs kvs A2 W2 C2
            (nearAt_refl _ hB kvs) ea2 hW2set ec2
          exact loopStageComp ha hb _ (fun k hk => Or.inr (by simpa using hk)) W2 C2 B2 B3 C3
            nearW2 hW2loop eb3 ec3
        · rw [if_neg hh] at ea2 ec2
          rw [if_neg (by
            rw [lookup_isSome_eq_of_presKVs _ _ _ pkvsA3 "height"]; exact hh)] at eb2
          simp only [exceptPureEq, Except.ok.injEq] at ea2 eb2 ec2
          rw [← ea2] at ea3
          rw [← eb2] at eb3
          rw [← ec2] at ec3
          exact loopStageComp ha hb (fun _ => false) (fun k hk => by simp at hk) kvs kvs
            A3 B3 C3 (nearAt_refl _ hB kvs) ea3 eb3 ec3
  | arr xs => simp [dsScaleData] at h1
  | vInt m => simp [dsScaleData] at h1
  | vFloat fv => simp [dsScaleData] at h1
  | vStr s => simp [dsScaleData] at h1
  | vBool c => simp [dsScaleData] at h1
  | vNull => simp [dsScaleData] at h1

/-- C7 (original ±1 bound refuted): scaling `{"width": 1}` by 1/2 rounds the
integer leaf to 0 (round-half-even), and rescaling by 20 keeps 0, while
scaling once by (1/2)·20 = 10 gives 10 — a drift of 10 units on a leaf
scaled in both steps, not bounded by ±1. -/
theorem claim_C7_counterexample :
    dsScaleData (1/2) (obj1 "width" (.vInt 1)) = .ok (obj1 "width" (.vInt 0))
    ∧ dsScaleData 20 (obj1 "width" (.vInt 0)) = .ok (obj1 "width" (.vInt 0))
    ∧ dsScaleData ((1/2) * 20) (obj1 "width" (.vInt 1)) = .ok (obj1 "width" (.vInt 10))
    ∧ ¬ NearN 1 (obj1 "width" (.vInt 0)) (obj1 "width" (.vInt 10)) := by
  refine ⟨?_, ?_, ?_, ?_⟩
  · norm_num +decide [dsScaleData, dsScaleDataLoop, NodeKVs.lookup, NodeKVs.setKeyE,
      dsScaleNumE, dsScaleNum, Node.isNum, roundHalfEven, Int.fract, obj1]
  · norm_num +decide [dsScaleData, dsScaleDataLoop, NodeKVs.lookup, NodeKVs.setKeyE,
      dsScaleNumE, dsScaleNum, Node.isNum, roundHalfEven, Int.fract, obj1]
  · norm_num +decide [dsScaleData, dsScaleDataLoop, NodeKVs.lookup, NodeKVs.setKeyE,
      dsScaleNumE, dsScaleNum, Node.isNum, roundHalfEven, Int.fract, obj1]
  · intro hn
    have : |((0:ℤ) : ℚ) - ((10:ℤ) : ℚ)| ≤ 1 := hn.2.1
    norm_num at this

/-- C7 (amended): for all positive factors `a` and `b` and every input tree,
applying the DirectScaler spatial pass (`scale_data`) with factor `a` and
then again with factor `b` yields the same tree as applying it once with
factor `a*b`, except that corresponding integer leaves may differ by up to
`b/2 + 1`: the ≤ 1/2 rounding error of the first pass is amplified by the
second factor `b` and combined with the two further half-unit roundings, so
the drift is bounded by `b/2 + 1` rather than by one unit. -/
theorem claim_C7_amended (a b : ℚ) (ha : 0 < a) (hb : 0 < b) (d d1 d2 d3 : Node)
    (h1 : dsScaleData a d = .ok d1) (h2 : dsScaleData b d1 = .ok d2)
    (h3 : dsScaleData (a*b) d = .ok d3) : NearN (b/2 + 1) d2 d3 :=
  dsScaleDataComp ha hb h1 h2 h3

/-- Witness for the amended C7 at the counterexample document: factors 1/2
then 20 against 10; the results 0 and 10 differ by 10 ≤ 20/2 + 1. -/
theorem claim_C7_amended_witness :
    NearN (20/2 + 1) (obj1 "width" (.vInt 0)) (obj1 "width" (.vInt 10)) :=
  claim_C7_amended (1/2) 20 (by norm_num) (by norm_num)
    (obj1 "width" (.vInt 1)) (obj1 "width" (.vInt 0)) (obj1 "width" (.vInt 0))
    (obj1 "width" (.vInt 10))
    (by norm_num +decide [dsScaleData, dsScaleDataLoop, NodeKVs.lookup, NodeKVs.setKeyE,
      dsScaleNumE, dsScaleNum, Node.isNum, roundHalfEven, Int.fract, obj1])
    (by norm_num +decide [dsScaleData, dsScaleDataLoop, NodeKVs.lookup, NodeKVs.setKeyE,
      dsScaleNumE, dsScaleNum, Node.isNum, roundHalfEven, Int.fract, obj1])
    (by norm_num +decide [dsScaleData, dsScaleDataLoop, NodeKVs.lookup, NodeKVs.setKeyE,
      dsScaleNumE, dsScaleNum, Node.isNum, roundHalfEven, Int.fract, obj1])

end Tscprojpy
